import Mathlib

/-!
# Quiz and exam core of the study guide (`src/src/App.js`)

A shallow embedding of the exam-construction code (`shuffle`, `buildQuestions`,
`buildExam`), of the quick-quiz builder (`startQuickQuiz`) and of the quiz and
exam sessions (`handleQqAnswer`, `nextQq`, `launchExam`, `setExamAnswer`,
`submitExam`, the results and the grade tables), followed by the properties
proved about them.

Modelling conventions.

* JavaScript arrays are Lean lists; an index that the source reads or writes is
  always in range, and an out-of-range `List` operation is a no-op.
* `Math.random()` is a source `Rng` of raw naturals, one per call, and
  `Math.floor(Math.random() * n)` is the next raw value taken modulo `n`: every
  outcome `0, …, n - 1` is reached by some source.  Every function that draws
  returns the advanced source next to its result.
* `Math.round((len / total) * TARGET)` is floating point.  The allocator takes
  the rounding as a parameter `rnd len total`; `jsPct` is the evaluation of the
  source in doubles (the division and the product each rounded to the nearest
  double, then `Math.round`), `roundPct` is the round-half-up value over exact
  arithmetic, and `RoundsNear` describes every evaluation whose error before
  rounding is at most one thousandth, `jsPct` and `roundPct` among them.  The
  score percentages `Math.round((correct / total) * 100)` take the same
  parameter.
* The component state is a record of the `useState` values that a handler
  reads or sets, and a handler call is one transition on the state it was
  rendered with; values derived during render (`totalExamQs`, `canSubmit`,
  `examResults`, the grades) are functions of that state.  A `TypeError` is
  the result `none`.
* The object `examAnswers` is the list of its properties; its keys are the
  template strings of section index, hyphen and question index, with
  `toString` on naturals for the decimal digits.
-/

namespace StudyApp

/-! ## Data -/

/-- Accent colours assigned to each chapter in order (`COLORS`). -/
def COLORS : List String :=
  ["#e85d04", "#2d6a4f", "#7209b7", "#0077b6", "#c77dff", "#f77f00", "#e63946", "#06a77d"]

/-- Chapter object of the course data; `terms` holds the `[term, definition]`
pairs.  The `sections` field (study notes) is not read by the quiz core. -/
structure Chapter where
  num : Nat
  title : String
  emoji : String
  terms : List (String × String)
deriving DecidableEq, Repr

/-- Pool entry `[term, definition, chapterNum, chapterTitle]`. -/
abbrev Tuple := String × String × Nat × String

/-- Question object built by `buildQuestions`. -/
structure Question where
  term : String
  correctDef : String
  chapterNum : Nat
  chapterTitle : String
  options : List String
deriving DecidableEq, Repr

/-- Question object built by `startQuickQuiz`. -/
structure QuickQuestion where
  term : String
  correctDef : String
  options : List String
deriving DecidableEq, Repr

/-- Section object returned by `buildExam`; `color` is `COLORS[ci]`, which is
`undefined` (here `none`) from the ninth chapter on. -/
structure ExamSection where
  chapterNum : Nat
  chapterTitle : String
  emoji : String
  color : Option String
  questions : List Question
deriving DecidableEq, Repr

/-- The shipped course data (`chapters`), with the `terms` of every chapter. -/
def chapters : List Chapter := [
  { num := 1, title := "The Changing Face of Business", emoji := "🏢",
    terms := [
      ("Business", "All profit-seeking activities and enterprises providing goods/services to an economic system"),
      ("Profits", "Rewards for businesspeople who take the risks of offering goods and services to customers"),
      ("Factors of production", "Natural resources, Capital, Human resources, Entrepreneurship — the four inputs every economy needs"),
      ("Capitalism", "Private enterprise system; minimal govt intervention; competition (invisible hand) regulates economy"),
      ("Competitive differentiation", "Unique combination of abilities, products, and approaches that sets a firm apart from competitors"),
      ("Invisible hand", "Adam Smith's concept: competition naturally regulates economic life without government direction"),
      ("Vision", "Ability to perceive marketplace needs and what an organization must do to satisfy them"),
      ("Critical thinking", "Ability to analyze and assess information to pinpoint problems or opportunities"),
      ("Creativity", "Capacity to develop novel solutions to perceived organizational problems"),
      ("Outsourcing", "Using outside vendors to produce goods or fulfill functions previously handled in-house"),
      ("Relationship management", "Activities that build and maintain ongoing, mutually beneficial ties with customers and others")
    ] },
  { num := 2, title := "Economic Challenges Facing Business", emoji := "📈",
    terms := [
      ("Microeconomics", "Study of small economic units — individual consumers, families, and businesses"),
      ("Macroeconomics", "Study of a nation's overall economic issues and how government policies affect citizens' standard of living"),
      ("Demand", "Willingness and ability of buyers to purchase goods and services"),
      ("Supply", "Willingness and ability of sellers to provide goods and services"),
      ("Equilibrium price", "Price at which supply and demand curves meet — the current market-clearing price"),
      ("GDP", "Gross Domestic Product — sum of all goods/services produced within a country in a given year"),
      ("Productivity", "Output divided by input — a key measure of economic strength"),
      ("Inflation", "Rising prices caused by excessive consumer demand and/or higher production costs"),
      ("Core inflation rate", "Inflation after removing food and energy prices"),
      ("CPI", "Consumer Price Index — monthly average change in prices of a representative market basket"),
      ("Monetary policy", "Govt plan to change money supply and interest rates to affect growth and borrowing"),
      ("Fiscal policy", "Government spending and taxation decisions to control inflation and encourage growth"),
      ("Budget deficit", "When government spends more than it raises — adds to national debt"),
      ("Privatization", "Conversion of government-owned companies to privately-held businesses"),
      ("Frictional unemployment", "Temporarily not working but actively job searching (e.g., new graduates)"),
      ("Structural unemployment", "Skills no longer in demand — unemployed long-term (e.g., replaced by robots)"),
      ("Cyclical unemployment", "Out of work due to temporary economic downturn / recession")
    ] },
  { num := 3, title := "International Business", emoji := "🌍",
    terms := [
      ("Exports", "Domestically produced goods sold in other countries"),
      ("Imports", "Foreign-made products purchased by domestic consumers"),
      ("Absolute advantage", "A country can produce a product cheaper than any other, or maintains a monopoly on it"),
      ("Comparative advantage", "A nation can supply products more efficiently relative to other goods it could produce"),
      ("Balance of trade", "Difference between a nation's exports and imports"),
      ("Balance of payments", "Overall money flows into or out of a country (trade + investments + loans + aid)"),
      ("Exchange rate", "Value of one nation's currency compared with currencies of other nations"),
      ("Devaluation", "Deliberate drop in currency value to make exports cheaper and attract foreign investment"),
      ("Tariff", "Tax, surcharge, or duty on foreign products"),
      ("Quota", "Limits the amount of a particular product that can be imported in a given period"),
      ("Dumping", "Selling products in foreign markets below production cost or below home-market prices"),
      ("Embargo", "Total ban on importing a product or trading with a particular country"),
      ("CUSMA", "Canada-United States-Mexico Agreement — replaced NAFTA in 2018; world's largest free-trade zone"),
      ("WTO", "World Trade Organization — succeeded GATT in 1995; 159 members; mediates trade disputes"),
      ("Countertrade", "Trade where payment is made in local products, not currency"),
      ("Multinational corporation", "Organization with significant foreign operations"),
      ("Global strategy", "Selling essentially the same product in the same manner worldwide"),
      ("Multidomestic strategy", "Treating each national market differently; adapting to local customs and tastes")
    ] },
  { num := 4, title := "Business Ethics & Social Responsibility", emoji := "⚖️",
    terms := [
      ("Business ethics", "Standards of conduct and moral values guiding actions and decisions in the business environment"),
      ("CSR", "Corporate Social Responsibility — management's obligation to consider societal well-being alongside profit"),
      ("Sarbanes-Oxley Act", "US 2002 law establishing stricter rules for securities trading and accounting practices"),
      ("C-SOX / Bill 198", "Canada's 2003 equivalent of Sarbanes-Oxley"),
      ("Code of Conduct", "Formal statement defining how the organization expects employees to resolve ethical questions"),
      ("Conflict of interest", "When personal interests interfere with professional responsibilities"),
      ("Whistle-blowing", "Reporting unethical or illegal activity within an organization, often at personal career risk"),
      ("Green marketing", "Strategy promoting environmentally safe products and production methods"),
      ("Sustainability", "Finding renewable sources of clean energy and managing resources responsibly"),
      ("Corporate philanthropy", "Cash contributions, product donations, and support for employee volunteer efforts"),
      ("Social audit", "Tool to measure a firm's social performance across all stakeholder groups"),
      ("Consumerism", "Public demand that businesses consider consumer wants and needs in their decisions")
    ] },
  { num := 5, title := "Small Business & Business Ownership", emoji := "🏪",
    terms := [
      ("Small business (Industry Canada)", "<100 employees, not dominant in market, revenue under $2 million"),
      ("Sole proprietorship", "Single-owner business; unlimited personal liability; owner and business legally identical"),
      ("Partnership", "Two or more co-owners operating by voluntary legal agreement"),
      ("Corporation", "Legal entity separate from owners; owners have limited liability; taxed separately"),
      ("Preferred shares", "Limited voting rights but priority claim on dividends"),
      ("Common shares", "Voting rights but only residual (last) claim on firm assets"),
      ("Franchise", "Contract giving franchisee right to use franchisor's brand and business model"),
      ("Franchisee", "The individual or firm that buys and operates the franchise"),
      ("Franchisor", "The firm whose products/brand are sold by the franchisee"),
      ("BDC", "Business Development Bank of Canada — assists, counsels, protects small businesses"),
      ("CSBFP", "Canada Small Business Financing Program — government guarantees 85% of bank loans to small businesses"),
      ("Business incubator", "Low-cost shared facility that helps start-ups develop and grow before operating independently"),
      ("Venture capital", "Money invested in small business by a group in exchange for an ownership share"),
      ("Vertical merger", "Combines firms at DIFFERENT levels of production (e.g., manufacturer + supplier)"),
      ("Horizontal merger", "Joins firms in the SAME industry"),
      ("Conglomerate merger", "Combines UNRELATED firms"),
      ("Joint venture", "Partnership between companies for a specific activity; shares costs, risks, and profits")
    ] },
  { num := 6, title := "Entrepreneurship & Starting a Business", emoji := "🚀",
    terms := [
      ("Entrepreneur", "Risk taker seeking profitable opportunity; sets up business; focused on growth and expansion"),
      ("Classic entrepreneur", "Identifies a business opportunity, allocates resources, and pursues it"),
      ("Serial entrepreneur", "Starts one business, runs it, then starts and runs additional businesses in succession"),
      ("Social entrepreneur", "Focuses on solving society's challenges through the creation of a business"),
      ("Lifestyle entrepreneur", "Starts a business to gain flexibility in work hours and control over lifestyle"),
      ("Internal locus of control", "Belief that you control your own future — a key entrepreneurial trait"),
      ("Seed capital", "Initial funds used to launch a new company"),
      ("Debt financing", "Borrowed money that must be repaid (loans, credit cards, family/friends)"),
      ("Equity financing", "Selling an ownership stake in the business to raise funds"),
      ("Venture capital", "Funds invested by a group in early-stage, high-potential companies for equity"),
      ("Angel investor", "Wealthy individual investing directly in a new venture for an equity stake"),
      ("Intrapreneurship", "Promoting innovation within the structure of an existing organization"),
      ("Skunkworks", "Employee-initiated project: employee convinces management and recruits internal resources to develop it"),
      ("Enterprise zone", "Geographic area set aside for economic renewal with tax advantages to attract businesses"),
      ("Urban reserve", "Economic zone within a municipality set aside as First Nations land for Indigenous commercial ventures")
    ] },
  { num := 16, title := "Accounting & Financial Statements", emoji := "📒",
    terms := [
      ("Accounting", "Measuring, interpreting, and communicating financial information for informed decision-making"),
      ("GAAP", "Generally Accepted Accounting Principles — rules and conventions for acceptable accounting practices in Canada"),
      ("IFRS", "International Financial Reporting Standards — required for Canadian public companies; enables global comparisons"),
      ("Accounting equation", "Assets = Liabilities + Owners' Equity — must always balance"),
      ("Double-entry bookkeeping", "Every transaction has two or more balanced effects on accounts"),
      ("Asset", "Anything with future benefit owned or controlled by a business"),
      ("Liability", "Anything owed to creditors"),
      ("Owners' equity", "Owner's initial investment plus retained profits"),
      ("Accrual accounting", "Records revenue and expenses when they occur, not when cash actually changes hands"),
      ("Balance sheet", "Snapshot of assets, liabilities, and equity at a specific date — the 'photograph'"),
      ("Income statement", "Records revenues, expenses, and net income over a time period — the 'video'"),
      ("Statement of cash flows", "Shows cash receipts and payments from operating, investing, and financing activities"),
      ("Current ratio", "Current Assets / Current Liabilities — measures ability to pay short-term obligations"),
      ("Acid-test ratio", "(Current Assets − Inventory) / Current Liabilities — stricter liquidity measure"),
      ("Inventory turnover", "Cost of Goods Sold / Average Inventory — how many times inventory moves through the business"),
      ("Debt ratio", "Total Liabilities / Total Assets — >50% means firm relies more on debt than equity"),
      ("Net profit margin", "Net Income / Sales — how much profit is earned per dollar of revenue"),
      ("Return on equity", "Net Income / Average Owners' Equity — return generated for shareholders"),
      ("Budget", "Organization's plan for how it will raise and spend money during a specific period"),
      ("Cash budget", "Tracks monthly cash inflows and outflows; identifies surpluses and deficits")
    ] },
  { num := 18, title := "Financial Management", emoji := "💰",
    terms := [
      ("Finance", "Planning, obtaining, and managing a company's funds to accomplish its objectives effectively and efficiently"),
      ("CFO", "Chief Financial Officer — reports directly to CEO; heads all finance functions"),
      ("Treasurer", "Responsible for financing activities: cash management, tax planning, and preparation"),
      ("Controller", "Keeps the company's books, prepares financial statements, conducts internal audits"),
      ("Risk-return trade-off", "Maximizing shareholder wealth by striking the right balance between risk and return"),
      ("Financial plan", "Document specifying funds needed, timing of cash flows, and most appropriate sources and uses of funds"),
      ("Debt capital", "Funds obtained through borrowing"),
      ("Equity capital", "Funds from owners — reinvested earnings, additional contributions, or share issuance"),
      ("Capital structure", "The mix of a firm's debt and equity capital"),
      ("Leverage", "Borrowing to increase the rate of return on equity — amplifies both gains AND losses"),
      ("Dividend policy", "Financial manager's decisions on whether, when, and how much to pay shareholders in cash dividends"),
      ("Trade credit", "Credit extended by a supplier; firm receives goods/services and pays later — most common short-term financing"),
      ("Commercial paper", "Short-term IOU sold by large corporations; $100K–$1M; maturity 1–270 days; limited to financially strong firms"),
      ("Private placement", "Securities sold to a small group of institutional investors — often cheaper than a public offering"),
      ("Venture capitalist", "Firm or group investing in new/growing companies in exchange for an ownership share"),
      ("Leveraged buyout (LBO)", "Public shareholders bought out using borrowed funds; firm goes private"),
      ("Divestiture", "Reverse of merger — company sells off a subsidiary or assets"),
      ("Selloff", "Divested assets sold to another existing firm"),
      ("Spinoff", "Divested assets form a brand-new independent company")
    ] }
]

/-! ## Randomness -/

/-- State of the random source: `raw k` is the raw value of the `k`-th call of
`Math.random()` and `pos` counts the calls made so far. -/
structure Rng where
  raw : Nat → Nat
  pos : Nat

/-- The source after one call of `Math.random()`. -/
def Rng.advance : Rng → Rng
  | ⟨raw, pos⟩ => ⟨raw, pos + 1⟩

/-- Value of `Math.floor(Math.random() * n)` on the source `g`. -/
def Rng.below (g : Rng) (n : Nat) : Nat := g.raw g.pos % n

/-- The source whose first draws are `js` and whose later draws are `0`. -/
def Rng.ofList (js : List Nat) : Rng := { raw := fun k => js.getD k 0, pos := 0 }

/-! ## `shuffle` -/

/-- The destructuring swap `[a[i], a[j]] = [a[j], a[i]]`. -/
def swap {α : Type} (a : List α) (i j : Nat) : List α :=
  match a[i]?, a[j]? with
  | some x, some y => (a.set i y).set j x
  | _, _ => a

/-- The loop `for (i = …; i > 0; i--)` of `shuffle`, entered with loop
variable `i`. -/
def shuffleLoop {α : Type} : Nat → Rng → List α → List α × Rng
  | 0, g, a => (a, g)
  | i + 1, g, a => shuffleLoop i g.advance (swap a (i + 1) (g.below (i + 2)))

/-- `shuffle(arr)`: Fisher-Yates on a copy of `arr`. -/
def shuffle {α : Type} (g : Rng) (arr : List α) : List α × Rng :=
  shuffleLoop (arr.length - 1) g arr

/-! ## `buildQuestions` -/

/-- `Array.prototype.map` with a callback that draws random numbers: the
callback runs on the elements in index order. -/
def mapRng {α β : Type} (f : Rng → α → β × Rng) : Rng → List α → List β × Rng
  | g, [] => ([], g)
  | g, x :: xs =>
    let r := f g x
    let rs := mapRng f r.2 xs
    (r.1 :: rs.1, rs.2)

/-- The `distractors` constant of the `buildQuestions` callback:
`shuffle(allTermsFlat.filter(([t]) => t !== term)).slice(0, 3).map(([, d]) => d)`. -/
def distractors (g : Rng) (allTermsFlat : List Tuple) (term : String) : List String × Rng :=
  let r := shuffle g (allTermsFlat.filter (fun e => e.1 != term))
  ((r.1.take 3).map (fun e => e.2.1), r.2)

/-- The callback of `picked.map` in `buildQuestions`. -/
def buildQuestion (allTermsFlat : List Tuple) (g : Rng) (p : Tuple) : Question × Rng :=
  let ds := distractors g allTermsFlat p.1
  let opts := shuffle ds.2 (p.2.1 :: ds.1)
  ({ term := p.1, correctDef := p.2.1, chapterNum := p.2.2.1, chapterTitle := p.2.2.2,
     options := opts.1 }, opts.2)

/-- `buildQuestions(pool, allTermsFlat, count)`. -/
def buildQuestions (g : Rng) (pool allTermsFlat : List Tuple) (count : Nat) :
    List Question × Rng :=
  let r := shuffle g pool
  let picked := r.1.take (min count pool.length)
  mapRng (buildQuestion allTermsFlat) r.2 picked

/-! ## `buildExam` -/

/-- The constant `TARGET` of `buildExam`. -/
def TARGET : Nat := 100

/-- The quotient `len / total * 100` rounded half up over exact arithmetic, for
`total > 0`.  The source rounds the double instead (`jsPct` below); the two
agree unless the exact quotient lies halfway between two integers, where the
double may fall below the tie (23 of 40 gives 57 there, 58 here).  (For
`total = 0` the source computes `NaN`; the statements below that depend on the
counts assume at least one term.) -/
def roundPct (len total : Nat) : Nat := (200 * len + total) / (2 * total)

/-- `allChapters.flatMap(c => c.terms.map(([t, d]) => [t, d, c.num, c.title]))`. -/
def flattenTerms (allChapters : List Chapter) : List Tuple :=
  allChapters.flatMap (fun c => c.terms.map (fun td => (td.1, td.2, c.num, c.title)))

/-- The initial `counts` of `buildExam`; `rnd len total` stands for
`Math.round((len / total) * TARGET)`. -/
def rawCounts (rnd : Nat → Nat → Nat) (allChapters : List Chapter) : List Nat :=
  allChapters.map (fun c =>
    max (rnd c.terms.length (flattenTerms allChapters).length) (min 8 c.terms.length))

/-- The loop `while (sum < TARGET) { counts[i % counts.length]++; sum++; i++; }`;
returns the final `counts`, `sum` and `i`. -/
def topUp (counts : List Nat) (sum i : Nat) : List Nat × Nat × Nat :=
  if sum < TARGET then
    topUp (counts.modify (· + 1) (i % counts.length)) (sum + 1) (i + 1)
  else (counts, sum, i)
termination_by TARGET - sum
decreasing_by simp_wf; omega

/-- `Array.prototype.findIndex` with a callback on element and index, scanning
from index `j`; `none` stands for `-1`. -/
def findIndexFrom {α : Type} (p : α → Nat → Bool) : List α → Nat → Option Nat
  | [], _ => none
  | x :: xs, j => if p x j then some j else findIndexFrom p xs (j + 1)

/-- `arr.findIndex((c, j) => p(c, j))`. -/
def findIndex {α : Type} (p : α → Nat → Bool) (l : List α) : Option Nat :=
  findIndexFrom p l 0

/-- The callback `(c, j) => c > Math.min(8, allChapters[j].terms.length)`. -/
def aboveFloor (allChapters : List Chapter) (c j : Nat) : Bool :=
  match allChapters[j]? with
  | some ch => decide (c > min 8 ch.terms.length)
  | none => false

/-- The loop `while (sum > TARGET) { idx = counts.findIndex(…); if (idx === -1) break;
counts[idx]--; sum--; }`; returns the final `counts` and `sum`. -/
def trim (allChapters : List Chapter) (counts : List Nat) (sum : Nat) : List Nat × Nat :=
  if TARGET < sum then
    match findIndex (aboveFloor allChapters) counts with
    | none => (counts, sum)
    | some idx => trim allChapters (counts.modify (· - 1) idx) (sum - 1)
  else (counts, sum)
termination_by sum - TARGET
decreasing_by simp_wf; omega

/-- The array `counts` of `buildExam` after both nudge loops. -/
def allocate (rnd : Nat → Nat → Nat) (allChapters : List Chapter) : List Nat :=
  let counts := rawCounts rnd allChapters
  let up := topUp counts counts.sum 0
  (trim allChapters up.1 up.2.1).1

/-- The callback of the final `allChapters.map((ch, ci) => …)` of `buildExam`. -/
def buildSection (allTermsFlat : List Tuple) (counts : List Nat) (g : Rng)
    (x : Nat × Chapter) : ExamSection × Rng :=
  let qs := buildQuestions g (x.2.terms.map (fun td => (td.1, td.2, x.2.num, x.2.title)))
    allTermsFlat (counts.getD x.1 0)
  ({ chapterNum := x.2.num, chapterTitle := x.2.title, emoji := x.2.emoji,
     color := COLORS[x.1]?, questions := qs.1 }, qs.2)

/-- `buildExam(allChapters)`. -/
def buildExam (rnd : Nat → Nat → Nat) (g : Rng) (allChapters : List Chapter) :
    List ExamSection × Rng :=
  mapRng (buildSection (flattenTerms allChapters) (allocate rnd allChapters)) g
    allChapters.enum

/-! ## `startQuickQuiz` -/

/-- `chapters.flatMap(c => c.terms)`: the `allTermsFlat` of the component. -/
def allTermsFlat (chs : List Chapter) : List (String × String) :=
  chs.flatMap (fun c => c.terms)

/-- The `distractors` constant of the `startQuickQuiz` callback:
`shuffle(allTermsFlat.filter(([t]) => t !== term)).slice(0, 3).map(([, d]) => d)`. -/
def qqDistractors (g : Rng) (bank : List (String × String)) (term : String) :
    List String × Rng :=
  let r := shuffle g (bank.filter (fun e => e.1 != term))
  ((r.1.take 3).map (fun e => e.2), r.2)

/-- The callback of `.map` in `startQuickQuiz`. -/
def quickQuestion (bank : List (String × String)) (g : Rng) (p : String × String) :
    QuickQuestion × Rng :=
  let ds := qqDistractors g bank p.1
  let opts := shuffle ds.2 (p.2 :: ds.1)
  ({ term := p.1, correctDef := p.2, options := opts.1 }, opts.2)

/-- The question list `qs` that `startQuickQuiz` stores as `quickQuiz`, for the
current chapter `ch` and the bank `allTermsFlat`. -/
def startQuickQuiz (g : Rng) (bank : List (String × String)) (ch : Chapter) :
    List QuickQuestion × Rng :=
  let count := min ch.terms.length 10
  let r := shuffle g ch.terms
  mapRng (quickQuestion bank) r.2 (r.1.take count)

/-! ## Auxiliary definitions for the statements -/

/-- The `(term, correctDef, chapterNum, chapterTitle)` tuple of a question. -/
def Question.tuple (q : Question) : Tuple := (q.term, q.correctDef, q.chapterNum, q.chapterTitle)

/-- The floors `Math.min(8, c.terms.length)` of the chapters, in order. -/
def floors (allChapters : List Chapter) : List Nat :=
  allChapters.map (fun c => min 8 c.terms.length)

/-- A rounding `rnd len total` of `len / total * 100` whose argument is off the
exact quotient by at most one thousandth before it is rounded half up; IEEE
double evaluation of `Math.round((len / total) * 100)` is one, and so is the
exact `roundPct`. -/
def RoundsNear (rnd : Nat → Nat → Nat) : Prop :=
  ∀ len total : Nat, 0 < total → len ≤ total →
    ∃ x : ℚ, |x - 100 * (len : ℚ) / total| ≤ 1 / 1000 ∧ (rnd len total : ℤ) = ⌊x + 1 / 2⌋

/-- The draw sequences `[j_i, …, j_1]` with `0 ≤ j_k ≤ k` that the loop of
`shuffle` can meet when entered with loop variable `i`. -/
def drawSeqsLoop : Nat → List (List Nat)
  | 0 => [[]]
  | i + 1 => (List.range (i + 2)).flatMap (fun j => (drawSeqsLoop i).map (fun js => j :: js))

/-- All draw sequences `[j_{n-1}, …, j_1]` of `shuffle` on an array of length `n`. -/
def drawSeqs (n : Nat) : List (List Nat) := drawSeqsLoop (n - 1)

/-- `js` is a draw sequence `[j_{n-1}, …, j_1]` with `0 ≤ j_i ≤ i`: the `k`-th
draw belongs to loop variable `i = n - 1 - k`. -/
def ValidDraws (n : Nat) (js : List Nat) : Prop :=
  js.length = n - 1 ∧ ∀ k, k < js.length → js.getD k 0 + k < n

instance (n : Nat) (js : List Nat) : Decidable (ValidDraws n js) := by
  unfold ValidDraws; infer_instance

/-! ## Sample inputs -/

/-- Thirteen chapters of eight terms each. -/
def thirteenChapters : List Chapter :=
  (List.range 13).map (fun k =>
    { num := k + 1, title := "Chapter " ++ toString (k + 1), emoji := "",
      terms := (List.range 8).map (fun t =>
        ("term " ++ toString (8 * k + t), "definition " ++ toString (8 * k + t))) })

/-- A single chapter of five terms. -/
def fiveTermChapter : Chapter :=
  { num := 1, title := "Only chapter", emoji := "",
    terms := [("t1", "d1"), ("t2", "d2"), ("t3", "d3"), ("t4", "d4"), ("t5", "d5")] }

/-- A chapter of four terms with pairwise different terms and definitions. -/
def sampleChapter : Chapter :=
  { num := 1, title := "The Changing Face of Business", emoji := "",
    terms := [("Business", "All profit-seeking activities"),
      ("Profits", "Rewards for taking risks"),
      ("Vision", "Ability to perceive marketplace needs"),
      ("Creativity", "Capacity to develop novel solutions")] }

/-- The pool and bank of `sampleChapter`. -/
def sampleBank : List Tuple := flattenTerms [sampleChapter]

/-- A bank of four entries in which the term "Venture capital" occurs twice, as
it does in the shipped chapters 5 and 6. -/
def bankVC : List Tuple :=
  [("Venture capital", "Money invested in small business by a group", 5,
      "Small Business & Business Ownership"),
   ("Venture capital", "Funds invested by a group in early-stage companies", 6,
      "Entrepreneurship & Starting a Business"),
   ("Business", "All profit-seeking activities", 1, "The Changing Face of Business"),
   ("Profits", "Rewards for taking risks", 1, "The Changing Face of Business")]

/-- A bank of four entries in which two different terms carry the same
definition text. -/
def bankDup : List Tuple :=
  [("Profits", "Rewards", 1, "One"), ("Earnings", "Rewards", 2, "Two"),
   ("Business", "Activities", 1, "One"), ("Vision", "Foresight", 1, "One")]

/-- The first question of `buildQuestions` on `sampleBank` when every draw is `0`. -/
def sampleQuestion : Question :=
  { term := "Profits", correctDef := "Rewards for taking risks", chapterNum := 1,
    chapterTitle := "The Changing Face of Business",
    options := ["Ability to perceive marketplace needs", "Capacity to develop novel solutions",
      "All profit-seeking activities", "Rewards for taking risks"] }

/-- The first question of `startQuickQuiz` on `sampleChapter` when every draw is `0`. -/
def sampleQuickQuestion : QuickQuestion :=
  { term := "Profits", correctDef := "Rewards for taking risks",
    options := ["Ability to perceive marketplace needs", "Capacity to develop novel solutions",
      "All profit-seeking activities", "Rewards for taking risks"] }

/-! ## Quick-quiz session (`handleQqAnswer`, `nextQq`) -/

/-- Entry of the answer log `qqAnswers`: `{ correct, term, correctDef, chosen }`. -/
structure AnswerRecord where
  correct : Bool
  term : String
  correctDef : String
  chosen : String
deriving DecidableEq, Repr

/-- The quick-quiz state of the component: `quickQuiz` (`none` is `null`),
`qqIdx`, `qqSelected` (`none` is `null`), `qqAnswers` and `qqDone`. -/
structure QuizState where
  quickQuiz : Option (List QuickQuestion)
  qqIdx : Nat
  qqSelected : Option String
  qqAnswers : List AnswerRecord
  qqDone : Bool
deriving DecidableEq, Repr

/-- The state that `startQuickQuiz` sets for the current chapter `ch`. -/
def startQuickQuizState (g : Rng) (bank : List (String × String)) (ch : Chapter) :
    QuizState × Rng :=
  let qs := startQuickQuiz g bank ch
  ({ quickQuiz := some qs.1, qqIdx := 0, qqSelected := none, qqAnswers := [],
     qqDone := false }, qs.2)

/-- `handleQqAnswer(opt)` as a transition of the state; `none` is the
`TypeError` of reading `quickQuiz[qqIdx].correctDef` when there is no such
question. -/
def handleQqAnswer (s : QuizState) (opt : String) : Option QuizState :=
  if s.qqSelected ≠ none then some s
  else
    match s.quickQuiz with
    | none => none
    | some qs =>
      match qs[s.qqIdx]? with
      | none => none
      | some q =>
        some { s with
          qqSelected := some opt
          qqAnswers := s.qqAnswers ++
            [{ correct := opt == q.correctDef, term := q.term, correctDef := q.correctDef,
               chosen := opt }] }

/-- `nextQq()` as a transition of the state; `none` is the `TypeError` of
reading `quickQuiz.length` when `quickQuiz` is `null`. -/
def nextQq (s : QuizState) : Option QuizState :=
  match s.quickQuiz with
  | none => none
  | some qs =>
    if s.qqIdx + 1 ≥ qs.length then some { s with qqDone := true }
    else some { s with qqIdx := s.qqIdx + 1, qqSelected := none }

/-- Whether the quiz tab renders the Next button: the active-question screen
(`quickQuiz` set, `qqDone` false) shows it under `qqSelected !== null`. -/
def nextShown (s : QuizState) : Bool :=
  s.quickQuiz.isSome && !s.qqDone && s.qqSelected.isSome

/-- `qqAnswers.filter(a => a.correct).length`: the quick-quiz score. -/
def qqScore (s : QuizState) : Nat := (s.qqAnswers.filter (fun a => a.correct)).length

/-- The `pct` of the quick-quiz results screen,
`Math.round((score / quickQuiz.length) * 100)`, with `rnd score len` for the
rounded quotient; `none` when `quickQuiz` is `null`. -/
def qqPct (rnd : Nat → Nat → Nat) (s : QuizState) : Option Nat :=
  s.quickQuiz.map (fun qs => rnd (qqScore s) qs.length)

/-- The `grade.label` of the quick-quiz results screen for the percentage `pct`. -/
def qqGradeLabel (pct : Nat) : String :=
  if pct ≥ 90 then "Excellent!"
  else if pct ≥ 75 then "Good job!"
  else if pct ≥ 60 then "Almost there"
  else "Keep studying"

/-! ## Exam session (`launchExam`, `setExamAnswer`, `submitExam`, results) -/

/-- A JavaScript object with string values, as the list of its properties in
insertion order (one entry per key). -/
abbrev JsObject := List (String × String)

/-- `{ ...o, [k]: v }`: the value of an existing key is replaced in place, a
new key is added last. -/
def setProp : JsObject → String → String → JsObject
  | [], k, v => [(k, v)]
  | (k1, v1) :: rest, k, v =>
    if k1 = k then (k, v) :: rest else (k1, v1) :: setProp rest k v

/-- `o[k]`; `none` is `undefined`. -/
def getProp : JsObject → String → Option String
  | [], _ => none
  | (k1, v1) :: rest, k => if k1 = k then some v1 else getProp rest k

/-- `Object.keys(o)`. -/
def objectKeys (o : JsObject) : List String := o.map (fun p => p.1)

/-- The answer key of question `qi` of section `si`, the template string with
`si`, a hyphen and `qi`. -/
def examKey (si qi : Nat) : String := toString si ++ "-" ++ toString qi

/-- The exam state of the component: `examSections` (`none` is `null`),
`examAnswers` and `examSubmitted`. -/
structure ExamState where
  examSections : Option (List ExamSection)
  examAnswers : JsObject
  examSubmitted : Bool
deriving DecidableEq, Repr

/-- The state that `launchExam` sets: `buildExam(chapters)`, no answers, not
submitted. -/
def launchExam (rnd : Nat → Nat → Nat) (g : Rng) (chs : List Chapter) : ExamState × Rng :=
  let secs := buildExam rnd g chs
  ({ examSections := some secs.1, examAnswers := [], examSubmitted := false }, secs.2)

/-- `setExamAnswer(si, qi, opt)`. -/
def setExamAnswer (s : ExamState) (si qi : Nat) (opt : String) : ExamState :=
  if s.examSubmitted then s
  else { s with examAnswers := setProp s.examAnswers (examKey si qi) opt }

/-- `totalExamQs`: the sum of `s.questions.length` over `examSections`, `0`
when `examSections` is `null`. -/
def totalExamQs (s : ExamState) : Nat :=
  match s.examSections with
  | some secs => secs.foldl (fun a sec => a + sec.questions.length) 0
  | none => 0

/-- `answeredCount`: `Object.keys(examAnswers).length`. -/
def answeredCount (s : ExamState) : Nat := (objectKeys s.examAnswers).length

/-- `canSubmit`: `answeredCount === totalExamQs`. -/
def canSubmit (s : ExamState) : Bool := answeredCount s == totalExamQs s

/-- `submitExam()`. -/
def submitExam (s : ExamState) : ExamState := { s with examSubmitted := true }

/-- Element of `qs` in `examResults`: `{ ...q, chosen, correct }`; `chosen` is
`none` for `undefined`. -/
structure ScoredQuestion where
  question : Question
  chosen : Option String
  correct : Bool
deriving DecidableEq, Repr

/-- Element of `examResults`: `{ ...sec, qs, correct, total, pct }`. -/
structure SectionResult where
  sec : ExamSection
  qs : List ScoredQuestion
  correct : Nat
  total : Nat
  pct : Nat
deriving DecidableEq, Repr

/-- The callback `(q, qi) => …` of `sec.questions.map` in `examResults`. -/
def scoreQuestion (answers : JsObject) (si : Nat) (x : Nat × Question) : ScoredQuestion :=
  { question := x.2,
    chosen := getProp answers (examKey si x.1),
    correct := decide (getProp answers (examKey si x.1) = some x.2.correctDef) }

/-- The callback `(sec, si) => …` of `examSections.map` in `examResults`;
`rnd correct total` stands for `Math.round((correct / qs.length) * 100)`. -/
def scoreSection (rnd : Nat → Nat → Nat) (answers : JsObject) (x : Nat × ExamSection) :
    SectionResult :=
  let qs := x.2.questions.enum.map (scoreQuestion answers x.1)
  let correct := (qs.filter (fun q => q.correct)).length
  { sec := x.2, qs := qs, correct := correct, total := qs.length, pct := rnd correct qs.length }

/-- `examResults`: `none` is `null`. -/
def examResults (rnd : Nat → Nat → Nat) (s : ExamState) : Option (List SectionResult) :=
  if s.examSubmitted then
    match s.examSections with
    | some secs => some (secs.enum.map (scoreSection rnd s.examAnswers))
    | none => none
  else none

/-- `examTotalCorrect`. -/
def examTotalCorrect (rnd : Nat → Nat → Nat) (s : ExamState) : Nat :=
  match examResults rnd s with
  | some rs => rs.foldl (fun a r => a + r.correct) 0
  | none => 0

/-- `examTotalPct`; `rnd correct total` stands for
`Math.round((examTotalCorrect / totalExamQs) * 100)`. -/
def examTotalPct (rnd : Nat → Nat → Nat) (s : ExamState) : Nat :=
  match examResults rnd s with
  | some _ => rnd (examTotalCorrect rnd s) (totalExamQs s)
  | none => 0

/-- The `grade.label` of the exam results screen for the percentage `pct`. -/
def examGradeLabel (pct : Nat) : String :=
  if pct ≥ 90 then "A+"
  else if pct ≥ 85 then "A"
  else if pct ≥ 80 then "A−"
  else if pct ≥ 77 then "B+"
  else if pct ≥ 73 then "B"
  else if pct ≥ 70 then "B−"
  else if pct ≥ 67 then "C+"
  else if pct ≥ 63 then "C"
  else if pct ≥ 60 then "C−"
  else if pct ≥ 50 then "D"
  else "F"

/-! ## Spec-side definitions for the grading claims -/

/-- The exam letter-grade bands as the specification lists them, highest
first: threshold and label. -/
def examBands : List (Nat × String) :=
  [(90, "A+"), (85, "A"), (80, "A−"), (77, "B+"), (73, "B"), (70, "B−"), (67, "C+"),
   (63, "C"), (60, "C−"), (50, "D")]

/-- The quick-quiz bands as the specification lists them, highest first. -/
def qqBands : List (Nat × String) :=
  [(90, "Excellent!"), (75, "Good job!"), (60, "Almost there")]

/-- Grade by the specification's words: the label of the first band, highest
first, whose threshold the percentage reaches, and `other` if it reaches none. -/
def firstBand (bands : List (Nat × String)) (other : String) (pct : Nat) : String :=
  match bands.find? (fun b => decide (b.1 ≤ pct)) with
  | some b => b.2
  | none => other

/-- The questions of the sections with their answer keys, section by section. -/
def keyedQuestions (secs : List ExamSection) : List (String × Question) :=
  secs.enum.flatMap (fun x => x.2.questions.enum.map (fun y => (examKey x.1 y.1, y.2)))

/-- The state after a sequence of `setExamAnswer(si, qi, opt)` calls. -/
def answerAll (s : ExamState) (calls : List (Nat × Nat × String)) : ExamState :=
  calls.foldl (fun t c => setExamAnswer t c.1 c.2.1 c.2.2) s

/-- Every call addresses an existing question: `si` indexes a section and `qi`
a question of that section. -/
def ValidCalls (secs : List ExamSection) (calls : List (Nat × Nat × String)) : Prop :=
  ∀ c, c ∈ calls → ∃ sec, secs[c.1]? = some sec ∧ c.2.1 < sec.questions.length

/-! ## Further auxiliary definitions and sample states -/

/-- The `(term, correctDef)` pair of a quick-quiz question. -/
def QuickQuestion.pair (q : QuickQuestion) : String × String := (q.term, q.correctDef)

/-- A quiz on `sampleChapter` in which the first question has been answered. -/
def sampleAnswered : QuizState :=
  { quickQuiz := some [sampleQuickQuestion], qqIdx := 0,
    qqSelected := some "All profit-seeking activities",
    qqAnswers :=
      [{ correct := false, term := "Profits", correctDef := "Rewards for taking risks",
         chosen := "All profit-seeking activities" }],
    qqDone := false }

/-- The state of `sampleAnswered` before its question was answered. -/
def sampleFresh : QuizState :=
  { quickQuiz := some [sampleQuickQuestion], qqIdx := 0, qqSelected := none,
    qqAnswers := [], qqDone := false }

/-- A two-question quiz whose first question has been answered. -/
def sampleTwo : QuizState :=
  { quickQuiz := some [sampleQuickQuestion, sampleQuickQuestion], qqIdx := 0,
    qqSelected := some "Rewards for taking risks",
    qqAnswers :=
      [{ correct := true, term := "Profits", correctDef := "Rewards for taking risks",
         chosen := "Rewards for taking risks" }],
    qqDone := false }

/-- Value of a decimal digit character. -/
def digitVal (c : Char) : Nat := c.toNat - 48

/-- Value of a list of decimal digits, most significant first. -/
def digitsVal (l : List Char) : Nat := l.foldl (fun a c => 10 * a + digitVal c) 0

/-- The answer keys of all questions of the sections. -/
def validKeys (secs : List ExamSection) : List String :=
  (keyedQuestions secs).map (fun p => p.1)

/-- The letter grade that the exam results screen shows. -/
def examGrade (rnd : Nat → Nat → Nat) (s : ExamState) : String :=
  examGradeLabel (examTotalPct rnd s)

/-- The grade label that the quick-quiz results screen shows; `none` when
`quickQuiz` is `null`. -/
def qqGrade (rnd : Nat → Nat → Nat) (s : QuizState) : Option String :=
  (qqPct rnd s).map qqGradeLabel

/-- An exam in progress on one section holding `sampleQuestion`, not yet
answered. -/
def sampleOpenExam : ExamState :=
  { examSections := some
      [{ chapterNum := 1, chapterTitle := "The Changing Face of Business", emoji := "",
         color := some "#e85d04", questions := [sampleQuestion] }],
    examAnswers := [],
    examSubmitted := false }

/-- One exam section of a hundred questions. -/
def hundredSection : ExamSection :=
  { chapterNum := 1, chapterTitle := "Chapter 1", emoji := "", color := none,
    questions := (List.range 100).map (fun i =>
      { term := "term " ++ toString i, correctDef := "definition " ++ toString i,
        chapterNum := 1, chapterTitle := "Chapter 1",
        options := ["definition " ++ toString i, "a", "b", "c"] }) }

/-- An exam in progress on `hundredSection` in which the first sixty questions
are answered, all correctly, and the other forty are not answered. -/
def sixtyAnswered : ExamState :=
  { examSections := some [hundredSection],
    examAnswers := (List.range 60).map (fun i => (examKey 0 i, "definition " ++ toString i)),
    examSubmitted := false }


/-! ## Definitions for the allocator and session claims -/

/-- The number of iterations of the trim loop of `buildExam` (entries of the
loop body, the one that breaks included), counted along `trim`. -/
def trimIters (allChapters : List Chapter) (counts : List Nat) (sum : Nat) : Nat :=
  if TARGET < sum then
    match findIndex (aboveFloor allChapters) counts with
    | none => 1
    | some idx => trimIters allChapters (counts.modify (· - 1) idx) (sum - 1) + 1
  else 0
termination_by sum - TARGET
decreasing_by simp_wf; omega

/-- The counts that a round-robin top-up by `d` from the first chapter gives:
chapter `j` of `C` gets `d / C` more, and one more still when `j < d % C`. -/
def roundRobin (raw : List Nat) (d : Nat) : List Nat :=
  raw.enum.map (fun x => x.2 + d / raw.length + if x.1 < d % raw.length then 1 else 0)

/-- The states that the quick quiz reaches from `s0` by `handleQqAnswer(opt)`
and by `nextQq()` taken when the current question has a selection. -/
inductive QuizReach (s0 : QuizState) : QuizState → Prop
  | start : QuizReach s0 s0
  | answer (s t : QuizState) (opt : String) :
      QuizReach s0 s → handleQqAnswer s opt = some t → QuizReach s0 t
  | next (s t : QuizState) :
      QuizReach s0 s → s.qqSelected ≠ none → nextQq s = some t → QuizReach s0 t

/-- Three chapters of ten terms each. -/
def threeChapters : List Chapter :=
  (List.range 3).map (fun k =>
    { num := k + 1, title := "Chapter " ++ toString (k + 1), emoji := "",
      terms := (List.range 10).map (fun t =>
        ("term " ++ toString (10 * k + t), "definition " ++ toString (10 * k + t))) })

/-- The shape that the trim loop keeps: before `p` every count is at its floor,
after `p` every count is the raw one, and at `p` it lies between the two. -/
def TrimShape (fl raw counts : List Nat) (p : Nat) : Prop :=
  p < counts.length
  ∧ (∀ j, j < p → counts.getD j 0 = fl.getD j 0)
  ∧ (∀ j, p < j → j < counts.length → counts.getD j 0 = raw.getD j 0)
  ∧ fl.getD p 0 ≤ counts.getD p 0 ∧ counts.getD p 0 ≤ raw.getD p 0

/-- The log invariant of the quick quiz on the question list `qs`. -/
def QuizInv (qs : List QuickQuestion) (s : QuizState) : Prop :=
  s.quickQuiz = some qs
  ∧ s.qqIdx < qs.length
  ∧ s.qqAnswers.length = s.qqIdx + (if s.qqSelected ≠ none then 1 else 0)
  ∧ (∀ (k : Nat) (a : AnswerRecord) (q : QuickQuestion), s.qqAnswers[k]? = some a → qs[k]? = some q →
      a.term = q.term ∧ a.correctDef = q.correctDef
      ∧ a.correct = (a.chosen == q.correctDef))
  ∧ (s.qqDone = true → s.qqSelected ≠ none ∧ s.qqIdx + 1 = qs.length)

/-- The state of the quick quiz on `sampleChapter` (every draw `0`) after the
first question was answered correctly. -/
def sampleReached : QuizState :=
  { (startQuickQuizState (Rng.ofList []) (allTermsFlat [sampleChapter]) sampleChapter).1 with
    qqSelected := some "Rewards for taking risks"
    qqAnswers := [{ correct := true, term := "Profits",
                    correctDef := "Rewards for taking risks",
                    chosen := "Rewards for taking risks" }] }

/-- The state after `nextQq()` on `sampleReached`. -/
def sampleAdvanced : QuizState := { sampleReached with qqIdx := 1, qqSelected := none }

/-! ## `Math.round((a / b) * 100)` on doubles

JavaScript numbers are IEEE-754 binary64 values: `a / b` and `x * 100` each
return the double nearest to the exact result, a tie going to the even
significand, and `Math.round` returns the integer nearest to its argument, a
tie going up.  A non-negative double is kept here as a fraction `(m, 2^k)` of
value `m / 2^k`. -/

/-- The integer nearest to `n / d`, a tie going to the even one. -/
def roundHalfEven (n d : Nat) : Nat :=
  if 2 * (n % d) < d then n / d
  else if d < 2 * (n % d) then n / d + 1
  else if (n / d) % 2 = 0 then n / d else n / d + 1

/-- The number `k` of doublings that bring `n / d` up to `2^52`, at most `fuel`
of them: with `fuel = 1074` the unit `2^-k` is the spacing of the doubles at
`n / d` (53 significant bits, and `2^-1074` for the subnormal ones). -/
def scaleUp : Nat → Nat → Nat → Nat
  | 0, _, _ => 0
  | fuel + 1, n, d => if n < 2 ^ 52 * d then scaleUp fuel (2 * n) d + 1 else 0

/-- The double nearest to `n / d`, as the fraction `(m, 2^k)`, for
`0 ≤ n / d < 2^53` (no quotient or product of this program exceeds 100). -/
def toDouble (n d : Nat) : Nat × Nat :=
  (roundHalfEven (n * 2 ^ scaleUp 1074 n d) d, 2 ^ scaleUp 1074 n d)

/-- `Math.round(x)` for a non-negative `x = m / d`: `⌊x + 1/2⌋`. -/
def mathRound (x : Nat × Nat) : Nat := (2 * x.1 + x.2) / (2 * x.2)

/-- `Math.round((a / b) * 100)` as the source evaluates it, for naturals
`a ≤ b` below `2^53` with `b > 0`: the division is rounded to a double, the
product with 100 is rounded to a double, and `Math.round` is applied to it. -/
def jsPct (a b : Nat) : Nat := mathRound (toDouble ((toDouble a b).1 * 100) (toDouble a b).2)

/-- The rational value of a fraction `(m, d)`. -/
def dval (x : Nat × Nat) : ℚ := (x.1 : ℚ) / (x.2 : ℚ)

/-- One exam section of forty questions. -/
def fortySection : ExamSection :=
  { chapterNum := 1, chapterTitle := "Chapter 1", emoji := "", color := none,
    questions := (List.range 40).map (fun i =>
      { term := "term " ++ toString i, correctDef := "definition " ++ toString i,
        chapterNum := 1, chapterTitle := "Chapter 1",
        options := ["definition " ++ toString i, "a", "b", "c"] }) }

/-- A submitted exam on `fortySection`: the first 23 questions are answered
correctly, the other 17 with the wrong option "a". -/
def twentyThreeRight : ExamState :=
  { examSections := some [fortySection],
    examAnswers := (List.range 40).map (fun i =>
      (examKey 0 i, if i < 23 then "definition " ++ toString i else "a")),
    examSubmitted := true }

/-! ## Properties of `shuffle` -/


theorem swap_length {α : Type} (a : List α) (i j : Nat) : (swap a i j).length = a.length := by
  unfold swap
  split <;> simp

theorem swap_perm {α : Type} (a : List α) (i j : Nat) : (swap a i j).Perm a := by
  classical
  unfold swap
  split
  · rename_i x y hx hy
    obtain ⟨hi, hxi⟩ := List.getElem?_eq_some_iff.mp hx
    obtain ⟨hj, hyj⟩ := List.getElem?_eq_some_iff.mp hy
    rw [List.perm_iff_count]
    intro b
    have hj2 : j < (a.set i y).length := by simpa using hj
    have hget : (a.set i y)[j] = y := by
      rw [List.getElem_set]
      split
      · rfl
      · exact hyj
    rw [List.count_set _ _ _ _ hj2, List.count_set _ _ _ _ hi, hget, hxi]
    have hmem : x ∈ a := hxi ▸ List.getElem_mem hi
    have hpos : (x == b) = true → 0 < a.count b := by
      intro h
      have : x = b := by simpa using h
      subst this
      exact List.count_pos_iff.mpr hmem
    by_cases h1 : (x == b) = true <;> by_cases h2 : (y == b) = true <;> simp [h1, h2]
    · have := hpos h1; omega
    · have := hpos h1; omega
  · exact List.Perm.refl a

theorem shuffleLoop_perm {α : Type} (i : Nat) (g : Rng) (a : List α) :
    (shuffleLoop i g a).1.Perm a := by
  induction i generalizing g a with
  | zero => exact List.Perm.refl a
  | succ i ih =>
    rw [shuffleLoop]
    exact (ih _ _).trans (swap_perm a _ _)

theorem shuffle_perm {α : Type} (g : Rng) (arr : List α) : (shuffle g arr).1.Perm arr :=
  shuffleLoop_perm _ g arr

/-- Every draw `Math.floor(Math.random() * (i + 1))` lies in `[0, i]`. -/
theorem below_le (g : Rng) (i : Nat) : g.below (i + 1) ≤ i :=
  Nat.le_of_lt_succ (Nat.mod_lt _ (Nat.succ_pos i))

/-- C8: for every input array and every state of the random source (so for
every sequence of draws `j_i` in `[0, i]`), `shuffle` returns a permutation of
its input: a list of the same length holding the same elements with the same
multiplicities.  The input is a value that `shuffle` only reads (the source
works on the copy `[...arr]`), so it is unchanged. -/
theorem shuffle_permutation {α : Type} [DecidableEq α] (g : Rng) (arr : List α) :
    (shuffle g arr).1.Perm arr
    ∧ (shuffle g arr).1.length = arr.length
    ∧ ∀ x : α, (shuffle g arr).1.count x = arr.count x :=
  ⟨shuffle_perm g arr, (shuffle_perm g arr).length_eq, fun x => (shuffle_perm g arr).count_eq x⟩

/-- The loop reads the source only through the draws from its cursor on. -/
theorem shuffleLoop_congr {α : Type} (i : Nat) (g h : Rng) (a : List α)
    (hgh : ∀ k, g.raw (g.pos + k) = h.raw (h.pos + k)) :
    (shuffleLoop i g a).1 = (shuffleLoop i h a).1 := by
  induction i generalizing g h a with
  | zero => rfl
  | succ i ih =>
    rw [shuffleLoop, shuffleLoop]
    have h0 : g.below (i + 2) = h.below (i + 2) := by
      have := hgh 0
      simp only [Nat.add_zero] at this
      simp [Rng.below, this]
    rw [h0]
    apply ih
    intro k
    have := hgh (k + 1)
    cases g; cases h
    simp only [Rng.advance] at this ⊢
    simpa only [Nat.add_assoc, Nat.add_comm 1 k] using this

theorem shuffleLoop_ofList_cons {α : Type} (i j : Nat) (t : List Nat) (a : List α) :
    (shuffleLoop (i + 1) (Rng.ofList (j :: t)) a).1
      = (shuffleLoop i (Rng.ofList t) (swap a (i + 1) (j % (i + 2)))).1 := by
  rw [shuffleLoop]
  have : (Rng.ofList (j :: t)).below (i + 2) = j % (i + 2) := by
    simp [Rng.below, Rng.ofList]
  rw [this]
  apply shuffleLoop_congr
  intro k
  simp [Rng.ofList, Rng.advance, Nat.add_comm 1 k]

theorem swap_append_left {α : Type} (p s : List α) (i j : Nat) (hi : i < p.length)
    (hj : j < p.length) : swap (p ++ s) i j = swap p i j ++ s := by
  unfold swap
  rw [List.getElem?_append_left hi, List.getElem?_append_left hj]
  rw [List.getElem?_eq_getElem hi, List.getElem?_eq_getElem hj]
  simp only
  rw [List.set_append_left _ _ hi, List.set_append_left _ _ (by simpa using hj)]

/-- The loop entered with variable `i` leaves every index above `i` alone. -/
theorem shuffleLoop_append {α : Type} (i : Nat) (g : Rng) (p s : List α)
    (hp : i + 1 ≤ p.length) :
    (shuffleLoop i g (p ++ s)).1 = (shuffleLoop i g p).1 ++ s := by
  induction i generalizing g p with
  | zero => rfl
  | succ i ih =>
    rw [shuffleLoop, shuffleLoop]
    have hj : g.below (i + 2) < p.length := by
      have : g.below (i + 2) < i + 2 := Nat.mod_lt _ (by omega)
      omega
    rw [swap_append_left p s _ _ (by omega) hj]
    apply ih
    rw [swap_length]; omega

/-- Swapping the last index with `j` puts `a[j]` last. -/
theorem swap_last {α : Type} (a : List α) (i j : Nat) (ha : a.length = i + 1)
    (hj : j < a.length) : swap a i j = (swap a i j).take i ++ [a[j]] := by
  have hget : (swap a i j)[i]? = some a[j] := by
    unfold swap
    rw [List.getElem?_eq_getElem (show i < a.length by omega), List.getElem?_eq_getElem hj]
    simp only
    rw [List.getElem?_set]
    by_cases hij : j = i
    · subst hij; simp [hj]
    · simp [hij, List.getElem?_set, ha]
  have h2 : (swap a i j).drop i = [a[j]] := by
    apply List.ext_getElem?
    intro k
    rw [List.getElem?_drop]
    cases k with
    | zero => simpa using hget
    | succ k =>
      simp only [List.getElem?_cons_succ, List.getElem?_nil]
      apply List.getElem?_eq_none
      rw [swap_length]
      omega
  conv_lhs => rw [← List.take_append_drop i (swap a i j), h2]

theorem mem_drawSeqsLoop_succ (i : Nat) (js : List Nat) :
    js ∈ drawSeqsLoop (i + 1) ↔ ∃ j, j < i + 2 ∧ ∃ t, t ∈ drawSeqsLoop i ∧ js = j :: t := by
  simp only [drawSeqsLoop, List.mem_flatMap, List.mem_range, List.mem_map]
  constructor
  · rintro ⟨j, hj, t, ht, rfl⟩
    exact ⟨j, hj, t, ht, rfl⟩
  · rintro ⟨j, hj, t, ht, rfl⟩
    exact ⟨j, hj, t, ht, rfl⟩

/-- One round of the loop on an array of length `i + 2`: the drawn element goes
to the last index and the loop continues on the other `i + 1`. -/
theorem shuffleLoop_step {α : Type} (i j : Nat) (a : List α) (ha : a.length = i + 2)
    (hj : j < a.length) (t : List Nat) :
    (shuffleLoop (i + 1) (Rng.ofList (j :: t)) a).1
      = (shuffleLoop i (Rng.ofList t) ((swap a (i + 1) j).take (i + 1))).1 ++ [a[j]] := by
  rw [shuffleLoop_ofList_cons, Nat.mod_eq_of_lt (by omega)]
  conv_lhs => rw [swap_last a (i + 1) j ha hj]
  exact shuffleLoop_append i _ _ _ (by simp [swap_length, ha])

theorem take_swap_perm {α : Type} (i j : Nat) (a : List α) (ha : a.length = i + 1)
    (hj : j < a.length) : ((swap a i j).take i ++ [a[j]]).Perm a := by
  rw [← swap_last a i j ha hj]
  exact swap_perm a i j

theorem shuffleLoop_injOn {α : Type} (i : Nat) (a : List α) (hnd : a.Nodup)
    (ha : a.length = i + 1) (js js2 : List Nat) (hjs : js ∈ drawSeqsLoop i)
    (hjs2 : js2 ∈ drawSeqsLoop i)
    (heq : (shuffleLoop i (Rng.ofList js) a).1 = (shuffleLoop i (Rng.ofList js2) a).1) :
    js = js2 := by
  induction i generalizing a js js2 with
  | zero =>
    simp only [drawSeqsLoop, List.mem_singleton] at hjs hjs2
    rw [hjs, hjs2]
  | succ i ih =>
    obtain ⟨j, hj, t, ht, rfl⟩ := (mem_drawSeqsLoop_succ i js).mp hjs
    obtain ⟨j2, hj2, t2, ht2, rfl⟩ := (mem_drawSeqsLoop_succ i js2).mp hjs2
    have hjl : j < a.length := by omega
    have hjl2 : j2 < a.length := by omega
    rw [shuffleLoop_step i j a ha hjl t, shuffleLoop_step i j2 a ha hjl2 t2] at heq
    have hlen : ((shuffleLoop i (Rng.ofList t) ((swap a (i + 1) j).take (i + 1))).1).length
        = ((shuffleLoop i (Rng.ofList t2) ((swap a (i + 1) j2).take (i + 1))).1).length := by
      rw [(shuffleLoop_perm i _ _).length_eq, (shuffleLoop_perm i _ _).length_eq]
      simp [swap_length, ha]
    obtain ⟨h1, h2⟩ := List.append_inj heq hlen
    have hjj : j = j2 := by
      have h3 : a[j] = a[j2] := by simpa using h2
      exact (List.Nodup.getElem_inj_iff hnd).mp h3
    subst hjj
    have hqnd : ((swap a (i + 1) j).take (i + 1)).Nodup := by
      have : ((swap a (i + 1) j).take (i + 1) ++ [a[j]]).Nodup :=
        (take_swap_perm (i + 1) j a ha hjl).nodup_iff.mpr hnd
      exact (List.nodup_append.mp this).1
    rw [ih _ hqnd (by simp [swap_length, ha]) t t2 ht ht2 h1]

theorem shuffleLoop_surj {α : Type} (i : Nat) (a : List α) (ha : a.length = i + 1)
    (p : List α) (hp : p.Perm a) :
    ∃ js, js ∈ drawSeqsLoop i ∧ (shuffleLoop i (Rng.ofList js) a).1 = p := by
  induction i generalizing a p with
  | zero =>
    refine ⟨[], by simp [drawSeqsLoop], ?_⟩
    obtain ⟨x, rfl⟩ := List.length_eq_one.mp ha
    simpa [shuffleLoop] using (List.perm_singleton.mp hp).symm
  | succ i ih =>
    have hpl : p.length = i + 2 := by rw [hp.length_eq, ha]
    have hpne : p ≠ [] := by
      intro h; rw [h] at hpl; simp at hpl
    have hsplit : p = p.dropLast ++ [p.getLast hpne] := (List.dropLast_append_getLast hpne).symm
    have hmem : p.getLast hpne ∈ a := hp.subset (List.getLast_mem hpne)
    obtain ⟨j, hjl, hj⟩ := List.getElem_of_mem hmem
    have hperm : ((swap a (i + 1) j).take (i + 1)).Perm p.dropLast := by
      have h1 := (take_swap_perm (i + 1) j a ha hjl).trans hp.symm
      rw [hj] at h1
      conv at h1 => rhs; rw [hsplit]
      exact (List.perm_append_right_iff _).mp h1
    obtain ⟨t, ht, hout⟩ := ih _ (by simp [swap_length, ha]) p.dropLast hperm.symm
    refine ⟨j :: t, (mem_drawSeqsLoop_succ i _).mpr ⟨j, by omega, t, ht, rfl⟩, ?_⟩
    rw [shuffleLoop_step i j a ha hjl t, hout, hj]
    exact hsplit.symm

theorem drawSeqsLoop_nodup (i : Nat) : (drawSeqsLoop i).Nodup := by
  induction i with
  | zero => simp [drawSeqsLoop]
  | succ i ih =>
    rw [drawSeqsLoop, List.nodup_flatMap]
    refine ⟨fun j _ => ih.map (fun x y h => (List.cons_inj_right j).mp h), ?_⟩
    refine List.Nodup.pairwise_of_forall_ne (List.nodup_range _) ?_
    intro j _ k _ hjk
    simp only [Function.onFun, List.disjoint_left, List.mem_map]
    rintro x ⟨t, _, rfl⟩ ⟨t2, _, h⟩
    exact hjk (List.cons.inj h).1.symm

theorem mem_drawSeqsLoop_iff (i : Nat) (js : List Nat) :
    js ∈ drawSeqsLoop i ↔ js.length = i ∧ ∀ k, k < js.length → js.getD k 0 + k < i + 1 := by
  induction i generalizing js with
  | zero =>
    simp only [drawSeqsLoop, List.mem_singleton]
    constructor
    · rintro rfl; simp
    · rintro ⟨h, _⟩; exact List.length_eq_zero.mp h
  | succ i ih =>
    rw [mem_drawSeqsLoop_succ]
    constructor
    · rintro ⟨j, hj, t, ht, rfl⟩
      obtain ⟨h1, h2⟩ := (ih t).mp ht
      refine ⟨by simp [h1], ?_⟩
      intro k hk
      cases k with
      | zero => simpa using hj
      | succ k =>
        have := h2 k (by simpa using hk)
        simp only [List.getD_cons_succ]
        omega
    · rintro ⟨h1, h2⟩
      cases js with
      | nil => simp at h1
      | cons j t =>
        refine ⟨j, ?_, t, (ih t).mpr ⟨by simpa using h1, ?_⟩, rfl⟩
        · simpa using h2 0 (by simp)
        · intro k hk
          have := h2 (k + 1) (by simpa using hk)
          simp only [List.getD_cons_succ] at this
          omega

theorem mem_drawSeqs_iff (n : Nat) (js : List Nat) : js ∈ drawSeqs n ↔ ValidDraws n js := by
  unfold drawSeqs ValidDraws
  rw [mem_drawSeqsLoop_iff]
  constructor
  · rintro ⟨h1, h2⟩
    refine ⟨h1, fun k hk => ?_⟩
    have := h2 k hk
    omega
  · rintro ⟨h1, h2⟩
    refine ⟨h1, fun k hk => ?_⟩
    have := h2 k hk
    omega

theorem shuffle_outputs_perm {α : Type} (arr : List α) (hnd : arr.Nodup) :
    ((drawSeqs arr.length).map (fun js => (shuffle (Rng.ofList js) arr).1)).Perm
      arr.permutations := by
  have key : ∀ js, js ∈ drawSeqs arr.length → ∀ js2, js2 ∈ drawSeqs arr.length →
      (shuffle (Rng.ofList js) arr).1 = (shuffle (Rng.ofList js2) arr).1 → js = js2 := by
    intro js hjs js2 hjs2 heq
    cases arr with
    | nil =>
      simp only [drawSeqs, List.length_nil, drawSeqsLoop, List.mem_singleton] at hjs hjs2
      rw [hjs, hjs2]
    | cons x xs =>
      exact shuffleLoop_injOn xs.length (x :: xs) hnd rfl js js2 hjs hjs2 heq
  apply (List.perm_ext_iff_of_nodup ?_ (List.nodup_permutations arr hnd)).mpr
  · intro p
    rw [List.mem_permutations, List.mem_map]
    constructor
    · rintro ⟨js, _, rfl⟩
      exact shuffleLoop_perm _ _ arr
    · intro hp
      cases arr with
      | nil =>
        refine ⟨[], by simp [drawSeqs, drawSeqsLoop], ?_⟩
        simpa [shuffle, shuffleLoop] using (List.perm_nil.mp hp).symm
      | cons x xs =>
        obtain ⟨js, hjs, hout⟩ := shuffleLoop_surj xs.length (x :: xs) rfl p hp
        exact ⟨js, hjs, hout⟩
  · exact (List.nodup_map_iff_inj_on (drawSeqsLoop_nodup _)).mpr key

theorem length_drawSeqs (n : Nat) : (drawSeqs n).length = n.factorial := by
  have h := (shuffle_outputs_perm (List.range n) (List.nodup_range n)).length_eq
  simpa [List.length_permutations] using h

/-- C9: `shuffle` is unbiased.  For an input `arr` of `n` pairwise distinct
elements, the draw sequences `[j_{n-1}, …, j_1]` with `0 ≤ j_i ≤ i` are exactly
the members of `drawSeqs n`, there are `n!` of them without repetition, the
outputs of `shuffle` over all of them list every permutation of `arr` exactly
once, and so every permutation of `arr` is the output of exactly one draw
sequence: under uniform independent draws each has probability `1 / n!`. -/
theorem shuffle_unbiased {α : Type} (arr : List α) (hnd : arr.Nodup) :
    (∀ js, js ∈ drawSeqs arr.length ↔ ValidDraws arr.length js)
    ∧ (drawSeqs arr.length).Nodup
    ∧ (drawSeqs arr.length).length = arr.length.factorial
    ∧ ((drawSeqs arr.length).map (fun js => (shuffle (Rng.ofList js) arr).1)).Perm
        arr.permutations
    ∧ (∀ js, ValidDraws arr.length js → (shuffle (Rng.ofList js) arr).1.Perm arr)
    ∧ (∀ p : List α, p.Perm arr →
        ∃! js, ValidDraws arr.length js ∧ (shuffle (Rng.ofList js) arr).1 = p) := by
  refine ⟨mem_drawSeqs_iff _, drawSeqsLoop_nodup _, length_drawSeqs _,
    shuffle_outputs_perm arr hnd, fun js _ => shuffleLoop_perm _ _ arr, ?_⟩
  intro p hp
  have hmem : p ∈ (drawSeqs arr.length).map (fun js => (shuffle (Rng.ofList js) arr).1) :=
    (shuffle_outputs_perm arr hnd).mem_iff.mpr (List.mem_permutations.mpr hp)
  obtain ⟨js, hjs, hout⟩ := List.mem_map.mp hmem
  refine ⟨js, ⟨(mem_drawSeqs_iff _ _).mp hjs, hout⟩, ?_⟩
  rintro js2 ⟨hv2, hout2⟩
  have hnodup := (shuffle_outputs_perm arr hnd).nodup_iff.mpr (List.nodup_permutations arr hnd)
  have hinj := (List.nodup_map_iff_inj_on (drawSeqsLoop_nodup _)).mp hnodup
  exact hinj js2 ((mem_drawSeqs_iff _ _).mpr hv2) js hjs (hout2.trans hout.symm)

/-- The six draw sequences for a three-element array give its six permutations. -/
theorem shuffle_unbiased_witness :
    [10, 20, 30].Nodup
    ∧ (drawSeqs 3).map (fun js => (shuffle (Rng.ofList js) [10, 20, 30]).1)
        = [[20, 30, 10], [30, 20, 10], [30, 10, 20], [10, 30, 20], [20, 10, 30], [10, 20, 30]]
    ∧ ((drawSeqs 3).map (fun js => (shuffle (Rng.ofList js) [10, 20, 30]).1)).Perm
        [10, 20, 30].permutations :=
  ⟨by decide, by decide, (shuffle_unbiased [10, 20, 30] (by decide)).2.2.2.1⟩

/-! ## The allocator of `buildExam` -/

theorem getD_modify (f : Nat → Nat) (l : List Nat) (i k : Nat) :
    (l.modify f i).getD k 0 = if i = k ∧ k < l.length then f (l.getD k 0) else l.getD k 0 := by
  simp only [List.getD_eq_getElem?_getD, List.getElem?_modify]
  by_cases hk : k < l.length
  · rw [List.getElem?_eq_getElem hk]
    by_cases hik : i = k <;> simp [hik, hk]
  · rw [List.getElem?_eq_none (by omega)]
    simp [hk]

theorem sum_modify (f : Nat → Nat) (l : List Nat) (i : Nat) (hi : i < l.length) :
    (l.modify f i).sum + l.getD i 0 = l.sum + f (l.getD i 0) := by
  induction l generalizing i with
  | nil => simp at hi
  | cons x xs ih =>
    cases i with
    | zero => simp [List.modify, List.modifyHead]; omega
    | succ i =>
      have := ih i (by simpa using hi)
      simp only [List.modify_succ_cons, List.sum_cons, List.getD_cons_succ]
      omega


theorem topUp_spec (counts : List Nat) (sum i : Nat) (hne : counts ≠ []) (hs : counts.sum = sum) :
    (topUp counts sum i).1.sum = (topUp counts sum i).2.1
    ∧ (topUp counts sum i).2.1 = max sum TARGET
    ∧ (topUp counts sum i).1.length = counts.length
    ∧ (∀ k, counts.getD k 0 ≤ (topUp counts sum i).1.getD k 0)
    ∧ (TARGET ≤ sum → (topUp counts sum i).1 = counts) := by
  induction counts, sum, i using topUp.induct with
  | case1 counts sum i hlt ih =>
    have hpos : 0 < counts.length := List.length_pos.mpr hne
    have hidx : i % counts.length < counts.length := Nat.mod_lt _ hpos
    have hne2 : counts.modify (· + 1) (i % counts.length) ≠ [] := by
      intro h
      have h0 : (counts.modify (· + 1) (i % counts.length)).length = 0 := by rw [h]; rfl
      rw [List.length_modify] at h0
      omega
    have hs2 : (counts.modify (· + 1) (i % counts.length)).sum = sum + 1 := by
      have := sum_modify (· + 1) counts _ hidx
      beta_reduce at this
      omega
    obtain ⟨h1, h2, h3, h4, _⟩ := ih hne2 hs2
    have e : topUp counts sum i
        = topUp (counts.modify (· + 1) (i % counts.length)) (sum + 1) (i + 1) := by
      rw [topUp, if_pos hlt]
    rw [e]
    refine ⟨h1, ?_, ?_, ?_, ?_⟩
    · rw [h2]; omega
    · rw [h3]; simp
    · intro k
      refine le_trans ?_ (h4 k)
      rw [getD_modify]
      split <;> omega
    · intro h; omega
  | case2 counts sum i hge =>
    have e : topUp counts sum i = (counts, sum, i) := by rw [topUp, if_neg hge]
    rw [e]
    dsimp only
    refine ⟨hs, ?_, rfl, fun k => le_refl _, fun _ => rfl⟩
    omega

theorem findIndexFrom_some {α : Type} (p : α → Nat → Bool) (l : List α) (j idx : Nat)
    (h : findIndexFrom p l j = some idx) :
    j ≤ idx ∧ (∃ c, l[idx - j]? = some c ∧ p c idx = true)
      ∧ ∀ k c, k < idx - j → l[k]? = some c → p c (j + k) = false := by
  induction l generalizing j with
  | nil => simp [findIndexFrom] at h
  | cons x xs ih =>
    rw [findIndexFrom] at h
    by_cases hp : p x j = true
    · rw [if_pos hp] at h
      have hj : j = idx := Option.some.inj h
      subst hj
      refine ⟨le_refl _, ⟨x, by simp, hp⟩, ?_⟩
      intro k c hk
      omega
    · rw [if_neg hp] at h
      obtain ⟨h1, ⟨c, h2, h3⟩, h4⟩ := ih (j + 1) h
      refine ⟨by omega, ⟨c, ?_, h3⟩, ?_⟩
      · have : idx - j = (idx - (j + 1)) + 1 := by omega
        rw [this, List.getElem?_cons_succ]
        exact h2
      · intro k c hk hc
        cases k with
        | zero =>
          have : x = c := by simpa using hc
          subst this
          simpa using hp
        | succ k =>
          have := h4 k c (by omega) (by simpa using hc)
          rw [show j + (k + 1) = j + 1 + k by omega]
          exact this

theorem findIndexFrom_none {α : Type} (p : α → Nat → Bool) (l : List α) (j : Nat)
    (h : findIndexFrom p l j = none) : ∀ k c, l[k]? = some c → p c (j + k) = false := by
  induction l generalizing j with
  | nil => intro k c hc; simp at hc
  | cons x xs ih =>
    rw [findIndexFrom] at h
    by_cases hp : p x j = true
    · rw [if_pos hp] at h; exact absurd h (by simp)
    · rw [if_neg hp] at h
      intro k c hc
      cases k with
      | zero =>
        have : x = c := by simpa using hc
        subst this
        simpa using hp
      | succ k =>
        have := ih (j + 1) h k c (by simpa using hc)
        rw [show j + (k + 1) = j + 1 + k by omega]
        exact this

theorem floors_getD (chs : List Chapter) (j : Nat) (ch : Chapter) (h : chs[j]? = some ch) :
    (floors chs).getD j 0 = min 8 ch.terms.length := by
  simp [floors, List.getD_eq_getElem?_getD, List.getElem?_map, h]

theorem aboveFloor_true (chs : List Chapter) (c j : Nat) (h : aboveFloor chs c j = true) :
    j < chs.length ∧ (floors chs).getD j 0 < c := by
  unfold aboveFloor at h
  split at h
  · rename_i ch hch
    refine ⟨(List.getElem?_eq_some_iff.mp hch).1, ?_⟩
    rw [floors_getD chs j ch hch]
    simpa using h
  · exact absurd h (by simp)

theorem aboveFloor_false (chs : List Chapter) (c j : Nat) (hj : j < chs.length)
    (h : aboveFloor chs c j = false) : c ≤ (floors chs).getD j 0 := by
  unfold aboveFloor at h
  rw [List.getElem?_eq_getElem hj] at h
  rw [floors_getD chs j _ (List.getElem?_eq_getElem hj)]
  simpa using h

theorem trim_spec (chs : List Chapter) (counts : List Nat) (sum : Nat)
    (hlen : counts.length = chs.length)
    (hfl : ∀ k, (floors chs).getD k 0 ≤ counts.getD k 0) (hs : counts.sum = sum) :
    (trim chs counts sum).1.length = counts.length
    ∧ (∀ k, (floors chs).getD k 0 ≤ (trim chs counts sum).1.getD k 0)
    ∧ (∀ k, (trim chs counts sum).1.getD k 0 ≤ counts.getD k 0)
    ∧ (trim chs counts sum).1.sum = (trim chs counts sum).2
    ∧ (sum ≤ TARGET → (trim chs counts sum).1 = counts)
    ∧ (TARGET ≤ sum → ((trim chs counts sum).2 = TARGET
        ∨ (TARGET < (trim chs counts sum).2 ∧ (trim chs counts sum).1 = floors chs))) := by
  induction counts, sum using trim.induct chs with
  | case1 counts sum hgt hnone =>
    have e : trim chs counts sum = (counts, sum) := by rw [trim, if_pos hgt, hnone]
    rw [e]
    dsimp only
    refine ⟨rfl, hfl, fun k => le_refl _, hs, fun h => absurd h (by omega), fun _ => ?_⟩
    right
    refine ⟨hgt, ?_⟩
    apply List.ext_getElem?
    intro k
    by_cases hk : k < counts.length
    · have h1 := findIndexFrom_none _ _ _ hnone k counts[k] (List.getElem?_eq_getElem hk)
      rw [Nat.zero_add] at h1
      have h2 := aboveFloor_false chs _ k (by omega) h1
      have h3 := hfl k
      have hk2 : k < (floors chs).length := by simp [floors]; omega
      rw [List.getD_eq_getElem _ _ hk] at h3
      rw [List.getD_eq_getElem _ _ hk2] at h2 h3
      rw [List.getElem?_eq_getElem hk, List.getElem?_eq_getElem hk2]
      congr 1
      omega
    · rw [List.getElem?_eq_none (by omega), List.getElem?_eq_none (by simp [floors]; omega)]
  | case2 counts sum hgt idx hsome ih =>
    obtain ⟨_, ⟨c, hc, hp⟩, _⟩ := findIndexFrom_some _ _ _ _ hsome
    rw [Nat.sub_zero] at hc
    obtain ⟨hidx, hcl⟩ := List.getElem?_eq_some_iff.mp hc
    obtain ⟨_, habove⟩ := aboveFloor_true chs c idx hp
    have hcd : counts.getD idx 0 = c := by rw [List.getD_eq_getElem _ _ hidx, hcl]
    have hlen2 : (counts.modify (· - 1) idx).length = chs.length := by
      rw [List.length_modify]; exact hlen
    have hfl2 : ∀ k, (floors chs).getD k 0 ≤ (counts.modify (· - 1) idx).getD k 0 := by
      intro k
      rw [getD_modify]
      split
      · rename_i h
        obtain ⟨rfl, _⟩ := h
        rw [hcd]; omega
      · exact hfl k
    have hs2 : (counts.modify (· - 1) idx).sum = sum - 1 := by
      have := sum_modify (· - 1) counts idx hidx
      beta_reduce at this
      rw [hcd] at this
      omega
    obtain ⟨h1, h2, h3, h4, _, h6⟩ := ih hlen2 hfl2 hs2
    have e : trim chs counts sum = trim chs (counts.modify (· - 1) idx) (sum - 1) := by
      rw [trim, if_pos hgt, hsome]
    rw [e]
    refine ⟨?_, h2, ?_, h4, fun h => absurd h (by omega), fun _ => h6 (by omega)⟩
    · rw [h1, List.length_modify]
    · intro k
      refine le_trans (h3 k) ?_
      rw [getD_modify]
      split <;> omega
  | case3 counts sum hle =>
    have e : trim chs counts sum = (counts, sum) := by rw [trim, if_neg hle]
    rw [e]
    dsimp only
    refine ⟨rfl, hfl, fun k => le_refl _, hs, fun _ => rfl, fun h => Or.inl ?_⟩
    omega

theorem rawCounts_length (rnd : Nat → Nat → Nat) (chs : List Chapter) :
    (rawCounts rnd chs).length = chs.length := by
  simp [rawCounts]

theorem rawCounts_floor (rnd : Nat → Nat → Nat) (chs : List Chapter) (k : Nat) :
    (floors chs).getD k 0 ≤ (rawCounts rnd chs).getD k 0 := by
  simp only [floors, rawCounts, List.getD_eq_getElem?_getD, List.getElem?_map]
  cases chs[k]? with
  | none => simp
  | some ch => simp

/-- What both nudge loops leave: one count per chapter, each at least at its
floor, and a total of `TARGET` unless every count sits at its floor. -/
theorem allocate_spec (rnd : Nat → Nat → Nat) (chs : List Chapter) (hne : chs ≠ []) :
    (allocate rnd chs).length = chs.length
    ∧ (∀ k, (floors chs).getD k 0 ≤ (allocate rnd chs).getD k 0)
    ∧ ((allocate rnd chs).sum = TARGET
        ∨ (TARGET < (allocate rnd chs).sum ∧ allocate rnd chs = floors chs)) := by
  have hne0 : rawCounts rnd chs ≠ [] := by
    intro h
    have h0 : (rawCounts rnd chs).length = 0 := by rw [h]; rfl
    rw [rawCounts_length] at h0
    exact hne (List.length_eq_zero.mp h0)
  obtain ⟨u1, u2, u3, u4, _⟩ := topUp_spec (rawCounts rnd chs) (rawCounts rnd chs).sum 0 hne0 rfl
  have hlen : (topUp (rawCounts rnd chs) (rawCounts rnd chs).sum 0).1.length = chs.length := by
    rw [u3, rawCounts_length]
  have hfl : ∀ k, (floors chs).getD k 0
      ≤ (topUp (rawCounts rnd chs) (rawCounts rnd chs).sum 0).1.getD k 0 :=
    fun k => le_trans (rawCounts_floor rnd chs k) (u4 k)
  obtain ⟨t1, t2, _, t4, _, t6⟩ := trim_spec chs _ _ hlen hfl u1
  refine ⟨?_, t2, ?_⟩
  · show (trim chs _ _).1.length = chs.length
    rw [t1, hlen]
  · have hge : TARGET ≤ (topUp (rawCounts rnd chs) (rawCounts rnd chs).sum 0).2.1 := by
      rw [u2]; omega
    show (trim chs _ _).1.sum = TARGET ∨ (TARGET < (trim chs _ _).1.sum ∧ (trim chs _ _).1 = _)
    rw [t4]
    exact t6 hge

theorem ne_nil_of_flattenTerms_pos (chs : List Chapter) (h : 0 < (flattenTerms chs).length) :
    chs ≠ [] := by
  intro h0
  rw [h0] at h
  simp [flattenTerms] at h

/-- Where the floors `min(8, termCount_i)` sum to at most `TARGET`, the
allocator keeps the promise of the docstring of `buildExam`: for every
non-empty list of chapters holding at least one term in total, the counts it
ends with (after the top-up loop and the trim loop) sum to exactly
`TARGET = 100`, whatever the rounding `rnd`. -/
theorem allocate_sum_of_floors_le (rnd : Nat → Nat → Nat) (chs : List Chapter)
    (hne : chs ≠ []) (_hpos : 0 < (flattenTerms chs).length)
    (hF : (floors chs).sum ≤ TARGET) : (allocate rnd chs).sum = TARGET := by
  obtain ⟨_, _, h3⟩ := allocate_spec rnd chs hne
  rcases h3 with h | ⟨h1, h2⟩
  · exact h
  · rw [h2] at h1
    omega

/-- C2: for every list of chapters with at least one term in total, the
allocator of `buildExam` ends with one count per chapter and every count is at
least the floor `min(8, termCount_i)` of its chapter, whatever the rounding. -/
theorem allocate_floor (rnd : Nat → Nat → Nat) (chs : List Chapter)
    (hpos : 0 < (flattenTerms chs).length) :
    List.Forall₂ (fun ch c => min 8 ch.terms.length ≤ c) chs (allocate rnd chs) := by
  obtain ⟨h1, h2, _⟩ := allocate_spec rnd chs (ne_nil_of_flattenTerms_pos chs hpos)
  rw [List.forall₂_iff_get]
  refine ⟨h1.symm, ?_⟩
  intro i hi hi2
  have := h2 i
  rw [floors_getD chs i _ (List.getElem?_eq_getElem hi), List.getD_eq_getElem _ _ hi2] at this
  simpa using this

theorem flattenTerms_length (chs : List Chapter) :
    (flattenTerms chs).length = (chs.map (fun c => c.terms.length)).sum := by
  induction chs with
  | nil => rfl
  | cons c cs ih =>
    simp only [flattenTerms, List.flatMap_cons, List.length_append, List.length_map,
      List.map_cons, List.sum_cons] at ih ⊢
    rw [ih]

theorem chapters_lens : chapters.map (fun c => c.terms.length) = [11, 17, 18, 12, 17, 15, 20, 19] := by
  decide

theorem flattenTerms_chapters_length : (flattenTerms chapters).length = 129 := by
  rw [flattenTerms_length, chapters_lens]
  rfl

theorem chapters_ne_nil : chapters ≠ [] := by
  intro h
  have := congrArg (fun l => l.map (fun c => c.terms.length)) h
  simp only [chapters_lens] at this
  exact absurd this (by decide)

theorem floors_eq (chs : List Chapter) :
    floors chs = (chs.map (fun c => c.terms.length)).map (fun n => min 8 n) := by
  simp [floors, List.map_map, Function.comp_def]

/-- The floor property on the shipped chapters. -/
theorem allocate_floor_witness :
    0 < (flattenTerms chapters).length ∧
    List.Forall₂ (fun ch c => min 8 ch.terms.length ≤ c) chapters (allocate roundPct chapters) :=
  ⟨by rw [flattenTerms_chapters_length]; decide,
    allocate_floor roundPct chapters (by rw [flattenTerms_chapters_length]; decide)⟩

/-- The shipped chapters have floors summing to `64` and get `100` questions. -/
theorem allocate_sum_of_floors_le_witness :
    chapters ≠ [] ∧ 0 < (flattenTerms chapters).length ∧ (floors chapters).sum ≤ TARGET
      ∧ (allocate roundPct chapters).sum = TARGET :=
  ⟨chapters_ne_nil, by rw [flattenTerms_chapters_length]; decide,
    by rw [floors_eq, chapters_lens]; decide,
    allocate_sum_of_floors_le roundPct chapters chapters_ne_nil
      (by rw [flattenTerms_chapters_length]; decide) (by rw [floors_eq, chapters_lens]; decide)⟩

theorem thirteen_lens :
    thirteenChapters.map (fun c => c.terms.length) = List.replicate 13 8 := by
  decide

theorem sum_le_sum_of_getD (l1 l2 : List Nat) (hlen : l1.length = l2.length)
    (h : ∀ k, l1.getD k 0 ≤ l2.getD k 0) : l1.sum ≤ l2.sum := by
  induction l1 generalizing l2 with
  | nil => simp
  | cons x xs ih =>
    cases l2 with
    | nil => simp at hlen
    | cons y ys =>
      have h0 : x ≤ y := by simpa using h 0
      have := ih ys (by simpa using hlen) (fun k => by simpa using h (k + 1))
      simp only [List.sum_cons]
      omega

/-- C1: the docstring of `buildExam` says that the total is normalised to
exactly `TARGET` (100) questions, and the allocator breaks that on thirteen
chapters of eight terms: every raw count is `max(round(8 / 104 * 100), 8) = 8`,
the sum is `104`, the trim loop finds no count above its floor and breaks, and
the final counts sum to `104`, not `100`. -/
theorem allocate_sum_counterexample :
    thirteenChapters ≠ [] ∧ 0 < (flattenTerms thirteenChapters).length
      ∧ allocate roundPct thirteenChapters = [8, 8, 8, 8, 8, 8, 8, 8, 8, 8, 8, 8, 8]
      ∧ (allocate roundPct thirteenChapters).sum = 104
      ∧ (allocate roundPct thirteenChapters).sum ≠ TARGET := by
  have hne : thirteenChapters ≠ [] := by
    intro h
    have := congrArg (fun l => l.map (fun c => c.terms.length)) h
    simp only [thirteen_lens] at this
    exact absurd this (by decide)
  have hfl : floors thirteenChapters = [8, 8, 8, 8, 8, 8, 8, 8, 8, 8, 8, 8, 8] := by
    rw [floors_eq, thirteen_lens]; decide
  obtain ⟨h1, h2, h3⟩ := allocate_spec roundPct thirteenChapters hne
  have hge : (floors thirteenChapters).sum ≤ (allocate roundPct thirteenChapters).sum :=
    sum_le_sum_of_getD _ _ (by rw [h1]; simp [floors]) h2
  have hall : allocate roundPct thirteenChapters = [8, 8, 8, 8, 8, 8, 8, 8, 8, 8, 8, 8, 8] := by
    rcases h3 with h | ⟨_, h⟩
    · rw [hfl, h] at hge
      exact absurd hge (by decide)
    · rw [h, hfl]
  refine ⟨hne, ?_, hall, ?_, ?_⟩
  · rw [flattenTerms_length, thirteen_lens]; decide
  · rw [hall]; rfl
  · rw [hall]; decide

/-! ## `buildQuestions` and `startQuickQuiz` -/

/-- Every element of the result of `mapRng` is the callback's value on the
element at the same index, for some state of the random source. -/
theorem mapRng_forall₂ {α β : Type} (f : Rng → α → β × Rng) (g : Rng) (l : List α) :
    List.Forall₂ (fun x y => ∃ h : Rng, y = (f h x).1) l (mapRng f g l).1 := by
  induction l generalizing g with
  | nil => exact List.Forall₂.nil
  | cons x xs ih =>
    rw [mapRng]
    exact List.Forall₂.cons ⟨g, rfl⟩ (ih _)

theorem mapRng_length {α β : Type} (f : Rng → α → β × Rng) (g : Rng) (l : List α) :
    (mapRng f g l).1.length = l.length :=
  (mapRng_forall₂ f g l).length_eq.symm

theorem mapRng_map_eq {α β γ : Type} (f : Rng → α → β × Rng) (proj : β → γ) (orig : α → γ)
    (hf : ∀ h x, proj (f h x).1 = orig x) (g : Rng) (l : List α) :
    (mapRng f g l).1.map proj = l.map orig := by
  induction l generalizing g with
  | nil => rfl
  | cons x xs ih =>
    rw [mapRng]
    simp only [List.map_cons, hf, ih]

theorem mem_mapRng {α β : Type} (f : Rng → α → β × Rng) (g : Rng) (l : List α) (y : β)
    (hy : y ∈ (mapRng f g l).1) : ∃ x, x ∈ l ∧ ∃ h : Rng, y = (f h x).1 := by
  induction l generalizing g with
  | nil => simp [mapRng] at hy
  | cons x xs ih =>
    rw [mapRng] at hy
    rcases List.mem_cons.mp hy with h | h
    · exact ⟨x, List.mem_cons_self _ _, g, h⟩
    · obtain ⟨x2, hx2, h2⟩ := ih _ h
      exact ⟨x2, List.mem_cons_of_mem _ hx2, h2⟩

theorem buildQuestion_tuple (bank : List Tuple) (g : Rng) (p : Tuple) :
    (buildQuestion bank g p).1.tuple = p := rfl

theorem buildQuestions_tuples (g : Rng) (pool bank : List Tuple) (count : Nat) :
    (buildQuestions g pool bank count).1.map Question.tuple
      = (shuffle g pool).1.take (min count pool.length) := by
  unfold buildQuestions
  simp only
  rw [mapRng_map_eq (buildQuestion bank) Question.tuple id (fun h x => buildQuestion_tuple bank h x)]
  simp

theorem buildQuestions_length (g : Rng) (pool bank : List Tuple) (count : Nat) :
    (buildQuestions g pool bank count).1.length = min count pool.length := by
  have := congrArg List.length (buildQuestions_tuples g pool bank count)
  simp only [List.length_map, List.length_take, (shuffle_perm g pool).length_eq] at this
  omega

/-- C10: for every pool, bank, count and state of the random source,
`buildQuestions` returns exactly `min(count, pool.length)` questions; their
`(term, correctDef, chapterNum, chapterTitle)` tuples are the first
`min(count, pool.length)` entries of the permutation `shuffle(pool)` of the
pool, so no pool entry is asked more often than it occurs in the pool, every
question is a pool entry (its `correctDef` is the definition paired with its
term there), and a count of at least `pool.length` yields the whole pool. -/
theorem buildQuestions_sample (g : Rng) (pool bank : List Tuple) (count : Nat) :
    (buildQuestions g pool bank count).1.length = min count pool.length
    ∧ (shuffle g pool).1.Perm pool
    ∧ (buildQuestions g pool bank count).1.map Question.tuple
        = (shuffle g pool).1.take (min count pool.length)
    ∧ (∀ e : Tuple, ((buildQuestions g pool bank count).1.map Question.tuple).count e
        ≤ pool.count e)
    ∧ (∀ q, q ∈ (buildQuestions g pool bank count).1 →
        (q.term, q.correctDef, q.chapterNum, q.chapterTitle) ∈ pool)
    ∧ (pool.length ≤ count →
        ((buildQuestions g pool bank count).1.map Question.tuple).Perm pool) := by
  refine ⟨buildQuestions_length g pool bank count, shuffle_perm g pool,
    buildQuestions_tuples g pool bank count, ?_, ?_, ?_⟩
  · intro e
    rw [buildQuestions_tuples]
    exact le_trans ((List.take_sublist _ _).countP_le _)
      (le_of_eq ((shuffle_perm g pool).countP_eq _))
  · intro q hq
    have h1 : q.tuple ∈ (buildQuestions g pool bank count).1.map Question.tuple :=
      List.mem_map_of_mem _ hq
    rw [buildQuestions_tuples] at h1
    exact (shuffle_perm g pool).subset (List.mem_of_mem_take h1)
  · intro hle
    rw [buildQuestions_tuples, Nat.min_eq_right hle,
      List.take_of_length_le (by rw [(shuffle_perm g pool).length_eq])]
    exact shuffle_perm g pool

theorem distractors_eq (g : Rng) (bank : List Tuple) (X : String) :
    (distractors g bank X).1
      = ((shuffle g (bank.filter (fun e => e.1 != X))).1.take 3).map (fun e => e.2.1) := rfl

theorem distractors_length (g : Rng) (bank : List Tuple) (X : String) :
    (distractors g bank X).1.length = min 3 (bank.filter (fun e => e.1 != X)).length := by
  rw [distractors_eq, List.length_map, List.length_take, (shuffle_perm g _).length_eq]

theorem distractors_source (g : Rng) (bank : List Tuple) (X : String) (e : Tuple)
    (he : e ∈ (shuffle g (bank.filter (fun e => e.1 != X))).1.take 3) : e ∈ bank ∧ e.1 ≠ X := by
  have h1 := (shuffle_perm g _).subset (List.mem_of_mem_take he)
  rw [List.mem_filter] at h1
  exact ⟨h1.1, by simpa using h1.2⟩

/-- Every question of `buildQuestions` asks a pool entry, and its options are
the correct definition and the distractors of its term, in some order. -/
theorem buildQuestions_mem (g : Rng) (pool bank : List Tuple) (count : Nat) (q : Question)
    (hq : q ∈ (buildQuestions g pool bank count).1) :
    q.tuple ∈ pool
      ∧ ∃ h : Rng, q.options.Perm (q.correctDef :: (distractors h bank q.term).1) := by
  unfold buildQuestions at hq
  obtain ⟨p, hp, h, rfl⟩ := mem_mapRng _ _ _ _ hq
  refine ⟨(shuffle_perm g pool).subset (List.mem_of_mem_take hp), h, ?_⟩
  exact shuffle_perm _ _

/-- C5 (amended): every question that `buildQuestions` returns has the correct
definition among its options, which number between 1 and 4; there are exactly 4
when the bank holds at least 3 entries whose term differs from the question's
term, and the correct definition occurs exactly once when no bank entry with a
different term carries the same definition text. -/
theorem buildQuestions_options (g : Rng) (pool bank : List Tuple) (count : Nat) (q : Question)
    (hq : q ∈ (buildQuestions g pool bank count).1) :
    q.correctDef ∈ q.options
    ∧ 1 ≤ q.options.length ∧ q.options.length ≤ 4
    ∧ (3 ≤ (bank.filter (fun e => e.1 != q.term)).length → q.options.length = 4)
    ∧ ((∀ e, e ∈ bank → e.1 ≠ q.term → e.2.1 ≠ q.correctDef) →
        q.options.count q.correctDef = 1) := by
  obtain ⟨_, h, hperm⟩ := buildQuestions_mem g pool bank count q hq
  have hlen : q.options.length = 1 + min 3 (bank.filter (fun e => e.1 != q.term)).length := by
    rw [hperm.length_eq, List.length_cons, distractors_length]; omega
  refine ⟨hperm.symm.subset (List.mem_cons_self _ _), by omega, by omega, fun h3 => by omega, ?_⟩
  intro hne
  rw [hperm.count_eq, List.count_cons_self]
  have : q.correctDef ∉ (distractors h bank q.term).1 := by
    rw [distractors_eq, List.mem_map]
    rintro ⟨e, he, hd⟩
    obtain ⟨h1, h2⟩ := distractors_source h bank q.term e he
    exact hne e h1 h2 hd
  rw [List.count_eq_zero_of_not_mem this]

/-- C5 fails twice.  With a one-entry bank the only question has the single
option `"Rewards"`, not 4.  With `bankDup`, where the term "Earnings" carries
the definition of "Profits", the question on "Profits" has 4 options and the
correct definition `"Rewards"` occurs twice among them. -/
theorem buildQuestions_options_counterexample :
    (buildQuestions (Rng.ofList []) [("Profits", "Rewards", 1, "One")]
        [("Profits", "Rewards", 1, "One")] 1).1
      = [{ term := "Profits", correctDef := "Rewards", chapterNum := 1, chapterTitle := "One",
           options := ["Rewards"] }]
    ∧ (buildQuestions (Rng.ofList []) [("Profits", "Rewards", 1, "One")] bankDup 1).1
      = [{ term := "Profits", correctDef := "Rewards", chapterNum := 1, chapterTitle := "One",
           options := ["Activities", "Foresight", "Rewards", "Rewards"] }]
    ∧ ["Activities", "Foresight", "Rewards", "Rewards"].count "Rewards" = 2
    ∧ ¬ (∀ q, q ∈ (buildQuestions (Rng.ofList []) [("Profits", "Rewards", 1, "One")]
          [("Profits", "Rewards", 1, "One")] 1).1 →
          q.options.length = 4 ∧ q.options.count q.correctDef = 1) := by
  refine ⟨by decide, by decide, by decide, ?_⟩
  intro h
  have := (h _ (List.mem_singleton.mpr rfl)).1
  revert this
  decide

/-- The first question built from `sampleBank` has 4 options and the correct
definition once. -/
theorem buildQuestions_options_witness :
    sampleQuestion ∈ (buildQuestions (Rng.ofList []) sampleBank sampleBank 2).1
    ∧ sampleQuestion.options.length = 4
    ∧ sampleQuestion.options.count sampleQuestion.correctDef = 1 :=
  ⟨by decide,
    (buildQuestions_options (Rng.ofList []) sampleBank sampleBank 2 sampleQuestion
      (by decide)).2.2.2.1 (by decide),
    (buildQuestions_options (Rng.ofList []) sampleBank sampleBank 2 sampleQuestion
      (by decide)).2.2.2.2 (by decide)⟩

theorem qqDistractors_eq (g : Rng) (bank : List (String × String)) (X : String) :
    (qqDistractors g bank X).1
      = ((shuffle g (bank.filter (fun e => e.1 != X))).1.take 3).map (fun e => e.2) := rfl

theorem qqDistractors_source (g : Rng) (bank : List (String × String)) (X : String)
    (e : String × String)
    (he : e ∈ (shuffle g (bank.filter (fun e => e.1 != X))).1.take 3) : e ∈ bank ∧ e.1 ≠ X := by
  have h1 := (shuffle_perm g _).subset (List.mem_of_mem_take he)
  rw [List.mem_filter] at h1
  exact ⟨h1.1, by simpa using h1.2⟩

/-- Every question of `startQuickQuiz` asks a term of the chapter, and its
options are the correct definition and the distractors of its term, in some
order. -/
theorem startQuickQuiz_mem (g : Rng) (bank : List (String × String)) (ch : Chapter)
    (q : QuickQuestion) (hq : q ∈ (startQuickQuiz g bank ch).1) :
    (q.term, q.correctDef) ∈ ch.terms
      ∧ ∃ h : Rng, q.options.Perm (q.correctDef :: (qqDistractors h bank q.term).1) := by
  unfold startQuickQuiz at hq
  obtain ⟨p, hp, h, rfl⟩ := mem_mapRng _ _ _ _ hq
  refine ⟨(shuffle_perm g ch.terms).subset (List.mem_of_mem_take hp), h, ?_⟩
  exact shuffle_perm _ _

/-- C6: for every question built by `buildQuestions` or by `startQuickQuiz`,
the distractors are the definition fields of a list `es` of bank entries, the
options are the correct definition and these definitions in some order, and
every entry of `es` is in the bank with a term different from the question's
term: no bank entry with the question's term is a distractor source. -/
theorem distractor_exclusion :
    (∀ (g : Rng) (pool bank : List Tuple) (count : Nat) (q : Question),
      q ∈ (buildQuestions g pool bank count).1 →
      ∃ (h : Rng) (es : List Tuple),
        (distractors h bank q.term).1 = es.map (fun e => e.2.1)
        ∧ q.options.Perm (q.correctDef :: es.map (fun e => e.2.1))
        ∧ ∀ e, e ∈ es → e ∈ bank ∧ e.1 ≠ q.term)
    ∧ (∀ (g : Rng) (bank : List (String × String)) (ch : Chapter) (q : QuickQuestion),
      q ∈ (startQuickQuiz g bank ch).1 →
      ∃ (h : Rng) (es : List (String × String)),
        (qqDistractors h bank q.term).1 = es.map (fun e => e.2)
        ∧ q.options.Perm (q.correctDef :: es.map (fun e => e.2))
        ∧ ∀ e, e ∈ es → e ∈ bank ∧ e.1 ≠ q.term) := by
  constructor
  · intro g pool bank count q hq
    obtain ⟨_, h, hperm⟩ := buildQuestions_mem g pool bank count q hq
    exact ⟨h, _, distractors_eq h bank q.term, hperm,
      fun e he => distractors_source h bank q.term e he⟩
  · intro g bank ch q hq
    obtain ⟨_, h, hperm⟩ := startQuickQuiz_mem g bank ch q hq
    exact ⟨h, _, qqDistractors_eq h bank q.term, hperm,
      fun e he => qqDistractors_source h bank q.term e he⟩

theorem length_filter_ne_of_nodup (bank : List Tuple) (X : String) (hnd : (bank.map (fun e => e.1)).Nodup) :
    bank.length ≤ (bank.filter (fun e => e.1 != X)).length + 1 := by
  induction bank with
  | nil => simp
  | cons e es ih =>
    rw [List.map_cons, List.nodup_cons] at hnd
    by_cases he : e.1 = X
    · have hall : es.filter (fun e => e.1 != X) = es := by
        rw [List.filter_eq_self]
        intro a ha
        have : a.1 ≠ X := by
          intro h
          exact hnd.1 (List.mem_map.mpr ⟨a, ha, h.trans he.symm⟩)
        simpa using this
      have : (e :: es).filter (fun e => e.1 != X) = es.filter (fun e => e.1 != X) := by
        rw [List.filter_cons_of_neg (by simpa using he)]
      rw [this, hall]
      simp
    · have : (e :: es).filter (fun e => e.1 != X) = e :: es.filter (fun e => e.1 != X) := by
        rw [List.filter_cons_of_pos (by simpa using he)]
      rw [this]
      have := ih hnd.2
      simp only [List.length_cons]
      omega

/-- C7 (amended): the distractor step of `buildQuestions` returns fewer than 3
distractors for a term exactly when the bank holds fewer than 3 entries whose
term differs from it; with at least 3 such entries, and in particular for every
bank of at least 4 entries with pairwise distinct terms, it returns exactly 3. -/
theorem distractors_count (g : Rng) (bank : List Tuple) (X : String) :
    ((distractors g bank X).1.length < 3 ↔ (bank.filter (fun e => e.1 != X)).length < 3)
    ∧ (3 ≤ (bank.filter (fun e => e.1 != X)).length → (distractors g bank X).1.length = 3)
    ∧ (4 ≤ bank.length → (bank.map (fun e => e.1)).Nodup →
        (distractors g bank X).1.length = 3) := by
  have hlen := distractors_length g bank X
  refine ⟨by omega, fun h => by omega, fun h4 hnd => ?_⟩
  have := length_filter_ne_of_nodup bank X hnd
  omega

/-- C7 fails on `bankVC`: the bank holds 4 entries, two of them with the term
"Venture capital", and a question on that term gets 2 distractors, not 3. -/
theorem distractors_count_counterexample :
    4 ≤ bankVC.length
    ∧ (distractors (Rng.ofList []) bankVC "Venture capital").1
        = ["Rewards for taking risks", "All profit-seeking activities"]
    ∧ (distractors (Rng.ofList []) bankVC "Venture capital").1.length = 2 := by
  decide

/-- The distractor facts on `sampleBank` and `sampleChapter`. -/
theorem distractor_exclusion_witness :
    sampleQuestion ∈ (buildQuestions (Rng.ofList []) sampleBank sampleBank 2).1
    ∧ sampleQuickQuestion ∈ (startQuickQuiz (Rng.ofList []) sampleChapter.terms sampleChapter).1
    ∧ (∃ (h : Rng) (es : List Tuple),
        (distractors h sampleBank sampleQuestion.term).1 = es.map (fun e => e.2.1)
        ∧ sampleQuestion.options.Perm (sampleQuestion.correctDef :: es.map (fun e => e.2.1))
        ∧ ∀ e, e ∈ es → e ∈ sampleBank ∧ e.1 ≠ sampleQuestion.term)
    ∧ (∃ (h : Rng) (es : List (String × String)),
        (qqDistractors h sampleChapter.terms sampleQuickQuestion.term).1 = es.map (fun e => e.2)
        ∧ sampleQuickQuestion.options.Perm
            (sampleQuickQuestion.correctDef :: es.map (fun e => e.2))
        ∧ ∀ e, e ∈ es → e ∈ sampleChapter.terms ∧ e.1 ≠ sampleQuickQuestion.term) :=
  ⟨by decide, by decide,
    distractor_exclusion.1 (Rng.ofList []) sampleBank sampleBank 2 sampleQuestion (by decide),
    distractor_exclusion.2 (Rng.ofList []) sampleChapter.terms sampleChapter sampleQuickQuestion
      (by decide)⟩

/-- On `sampleBank` (4 entries, distinct terms) every term gets 3 distractors. -/
theorem distractors_count_witness :
    4 ≤ sampleBank.length ∧ (sampleBank.map (fun e => e.1)).Nodup
    ∧ (distractors (Rng.ofList [1, 0]) sampleBank "Profits").1.length = 3 :=
  ⟨by decide, by decide,
    (distractors_count (Rng.ofList [1, 0]) sampleBank "Profits").2.2 (by decide) (by decide)⟩

/-! ## `buildExam` -/

theorem roundPct_roundsNear : RoundsNear roundPct := by
  intro len total ht _
  refine ⟨100 * (len : ℚ) / total, by simp, ?_⟩
  have htq : (0 : ℚ) < total := by exact_mod_cast ht
  have h1 : 100 * (len : ℚ) / total + 1 / 2 = ((200 * len + total : ℕ) : ℚ) / ((2 * total : ℕ) : ℚ) := by
    push_cast
    field_simp
    ring
  rw [h1, Rat.floor_natCast_div_natCast]
  simp [roundPct]

/-- The value of a rounding near the exact quotient, when the quotient is at
least a thousandth away from the next half-integers. -/
theorem roundsNear_val (rnd : Nat → Nat → Nat) (hr : RoundsNear rnd) (len total k : Nat)
    (ht : 0 < total) (hle : len ≤ total)
    (hlo : (k : ℚ) - 1 / 2 + 1 / 1000 ≤ 100 * (len : ℚ) / total)
    (hhi : 100 * (len : ℚ) / total < (k : ℚ) + 1 / 2 - 1 / 1000) : rnd len total = k := by
  obtain ⟨x, hx, hfl⟩ := hr len total ht hle
  obtain ⟨hx1, hx2⟩ := abs_le.mp hx
  have : ⌊x + 1 / 2⌋ = (k : ℤ) := by
    rw [Int.floor_eq_iff]
    constructor
    · push_cast; linarith
    · push_cast; linarith
  rw [this] at hfl
  exact_mod_cast hfl

theorem rawCounts_eq (rnd : Nat → Nat → Nat) (chs : List Chapter) :
    rawCounts rnd chs = (chs.map (fun c => c.terms.length)).map
      (fun len => max (rnd len (flattenTerms chs).length) (min 8 len)) := by
  simp [rawCounts, List.map_map, Function.comp_def]

theorem rawCounts_chapters (rnd : Nat → Nat → Nat) (hr : RoundsNear rnd) :
    rawCounts rnd chapters = [9, 13, 14, 9, 13, 12, 16, 15] := by
  rw [rawCounts_eq, chapters_lens, flattenTerms_chapters_length]
  have e11 : rnd 11 129 = 9 := roundsNear_val rnd hr 11 129 9 (by norm_num) (by norm_num)
    (by norm_num) (by norm_num)
  have e17 : rnd 17 129 = 13 := roundsNear_val rnd hr 17 129 13 (by norm_num) (by norm_num)
    (by norm_num) (by norm_num)
  have e18 : rnd 18 129 = 14 := roundsNear_val rnd hr 18 129 14 (by norm_num) (by norm_num)
    (by norm_num) (by norm_num)
  have e12 : rnd 12 129 = 9 := roundsNear_val rnd hr 12 129 9 (by norm_num) (by norm_num)
    (by norm_num) (by norm_num)
  have e15 : rnd 15 129 = 12 := roundsNear_val rnd hr 15 129 12 (by norm_num) (by norm_num)
    (by norm_num) (by norm_num)
  have e20 : rnd 20 129 = 16 := roundsNear_val rnd hr 20 129 16 (by norm_num) (by norm_num)
    (by norm_num) (by norm_num)
  have e19 : rnd 19 129 = 15 := roundsNear_val rnd hr 19 129 15 (by norm_num) (by norm_num)
    (by norm_num) (by norm_num)
  simp only [List.map_cons, List.map_nil, e11, e17, e18, e12, e15, e20, e19]
  decide

theorem allocate_chapters (rnd : Nat → Nat → Nat) (hr : RoundsNear rnd) :
    allocate rnd chapters = [8, 13, 14, 9, 13, 12, 16, 15] := by
  unfold allocate
  simp only [rawCounts_chapters rnd hr]
  have hsum : [9, 13, 14, 9, 13, 12, 16, 15].sum = 101 := by decide
  rw [hsum]
  have hup : topUp [9, 13, 14, 9, 13, 12, 16, 15] 101 0 = ([9, 13, 14, 9, 13, 12, 16, 15], 101, 0) := by
    rw [topUp, if_neg (by decide)]
  rw [hup]
  dsimp only
  have hfind : findIndex (aboveFloor chapters) [9, 13, 14, 9, 13, 12, 16, 15] = some 0 := by
    decide
  have h1 : trim chapters [9, 13, 14, 9, 13, 12, 16, 15] 101
      = trim chapters [8, 13, 14, 9, 13, 12, 16, 15] 100 := by
    rw [trim, if_pos (by decide), hfind]
    rfl
  have h2 : trim chapters [8, 13, 14, 9, 13, 12, 16, 15] 100
      = ([8, 13, 14, 9, 13, 12, 16, 15], 100) := by
    rw [trim, if_neg (by decide)]
  rw [h1, h2]

theorem buildSection_size (flat : List Tuple) (counts : List Nat) (h : Rng) (x : Nat × Chapter) :
    (buildSection flat counts h x).1.questions.length = min (counts.getD x.1 0) x.2.terms.length := by
  unfold buildSection
  simp only
  rw [buildQuestions_length, List.length_map]

/-- The section sizes of `buildExam`: section `ci` holds
`min(counts[ci], terms.length)` questions. -/
theorem buildExam_sizes (rnd : Nat → Nat → Nat) (g : Rng) (chs : List Chapter) :
    (buildExam rnd g chs).1.map (fun s => s.questions.length)
      = chs.enum.map (fun x => min ((allocate rnd chs).getD x.1 0) x.2.terms.length) := by
  unfold buildExam
  exact mapRng_map_eq (buildSection (flattenTerms chs) (allocate rnd chs))
    (fun s => s.questions.length)
    (fun x => min ((allocate rnd chs).getD x.1 0) x.2.terms.length)
    (fun h x => buildSection_size _ _ h x) g chs.enum

/-- C3 fails on a single chapter of five terms: its raw count is
`max(round(5 / 5 * 100), min(8, 5)) = 100`, the sum is already `100`, neither
loop runs, and the chapter is allocated `100 > 5` questions. -/
theorem allocate_le_terms_counterexample :
    allocate roundPct [fiveTermChapter] = [100] ∧ fiveTermChapter.terms.length = 5
      ∧ ¬ List.Forall₂ (fun ch c => c ≤ ch.terms.length) [fiveTermChapter]
          (allocate roundPct [fiveTermChapter]) := by
  have h : allocate roundPct [fiveTermChapter] = [100] := by
    simp [allocate, rawCounts, flattenTerms, fiveTermChapter, roundPct, topUp, trim, TARGET]
  refine ⟨h, rfl, ?_⟩
  rw [h]
  intro hall
  cases hall with
  | cons h1 _ => exact absurd h1 (by decide)

/-- C3 (amended): for every list of chapters `buildExam` returns one section
per chapter, and the number of questions it builds for a chapter never exceeds
that chapter's number of terms; when the chapters hold at least one term it is
`min(count_i, termCount_i)`, the allocated count cut down by `buildQuestions`. -/
theorem buildExam_questions_le_terms (rnd : Nat → Nat → Nat) (g : Rng) (chs : List Chapter) :
    (buildExam rnd g chs).1.length = chs.length
    ∧ List.Forall₂ (fun (x : Nat × Chapter) (s : ExamSection) =>
        s.questions.length ≤ x.2.terms.length
        ∧ (0 < (flattenTerms chs).length →
            s.questions.length = min ((allocate rnd chs).getD x.1 0) x.2.terms.length))
      chs.enum (buildExam rnd g chs).1 := by
  constructor
  · unfold buildExam
    rw [mapRng_length, List.enum_length]
  · unfold buildExam
    refine (mapRng_forall₂ _ g chs.enum).imp ?_
    rintro x s ⟨h, rfl⟩
    rw [buildSection_size]
    exact ⟨Nat.min_le_right _ _, fun _ => rfl⟩

/-- C4: on the shipped `chapters` (8 chapters with 11, 17, 18, 12, 17, 15, 20
and 19 terms), for every state of the random source and every rounding within
a thousandth of the exact quotient (IEEE doubles and exact arithmetic alike),
the allocator yields 8, 13, 14, 9, 13, 12, 16 and 15, `buildExam` returns 8
sections holding that many questions, 100 in total, and no section is asked
for more questions than its chapter has terms. -/
theorem buildExam_shipped (rnd : Nat → Nat → Nat) (hr : RoundsNear rnd) (g : Rng) :
    chapters.map (fun c => c.terms.length) = [11, 17, 18, 12, 17, 15, 20, 19]
    ∧ allocate rnd chapters = [8, 13, 14, 9, 13, 12, 16, 15]
    ∧ (buildExam rnd g chapters).1.length = 8
    ∧ (buildExam rnd g chapters).1.map (fun s => s.questions.length)
        = [8, 13, 14, 9, 13, 12, 16, 15]
    ∧ ((buildExam rnd g chapters).1.map (fun s => s.questions.length)).sum = 100
    ∧ List.Forall₂ (fun ch c => c ≤ ch.terms.length) chapters (allocate rnd chapters) := by
  have hsizes : (buildExam rnd g chapters).1.map (fun s => s.questions.length)
      = [8, 13, 14, 9, 13, 12, 16, 15] := by
    rw [buildExam_sizes, allocate_chapters rnd hr]
    decide
  refine ⟨chapters_lens, allocate_chapters rnd hr, ?_, hsizes, ?_, ?_⟩
  · have := congrArg List.length hsizes
    simpa using this
  · rw [hsizes]; rfl
  · rw [allocate_chapters rnd hr]
    decide

/-- The exact rounding is near, and gives the shipped exam its section sizes. -/
theorem buildExam_shipped_witness :
    RoundsNear roundPct
    ∧ (buildExam roundPct (Rng.ofList [3, 1, 4, 1, 5]) chapters).1.map
        (fun s => s.questions.length) = [8, 13, 14, 9, 13, 12, 16, 15] :=
  ⟨roundPct_roundsNear,
    (buildExam_shipped roundPct roundPct_roundsNear (Rng.ofList [3, 1, 4, 1, 5])).2.2.2.1⟩

/-! ## `startQuickQuiz`: number of questions -/

theorem quickQuestion_pair (bank : List (String × String)) (g : Rng) (p : String × String) :
    (quickQuestion bank g p).1.pair = p := rfl

theorem startQuickQuiz_pairs (g : Rng) (bank : List (String × String)) (ch : Chapter) :
    (startQuickQuiz g bank ch).1.map QuickQuestion.pair
      = (shuffle g ch.terms).1.take (min ch.terms.length 10) := by
  unfold startQuickQuiz
  simp only
  rw [mapRng_map_eq (quickQuestion bank) QuickQuestion.pair id
    (fun h x => quickQuestion_pair bank h x)]
  simp

theorem startQuickQuiz_length (g : Rng) (bank : List (String × String)) (ch : Chapter) :
    (startQuickQuiz g bank ch).1.length = min ch.terms.length 10 := by
  have := congrArg List.length (startQuickQuiz_pairs g bank ch)
  simp only [List.length_map, List.length_take, (shuffle_perm g ch.terms).length_eq] at this
  omega

theorem chapters_terms_ge (ch : Chapter) (hch : ch ∈ chapters) : 11 ≤ ch.terms.length := by
  have h : ch.terms.length ∈ chapters.map (fun c => c.terms.length) :=
    List.mem_map.mpr ⟨ch, hch, rfl⟩
  rw [chapters_lens] at h
  have hall : ∀ n, n ∈ [11, 17, 18, 12, 17, 15, 20, 19] → 11 ≤ n := by decide
  exact hall _ h

set_option maxRecDepth 100000 in
theorem chapters_terms_nodup : ∀ ch, ch ∈ chapters → (ch.terms.map (fun p => p.1)).Nodup := by
  decide

/-- C11: `startQuickQuiz` builds exactly `min(termCount, 10)` questions for the
chapter; their `(term, correctDef)` pairs are the first entries of the
permutation `shuffle(ch.terms)` of the chapter's term list, so every question
is an entry of that list, no entry is asked more often than it occurs there,
and the questions are pairwise different when the entries are.  A chapter of
exactly 10 terms gets 10 questions, and so does each of the 8 shipped chapters
(each has at least 11 terms), with pairwise different terms. -/
theorem startQuickQuiz_count (g : Rng) (bank : List (String × String)) (ch : Chapter) :
    (startQuickQuiz g bank ch).1.length = min ch.terms.length 10
    ∧ (startQuickQuiz g bank ch).1.map QuickQuestion.pair
        = (shuffle g ch.terms).1.take (min ch.terms.length 10)
    ∧ (shuffle g ch.terms).1.Perm ch.terms
    ∧ (∀ q, q ∈ (startQuickQuiz g bank ch).1 → (q.term, q.correctDef) ∈ ch.terms)
    ∧ (∀ e : String × String,
        ((startQuickQuiz g bank ch).1.map QuickQuestion.pair).countP (fun x => x = e)
          ≤ ch.terms.countP (fun x => x = e))
    ∧ (ch.terms.Nodup → ((startQuickQuiz g bank ch).1.map QuickQuestion.pair).Nodup)
    ∧ (ch.terms.length = 10 → (startQuickQuiz g bank ch).1.length = 10)
    ∧ (ch ∈ chapters → (startQuickQuiz g bank ch).1.length = 10
        ∧ ((startQuickQuiz g bank ch).1.map (fun q => q.term)).Nodup) := by
  refine ⟨startQuickQuiz_length g bank ch, startQuickQuiz_pairs g bank ch,
    shuffle_perm g ch.terms, ?_, ?_, ?_, ?_, ?_⟩
  · intro q hq
    exact (startQuickQuiz_mem g bank ch q hq).1
  · intro e
    rw [startQuickQuiz_pairs]
    exact le_trans ((List.take_sublist _ _).countP_le _)
      (le_of_eq ((shuffle_perm g ch.terms).countP_eq _))
  · intro hnd
    rw [startQuickQuiz_pairs]
    exact ((shuffle_perm g ch.terms).nodup_iff.mpr hnd).sublist (List.take_sublist _ _)
  · intro h
    rw [startQuickQuiz_length, h]
    rfl
  · intro hch
    have := chapters_terms_ge ch hch
    refine ⟨by rw [startQuickQuiz_length]; omega, ?_⟩
    have hmap : (startQuickQuiz g bank ch).1.map (fun q => q.term)
        = ((startQuickQuiz g bank ch).1.map QuickQuestion.pair).map (fun p => p.1) := by
      rw [List.map_map]; rfl
    rw [hmap, startQuickQuiz_pairs]
    exact (((shuffle_perm g ch.terms).map _).nodup_iff.mpr
      (chapters_terms_nodup ch hch)).sublist ((List.take_sublist _ _).map _)

/-! ## Quick-quiz session -/

theorem handleQqAnswer_fresh (s : QuizState) (opt : String) (qs : List QuickQuestion)
    (q : QuickQuestion) (hsel : s.qqSelected = none) (hqs : s.quickQuiz = some qs)
    (hq : qs[s.qqIdx]? = some q) :
    handleQqAnswer s opt = some { s with
      qqSelected := some opt
      qqAnswers := s.qqAnswers ++
        [{ correct := opt == q.correctDef, term := q.term, correctDef := q.correctDef,
           chosen := opt }] } := by
  unfold handleQqAnswer
  rw [if_neg (by simp [hsel])]
  simp only [hqs, hq]

/-- C12: quick-quiz answers are write-once.  In every state whose current
question already has a selection (`qqSelected` is not `null`),
`handleQqAnswer(opt2)` returns the state as it is, so `qqSelected`,
`qqAnswers`, `qqIdx` and `qqDone` are unchanged; and when that state came from
a first `handleQqAnswer(opt1)`, the log holds one record more than before the
first answer and the second answer neither adds a record nor changes the
selection `opt1`. -/
theorem handleQqAnswer_write_once (s : QuizState) (opt2 : String)
    (hsel : s.qqSelected ≠ none) :
    handleQqAnswer s opt2 = some s
    ∧ (∀ t, handleQqAnswer s opt2 = some t →
        t.qqSelected = s.qqSelected ∧ t.qqAnswers = s.qqAnswers ∧ t.qqIdx = s.qqIdx
          ∧ t.qqDone = s.qqDone)
    ∧ (∀ (s0 : QuizState) (opt1 : String), s0.qqSelected = none →
        handleQqAnswer s0 opt1 = some s →
        s.qqSelected = some opt1
        ∧ s.qqAnswers.length = s0.qqAnswers.length + 1
        ∧ (∀ t, handleQqAnswer s opt2 = some t → t.qqAnswers = s.qqAnswers
            ∧ t.qqSelected = some opt1)) := by
  have h1 : handleQqAnswer s opt2 = some s := by
    unfold handleQqAnswer
    rw [if_pos hsel]
  refine ⟨h1, ?_, ?_⟩
  · intro t ht
    rw [h1] at ht
    cases ht
    exact ⟨rfl, rfl, rfl, rfl⟩
  · intro s0 opt1 hs0 hstep
    unfold handleQqAnswer at hstep
    rw [if_neg (by simp [hs0])] at hstep
    cases hqs : s0.quickQuiz with
    | none => simp [hqs] at hstep
    | some qs =>
      cases hq : qs[s0.qqIdx]? with
      | none => simp [hqs, hq] at hstep
      | some q =>
        simp only [hqs, hq, Option.some.injEq] at hstep
        subst hstep
        refine ⟨rfl, by simp, ?_⟩
        intro t ht
        rw [h1] at ht
        cases ht
        exact ⟨rfl, rfl⟩

/-- Answering `sampleFresh` gives `sampleAnswered`; a second answer changes
nothing. -/
theorem handleQqAnswer_write_once_witness :
    sampleAnswered.qqSelected ≠ none
    ∧ handleQqAnswer sampleFresh "All profit-seeking activities" = some sampleAnswered
    ∧ handleQqAnswer sampleAnswered "Rewards for taking risks" = some sampleAnswered :=
  ⟨by decide, by decide,
    (handleQqAnswer_write_once sampleAnswered "Rewards for taking risks" (by decide)).1⟩

/-- C13: the Next button of the quick quiz is rendered only once the current
question has a selection; `nextQq` at question index `i` of an `n`-question
quiz moves to index `i + 1` with the selection cleared when `i + 1 < n`, and
otherwise sets `qqDone` and leaves the index (and the selection) alone; the
answer log and the question list are unchanged in both cases. -/
theorem nextQq_advance (s : QuizState) (qs : List QuickQuestion)
    (hqs : s.quickQuiz = some qs) :
    (nextShown s = true → s.qqSelected ≠ none)
    ∧ (s.qqSelected = none → nextShown s = false)
    ∧ (s.qqIdx + 1 < qs.length →
        nextQq s = some { s with qqIdx := s.qqIdx + 1, qqSelected := none })
    ∧ (¬ s.qqIdx + 1 < qs.length → nextQq s = some { s with qqDone := true })
    ∧ (∀ t, nextQq s = some t →
        t.qqAnswers = s.qqAnswers ∧ t.quickQuiz = s.quickQuiz
        ∧ (s.qqIdx + 1 < qs.length →
            t.qqIdx = s.qqIdx + 1 ∧ t.qqSelected = none ∧ t.qqDone = s.qqDone)
        ∧ (¬ s.qqIdx + 1 < qs.length →
            t.qqIdx = s.qqIdx ∧ t.qqDone = true ∧ t.qqSelected = s.qqSelected)) := by
  have hlt : s.qqIdx + 1 < qs.length →
      nextQq s = some { s with qqIdx := s.qqIdx + 1, qqSelected := none } := by
    intro h
    unfold nextQq
    simp only [hqs]
    rw [if_neg (by omega)]
  have hge : ¬ s.qqIdx + 1 < qs.length → nextQq s = some { s with qqDone := true } := by
    intro h
    unfold nextQq
    simp only [hqs]
    rw [if_pos (by omega)]
  refine ⟨?_, ?_, hlt, hge, ?_⟩
  · intro h hnone
    simp [nextShown, hnone] at h
  · intro hnone
    simp [nextShown, hnone]
  · intro t ht
    by_cases h : s.qqIdx + 1 < qs.length
    · rw [hlt h] at ht
      cases ht
      exact ⟨rfl, rfl, fun _ => ⟨rfl, rfl, rfl⟩, fun h2 => absurd h h2⟩
    · rw [hge h] at ht
      cases ht
      exact ⟨rfl, rfl, fun h2 => absurd h2 h, fun _ => ⟨rfl, rfl, rfl⟩⟩

/-- Next on the first of two questions moves on; Next on the only question
ends the quiz. -/
theorem nextQq_advance_witness :
    sampleTwo.quickQuiz = some [sampleQuickQuestion, sampleQuickQuestion]
    ∧ nextShown sampleTwo = true
    ∧ nextQq sampleTwo = some { sampleTwo with qqIdx := 1, qqSelected := none }
    ∧ nextQq sampleAnswered = some { sampleAnswered with qqDone := true } :=
  ⟨rfl, by decide,
    (nextQq_advance sampleTwo [sampleQuickQuestion, sampleQuickQuestion] rfl).2.2.1 (by decide),
    (nextQq_advance sampleAnswered [sampleQuickQuestion] rfl).2.2.2.1 (by decide)⟩

/-! ## Exam session -/

theorem digitChar_spec (k : Nat) (hk : k < 10) :
    Nat.digitChar k ≠ '-' ∧ digitVal (Nat.digitChar k) = k := by
  interval_cases k <;> decide

theorem digitsVal_append_singleton (l : List Char) (c : Char) :
    digitsVal (l ++ [c]) = 10 * digitsVal l + digitVal c := by
  simp [digitsVal, List.foldl_append]

/-- The digits that `Nat.toDigitsCore` puts in front of `ds` hold no hyphen
and have the value `n`. -/
theorem toDigitsCore_spec (fuel n : Nat) (ds : List Char) (hf : n < fuel) :
    ∃ pre : List Char, Nat.toDigitsCore 10 fuel n ds = pre ++ ds
      ∧ (∀ c, c ∈ pre → c ≠ '-') ∧ digitsVal pre = n := by
  induction fuel generalizing n ds with
  | zero => omega
  | succ fuel ih =>
    obtain ⟨hd1, hd2⟩ := digitChar_spec (n % 10) (Nat.mod_lt _ (by decide))
    rw [Nat.toDigitsCore]
    by_cases h0 : n / 10 = 0
    · simp only [h0, if_true]
      refine ⟨[Nat.digitChar (n % 10)], rfl, ?_, ?_⟩
      · intro c hc
        rw [List.mem_singleton] at hc
        rw [hc]; exact hd1
      · have : digitsVal [Nat.digitChar (n % 10)] = digitVal (Nat.digitChar (n % 10)) := by
          simp [digitsVal]
        rw [this, hd2]
        omega
    · simp only [h0, if_false]
      obtain ⟨pre, hpre, hno, hval⟩ := ih (n / 10) (Nat.digitChar (n % 10) :: ds) (by omega)
      refine ⟨pre ++ [Nat.digitChar (n % 10)], ?_, ?_, ?_⟩
      · rw [hpre]; simp
      · intro c hc
        rcases List.mem_append.mp hc with h | h
        · exact hno c h
        · rw [List.mem_singleton] at h
          rw [h]; exact hd1
      · rw [digitsVal_append_singleton, hval, hd2]
        omega

theorem toString_nat_data (n : Nat) :
    (toString n).data = Nat.toDigits 10 n := rfl

theorem toDigits_spec (n : Nat) :
    (∀ c, c ∈ Nat.toDigits 10 n → c ≠ '-') ∧ digitsVal (Nat.toDigits 10 n) = n := by
  obtain ⟨pre, hpre, hno, hval⟩ := toDigitsCore_spec (n + 1) n [] (by omega)
  unfold Nat.toDigits
  rw [hpre, List.append_nil]
  exact ⟨hno, hval⟩

theorem examKey_data (si qi : Nat) :
    (examKey si qi).data = Nat.toDigits 10 si ++ '-' :: Nat.toDigits 10 qi := by
  simp [examKey, String.data_append, toString_nat_data]

/-- The answer key determines the section index and the question index. -/
theorem examKey_injective (si qi sj qj : Nat) (h : examKey si qi = examKey sj qj) :
    si = sj ∧ qi = qj := by
  have hd := congrArg String.data h
  rw [examKey_data, examKey_data] at hd
  obtain ⟨h1, _, h2⟩ := (List.append_cons_inj_of_not_mem
    (fun hm => (toDigits_spec si).1 _ hm rfl) (fun hm => (toDigits_spec qi).1 _ hm rfl)).mp hd
  constructor
  · rw [← (toDigits_spec si).2, ← (toDigits_spec sj).2, h1]
  · rw [← (toDigits_spec qi).2, ← (toDigits_spec qj).2, h2]

theorem getProp_setProp_same (o : JsObject) (k v : String) :
    getProp (setProp o k v) k = some v := by
  induction o with
  | nil => simp [setProp, getProp]
  | cons p rest ih =>
    obtain ⟨k1, v1⟩ := p
    by_cases h : k1 = k
    · simp [setProp, getProp, h]
    · simp [setProp, getProp, h, ih]

theorem getProp_setProp_ne (o : JsObject) (k v k2 : String) (hne : k2 ≠ k) :
    getProp (setProp o k v) k2 = getProp o k2 := by
  induction o with
  | nil => simp [setProp, getProp, Ne.symm hne]
  | cons p rest ih =>
    obtain ⟨k1, v1⟩ := p
    by_cases h : k1 = k
    · subst h
      simp [setProp, getProp, Ne.symm hne]
    · by_cases h2 : k1 = k2
      · subst h2
        simp [setProp, getProp, h]
      · simp [setProp, getProp, h, h2, ih]

theorem objectKeys_setProp (o : JsObject) (k v : String) :
    objectKeys (setProp o k v)
      = if k ∈ objectKeys o then objectKeys o else objectKeys o ++ [k] := by
  induction o with
  | nil => simp [setProp, objectKeys]
  | cons p rest ih =>
    obtain ⟨k1, v1⟩ := p
    by_cases h : k1 = k
    · subst h
      simp [setProp, objectKeys]
    · have hmem : (k ∈ objectKeys ((k1, v1) :: rest)) ↔ k ∈ objectKeys rest := by
        simp [objectKeys, Ne.symm h]
      have e : setProp ((k1, v1) :: rest) k v = (k1, v1) :: setProp rest k v := by
        simp [setProp, h]
      rw [e]
      have e2 : objectKeys ((k1, v1) :: setProp rest k v) = k1 :: objectKeys (setProp rest k v) :=
        rfl
      rw [e2, ih]
      by_cases hm : k ∈ objectKeys rest
      · rw [if_pos hm, if_pos (hmem.mpr hm)]; rfl
      · rw [if_neg hm, if_neg (fun h2 => hm (hmem.mp h2))]; rfl

theorem getProp_ne_none_iff (o : JsObject) (k : String) :
    getProp o k ≠ none ↔ k ∈ objectKeys o := by
  induction o with
  | nil => simp [getProp, objectKeys]
  | cons p rest ih =>
    obtain ⟨k1, v1⟩ := p
    by_cases h : k1 = k
    · simp [getProp, objectKeys, h]
    · have : (k ∈ objectKeys ((k1, v1) :: rest)) ↔ k ∈ objectKeys rest := by
        simp [objectKeys, Ne.symm h]
      rw [this, ← ih]
      simp [getProp, h]

theorem objectKeys_setProp_nodup (o : JsObject) (k v : String) (h : (objectKeys o).Nodup) :
    (objectKeys (setProp o k v)).Nodup := by
  rw [objectKeys_setProp]
  split
  · exact h
  · rename_i hk
    exact List.nodup_append.mpr ⟨h, List.nodup_singleton k, by
      simpa [List.disjoint_left] using hk⟩

/-- C14: before submission exam answers are mutable.  For every state with
`examSubmitted` false, every question `(si, qi)` and options `a`, `b`,
`setExamAnswer(si, qi, a)` records `a`, a following `setExamAnswer(si, qi, b)`
leaves `b` as the recorded answer, and the second call does not change the
number of answered questions. -/
theorem setExamAnswer_overwrite (s : ExamState) (si qi : Nat) (a b : String)
    (hs : s.examSubmitted = false) :
    getProp (setExamAnswer s si qi a).examAnswers (examKey si qi) = some a
    ∧ getProp (setExamAnswer (setExamAnswer s si qi a) si qi b).examAnswers (examKey si qi)
        = some b
    ∧ answeredCount (setExamAnswer (setExamAnswer s si qi a) si qi b)
        = answeredCount (setExamAnswer s si qi a) := by
  have e1 : setExamAnswer s si qi a
      = { s with examAnswers := setProp s.examAnswers (examKey si qi) a } := by
    simp [setExamAnswer, hs]
  have e2 : setExamAnswer (setExamAnswer s si qi a) si qi b
      = { s with examAnswers :=
            setProp (setProp s.examAnswers (examKey si qi) a) (examKey si qi) b } := by
    rw [e1]
    simp [setExamAnswer, hs]
  rw [e2, e1]
  refine ⟨getProp_setProp_same _ _ _, getProp_setProp_same _ _ _, ?_⟩
  simp only [answeredCount]
  rw [objectKeys_setProp _ _ b, if_pos]
  rw [← getProp_ne_none_iff, getProp_setProp_same]
  simp

/-- C15: after submission exam answers are locked.  In every state with
`examSubmitted` true, `setExamAnswer(si, qi, opt)` returns the state as it is
(answers, sections and flag), so `examResults` is unchanged; and `submitExam`
always yields such a state. -/
theorem setExamAnswer_locked (rnd : Nat → Nat → Nat) (s : ExamState) (si qi : Nat)
    (opt : String) (hs : s.examSubmitted = true) :
    setExamAnswer s si qi opt = s
    ∧ (setExamAnswer s si qi opt).examAnswers = s.examAnswers
    ∧ (setExamAnswer s si qi opt).examSections = s.examSections
    ∧ (setExamAnswer s si qi opt).examSubmitted = true
    ∧ examResults rnd (setExamAnswer s si qi opt) = examResults rnd s
    ∧ (∀ s0 : ExamState, (submitExam s0).examSubmitted = true
        ∧ setExamAnswer (submitExam s0) si qi opt = submitExam s0) := by
  have e : setExamAnswer s si qi opt = s := by
    simp [setExamAnswer, hs]
  refine ⟨e, by rw [e], by rw [e], by rw [e, hs], by rw [e], ?_⟩
  intro s0
  exact ⟨rfl, by simp [setExamAnswer, submitExam]⟩

theorem mem_validKeys (secs : List ExamSection) (k : String) :
    k ∈ validKeys secs ↔
      ∃ si sec qi, secs[si]? = some sec ∧ qi < sec.questions.length ∧ k = examKey si qi := by
  simp only [validKeys, keyedQuestions, List.mem_map, List.mem_flatMap]
  constructor
  · rintro ⟨p, ⟨x, hx, y, hy, rfl⟩, rfl⟩
    rw [List.mem_enum_iff_getElem?] at hx hy
    exact ⟨x.1, x.2, y.1, hx, (List.getElem?_eq_some_iff.mp hy).1, rfl⟩
  · rintro ⟨si, sec, qi, hsec, hqi, rfl⟩
    refine ⟨(examKey si qi, sec.questions[qi]), ⟨(si, sec), ?_, (qi, sec.questions[qi]), ?_, rfl⟩,
      rfl⟩
    · exact List.mem_enum_iff_getElem?.mpr hsec
    · exact List.mem_enum_iff_getElem?.mpr (List.getElem?_eq_getElem hqi)

theorem validKeys_eq (secs : List ExamSection) :
    validKeys secs = secs.enum.flatMap (fun x =>
      x.2.questions.enum.map (fun y => examKey x.1 y.1)) := by
  simp [validKeys, keyedQuestions, List.map_flatMap, List.map_map, Function.comp_def]

theorem validKeys_nodup (secs : List ExamSection) : (validKeys secs).Nodup := by
  rw [validKeys_eq, List.nodup_flatMap]
  constructor
  · intro x _
    rw [List.Nodup, List.pairwise_iff_getElem]
    intro i j hi hj hij
    simp only [List.getElem_map, List.getElem_enum]
    intro h
    have := (examKey_injective _ _ _ _ h).2
    omega
  · rw [List.pairwise_iff_getElem]
    intro i j hi hj hij
    simp only [Function.onFun, List.getElem_enum, List.disjoint_left, List.mem_map]
    rintro k ⟨y, _, rfl⟩ ⟨y2, _, h⟩
    have := (examKey_injective _ _ _ _ h).1
    omega

theorem foldl_add_eq_sum {α : Type} (f : α → Nat) (l : List α) (init : Nat) :
    l.foldl (fun a x => a + f x) init = init + (l.map f).sum := by
  induction l generalizing init with
  | nil => simp
  | cons x xs ih =>
    simp only [List.foldl_cons, List.map_cons, List.sum_cons]
    rw [ih]
    omega

theorem length_keyedQuestions (secs : List ExamSection) :
    (keyedQuestions secs).length = secs.foldl (fun a sec => a + sec.questions.length) 0 := by
  rw [foldl_add_eq_sum, keyedQuestions, List.length_flatMap]
  have : (List.map (List.length ∘ fun (x : Nat × ExamSection) =>
      x.2.questions.enum.map (fun y => (examKey x.1 y.1, y.2))) secs.enum)
      = (secs.enum.map Prod.snd).map (fun sec => sec.questions.length) := by
    rw [List.map_map]
    apply List.map_congr_left
    intro x _
    simp
  rw [this, List.enum_map_snd]
  omega

theorem length_validKeys (secs : List ExamSection) :
    (validKeys secs).length = secs.foldl (fun a sec => a + sec.questions.length) 0 := by
  rw [validKeys, List.length_map, length_keyedQuestions]

/-- What a run of `setExamAnswer` calls on existing questions keeps: the
sections, the open submission flag, and an answer object whose keys are
pairwise different keys of existing questions. -/
theorem answerAll_invariant (secs : List ExamSection) (calls : List (Nat × Nat × String))
    (s : ExamState) (hsec : s.examSections = some secs) (hsub : s.examSubmitted = false)
    (hnd : (objectKeys s.examAnswers).Nodup)
    (hsubset : ∀ k, k ∈ objectKeys s.examAnswers → k ∈ validKeys secs)
    (hv : ValidCalls secs calls) :
    (answerAll s calls).examSections = some secs
    ∧ (answerAll s calls).examSubmitted = false
    ∧ (objectKeys (answerAll s calls).examAnswers).Nodup
    ∧ ∀ k, k ∈ objectKeys (answerAll s calls).examAnswers → k ∈ validKeys secs := by
  induction calls generalizing s with
  | nil => exact ⟨hsec, hsub, hnd, hsubset⟩
  | cons c cs ih =>
    have e : setExamAnswer s c.1 c.2.1 c.2.2
        = { s with examAnswers := setProp s.examAnswers (examKey c.1 c.2.1) c.2.2 } := by
      simp [setExamAnswer, hsub]
    have hstep : answerAll s (c :: cs) = answerAll (setExamAnswer s c.1 c.2.1 c.2.2) cs := rfl
    rw [hstep]
    apply ih
    · rw [e]; exact hsec
    · rw [e]; exact hsub
    · rw [e]; exact objectKeys_setProp_nodup _ _ _ hnd
    · rw [e]
      intro k hk
      simp only at hk
      rw [objectKeys_setProp] at hk
      split at hk
      · exact hsubset k hk
      · rcases List.mem_append.mp hk with h | h
        · exact hsubset k h
        · rw [List.mem_singleton] at h
          obtain ⟨sec, h1, h2⟩ := hv c (List.mem_cons_self _ _)
          exact (mem_validKeys secs k).mpr ⟨c.1, sec, c.2.1, h1, h2, h⟩
    · intro c2 hc2
      exact hv c2 (List.mem_cons_of_mem _ hc2)

theorem canSubmit_iff_of_invariant (secs : List ExamSection) (s : ExamState)
    (hsec : s.examSections = some secs) (hnd : (objectKeys s.examAnswers).Nodup)
    (hsubset : ∀ k, k ∈ objectKeys s.examAnswers → k ∈ validKeys secs) :
    canSubmit s = true ↔
      ∀ si sec qi, secs[si]? = some sec → qi < sec.questions.length →
        getProp s.examAnswers (examKey si qi) ≠ none := by
  have htotal : totalExamQs s = (validKeys secs).length := by
    rw [length_validKeys]
    simp [totalExamQs, hsec]
  have hsp : (objectKeys s.examAnswers).Subperm (validKeys secs) :=
    List.subperm_of_subset hnd hsubset
  simp only [canSubmit, answeredCount, beq_iff_eq, htotal]
  constructor
  · intro hlen si sec qi h1 h2
    have hperm := hsp.perm_of_length_le (le_of_eq hlen.symm)
    rw [getProp_ne_none_iff]
    exact hperm.symm.subset ((mem_validKeys secs _).mpr ⟨si, sec, qi, h1, h2, rfl⟩)
  · intro hall
    have hsup : ∀ k, k ∈ validKeys secs → k ∈ objectKeys s.examAnswers := by
      intro k hk
      obtain ⟨si, sec, qi, h1, h2, rfl⟩ := (mem_validKeys secs k).mp hk
      exact (getProp_ne_none_iff _ _).mp (hall si sec qi h1 h2)
    have hsp2 : (validKeys secs).Subperm (objectKeys s.examAnswers) :=
      List.subperm_of_subset (validKeys_nodup secs) hsup
    exact Nat.le_antisymm hsp.length_le hsp2.length_le

/-- C16: in every state reached from `launchExam` by `setExamAnswer` calls on
existing questions, `canSubmit` (the number of keys of `examAnswers` equals
`totalExamQs`) is true if and only if every question of every section has a
recorded answer. -/
theorem canSubmit_iff_all_answered (rnd : Nat → Nat → Nat) (g : Rng) (chs : List Chapter)
    (calls : List (Nat × Nat × String))
    (hv : ValidCalls (buildExam rnd g chs).1 calls) :
    canSubmit (answerAll (launchExam rnd g chs).1 calls) = true ↔
      ∀ si sec qi, (buildExam rnd g chs).1[si]? = some sec → qi < sec.questions.length →
        getProp (answerAll (launchExam rnd g chs).1 calls).examAnswers (examKey si qi)
          ≠ none := by
  obtain ⟨h1, _, h3, h4⟩ := answerAll_invariant (buildExam rnd g chs).1 calls
    (launchExam rnd g chs).1 rfl rfl (by simp [launchExam, objectKeys])
    (by intro k hk; simp [launchExam, objectKeys] at hk) hv
  exact canSubmit_iff_of_invariant _ _ h1 h3 h4

/-! ## Exam results -/

theorem roundsNear_exact (rnd : Nat → Nat → Nat) (hr : RoundsNear rnd) (k : Nat)
    (hk : k ≤ 100) : rnd k 100 = k := by
  refine roundsNear_val rnd hr k 100 k (by norm_num) hk ?_ ?_
  · have : (100 : ℚ) * (k : ℚ) / ((100 : ℕ) : ℚ) = k := by push_cast; ring
    rw [this]; linarith
  · have : (100 : ℚ) * (k : ℚ) / ((100 : ℕ) : ℚ) = k := by push_cast; ring
    rw [this]; linarith

theorem examResults_submitted (rnd : Nat → Nat → Nat) (s : ExamState) (secs : List ExamSection)
    (hsec : s.examSections = some secs) :
    examResults rnd (submitExam s) = some (secs.enum.map (scoreSection rnd s.examAnswers)) := by
  simp [examResults, submitExam, hsec]

theorem scoreSection_correct (rnd : Nat → Nat → Nat) (o : JsObject) (x : Nat × ExamSection) :
    (scoreSection rnd o x).correct
      = x.2.questions.enum.countP (fun y =>
          decide (getProp o (examKey x.1 y.1) = some y.2.correctDef)) := by
  simp only [scoreSection, ← List.countP_eq_length_filter, List.countP_map]
  rfl

theorem examTotalCorrect_submitted (rnd : Nat → Nat → Nat) (s : ExamState)
    (secs : List ExamSection) (hsec : s.examSections = some secs) :
    examTotalCorrect rnd (submitExam s)
      = (keyedQuestions secs).countP (fun p =>
          decide (getProp s.examAnswers p.1 = some p.2.correctDef)) := by
  unfold examTotalCorrect
  rw [examResults_submitted rnd s secs hsec]
  simp only
  rw [foldl_add_eq_sum, Nat.zero_add, List.map_map, keyedQuestions, List.countP_flatMap]
  congr 1
  apply List.map_congr_left
  intro x _
  simp only [Function.comp, scoreSection_correct, List.countP_map]
  rfl

/-- C17: `submitExam` has no guard: it sets `examSubmitted` and keeps answers
and sections, whether or not `canSubmit` holds.  In the results a question's
`chosen` is its recorded answer, it is `correct` exactly when that answer is
its `correctDef`, and so incorrect when nothing is recorded; a section's
`total` is the number of all its questions; `examTotalCorrect` is the number of
questions of all sections whose recorded answer equals their `correctDef`,
`totalExamQs` the number of all questions, and `examTotalPct` the rounding of
their quotient: 60 correct of 100 questions is 60%, whatever was left
unanswered. -/
theorem exam_scoring (rnd : Nat → Nat → Nat) (s : ExamState) (secs : List ExamSection)
    (hsec : s.examSections = some secs) :
    (submitExam s).examSubmitted = true
    ∧ (submitExam s).examAnswers = s.examAnswers
    ∧ (submitExam s).examSections = some secs
    ∧ examResults rnd (submitExam s) = some (secs.enum.map (scoreSection rnd s.examAnswers))
    ∧ (∀ (si : Nat) (y : Nat × Question),
        (scoreQuestion s.examAnswers si y).chosen = getProp s.examAnswers (examKey si y.1)
        ∧ ((scoreQuestion s.examAnswers si y).correct = true ↔
            getProp s.examAnswers (examKey si y.1) = some y.2.correctDef)
        ∧ (getProp s.examAnswers (examKey si y.1) = none →
            (scoreQuestion s.examAnswers si y).correct = false))
    ∧ (∀ x : Nat × ExamSection,
        (scoreSection rnd s.examAnswers x).total = x.2.questions.length
        ∧ (scoreSection rnd s.examAnswers x).correct ≤ x.2.questions.length
        ∧ (scoreSection rnd s.examAnswers x).pct
            = rnd (scoreSection rnd s.examAnswers x).correct x.2.questions.length)
    ∧ examTotalCorrect rnd (submitExam s)
        = (keyedQuestions secs).countP (fun p =>
            decide (getProp s.examAnswers p.1 = some p.2.correctDef))
    ∧ totalExamQs (submitExam s) = (keyedQuestions secs).length
    ∧ examTotalCorrect rnd (submitExam s) ≤ totalExamQs (submitExam s)
    ∧ examTotalPct rnd (submitExam s)
        = rnd (examTotalCorrect rnd (submitExam s)) (totalExamQs (submitExam s))
    ∧ (RoundsNear rnd → examTotalCorrect rnd (submitExam s) = 60 →
        totalExamQs (submitExam s) = 100 → examTotalPct rnd (submitExam s) = 60) := by
  have htot : totalExamQs (submitExam s) = (keyedQuestions secs).length := by
    rw [length_keyedQuestions]
    simp [totalExamQs, submitExam, hsec]
  have hcor := examTotalCorrect_submitted rnd s secs hsec
  have hpct : examTotalPct rnd (submitExam s)
      = rnd (examTotalCorrect rnd (submitExam s)) (totalExamQs (submitExam s)) := by
    unfold examTotalPct
    rw [examResults_submitted rnd s secs hsec]
  refine ⟨rfl, rfl, hsec, examResults_submitted rnd s secs hsec, ?_, ?_, hcor, htot, ?_, hpct, ?_⟩
  · intro si y
    refine ⟨rfl, by simp [scoreQuestion], ?_⟩
    intro h
    simp [scoreQuestion, h]
  · intro x
    have h1 : (scoreSection rnd s.examAnswers x).total = x.2.questions.length := by
      simp [scoreSection]
    refine ⟨h1, ?_, ?_⟩
    · rw [scoreSection_correct]
      exact le_trans (List.countP_le_length _) (by simp)
    · simp [scoreSection]
  · rw [hcor, htot]
    exact List.countP_le_length _
  · intro hr h60 h100
    rw [hpct, h60, h100]
    exact roundsNear_exact rnd hr 60 (by norm_num)

/-! ## Grades and percentages -/

theorem firstBand_nil (other : String) (pct : Nat) : firstBand [] other pct = other := rfl

theorem firstBand_cons (t : Nat) (l : String) (bs : List (Nat × String)) (other : String)
    (pct : Nat) :
    firstBand ((t, l) :: bs) other pct = if pct ≥ t then l else firstBand bs other pct := by
  unfold firstBand
  by_cases h : t ≤ pct
  · simp [List.find?, h]
  · simp [List.find?, h]

theorem examGradeLabel_eq_firstBand (pct : Nat) :
    examGradeLabel pct = firstBand examBands "F" pct := by
  unfold examGradeLabel examBands
  simp only [firstBand_cons, firstBand_nil]

theorem qqGradeLabel_eq_firstBand (pct : Nat) :
    qqGradeLabel pct = firstBand qqBands "Keep studying" pct := by
  unfold qqGradeLabel qqBands
  simp only [firstBand_cons, firstBand_nil]

/-- C18: the exam letter grade is the label of the first band, highest first,
whose threshold the integer percentage reaches (>=90 A+, >=85 A, >=80 A−,
>=77 B+, >=73 B, >=70 B−, >=67 C+, >=63 C, >=60 C−, >=50 D, otherwise F), for
every percentage; an exam of 100 questions with `correct` right answers is
graded by `correct` itself, so 72 grades B−, 90 grades A+ and 49 grades F. -/
theorem examGrade_bands :
    (∀ pct, examGradeLabel pct = firstBand examBands "F" pct)
    ∧ (∀ pct, (90 ≤ pct → examGradeLabel pct = "A+")
        ∧ (85 ≤ pct → pct < 90 → examGradeLabel pct = "A")
        ∧ (80 ≤ pct → pct < 85 → examGradeLabel pct = "A−")
        ∧ (77 ≤ pct → pct < 80 → examGradeLabel pct = "B+")
        ∧ (73 ≤ pct → pct < 77 → examGradeLabel pct = "B")
        ∧ (70 ≤ pct → pct < 73 → examGradeLabel pct = "B−")
        ∧ (67 ≤ pct → pct < 70 → examGradeLabel pct = "C+")
        ∧ (63 ≤ pct → pct < 67 → examGradeLabel pct = "C")
        ∧ (60 ≤ pct → pct < 63 → examGradeLabel pct = "C−")
        ∧ (50 ≤ pct → pct < 60 → examGradeLabel pct = "D")
        ∧ (pct < 50 → examGradeLabel pct = "F"))
    ∧ (∀ (rnd : Nat → Nat → Nat) (s : ExamState),
        examGrade rnd s = firstBand examBands "F" (examTotalPct rnd s))
    ∧ (∀ (rnd : Nat → Nat → Nat) (s : ExamState) (correct : Nat), RoundsNear rnd →
        (examResults rnd s).isSome → totalExamQs s = 100 → examTotalCorrect rnd s = correct →
        correct ≤ 100 → examGrade rnd s = examGradeLabel correct)
    ∧ examGradeLabel 72 = "B−" ∧ examGradeLabel 90 = "A+" ∧ examGradeLabel 49 = "F" := by
  refine ⟨examGradeLabel_eq_firstBand, ?_, fun rnd s => examGradeLabel_eq_firstBand _, ?_,
    by decide, by decide, by decide⟩
  · intro pct
    unfold examGradeLabel
    refine ⟨?_, ?_, ?_, ?_, ?_, ?_, ?_, ?_, ?_, ?_, ?_⟩
    · intro h
      rw [if_pos h]
    · intro h1 h2
      rw [if_neg (by omega), if_pos h1]
    · intro h1 h2
      rw [if_neg (by omega), if_neg (by omega), if_pos h1]
    · intro h1 h2
      rw [if_neg (by omega), if_neg (by omega), if_neg (by omega), if_pos h1]
    · intro h1 h2
      rw [if_neg (by omega), if_neg (by omega), if_neg (by omega), if_neg (by omega), if_pos h1]
    · intro h1 h2
      rw [if_neg (by omega), if_neg (by omega), if_neg (by omega), if_neg (by omega),
        if_neg (by omega), if_pos h1]
    · intro h1 h2
      rw [if_neg (by omega), if_neg (by omega), if_neg (by omega), if_neg (by omega),
        if_neg (by omega), if_neg (by omega), if_pos h1]
    · intro h1 h2
      rw [if_neg (by omega), if_neg (by omega), if_neg (by omega), if_neg (by omega),
        if_neg (by omega), if_neg (by omega), if_neg (by omega), if_pos h1]
    · intro h1 h2
      rw [if_neg (by omega), if_neg (by omega), if_neg (by omega), if_neg (by omega),
        if_neg (by omega), if_neg (by omega), if_neg (by omega), if_neg (by omega), if_pos h1]
    · intro h1 h2
      rw [if_neg (by omega), if_neg (by omega), if_neg (by omega), if_neg (by omega),
        if_neg (by omega), if_neg (by omega), if_neg (by omega), if_neg (by omega),
        if_neg (by omega), if_pos h1]
    · intro h
      rw [if_neg (by omega), if_neg (by omega), if_neg (by omega), if_neg (by omega),
        if_neg (by omega), if_neg (by omega), if_neg (by omega), if_neg (by omega),
        if_neg (by omega), if_neg (by omega)]
  · intro rnd s correct hr hres htot hcor hle
    unfold examGrade examTotalPct
    cases h : examResults rnd s with
    | none => rw [h] at hres; simp at hres
    | some rs =>
      simp only
      rw [hcor, htot, roundsNear_exact rnd hr correct hle]

/-- C19: the quick-quiz grade label is the label of the first band, highest
first, whose threshold the integer percentage reaches (>=90 "Excellent!",
>=75 "Good job!", >=60 "Almost there", otherwise "Keep studying"), and the
results screen applies it to the rounding of `score / quickQuiz.length * 100`,
the score being at most the number of answers. -/
theorem qqGrade_bands :
    (∀ pct, qqGradeLabel pct = firstBand qqBands "Keep studying" pct)
    ∧ (∀ pct, (90 ≤ pct → qqGradeLabel pct = "Excellent!")
        ∧ (75 ≤ pct → pct < 90 → qqGradeLabel pct = "Good job!")
        ∧ (60 ≤ pct → pct < 75 → qqGradeLabel pct = "Almost there")
        ∧ (pct < 60 → qqGradeLabel pct = "Keep studying"))
    ∧ (∀ (rnd : Nat → Nat → Nat) (s : QuizState) (qs : List QuickQuestion),
        s.quickQuiz = some qs →
        qqPct rnd s = some (rnd (qqScore s) qs.length)
        ∧ qqGrade rnd s = some (firstBand qqBands "Keep studying" (rnd (qqScore s) qs.length))
        ∧ qqScore s ≤ s.qqAnswers.length) := by
  refine ⟨qqGradeLabel_eq_firstBand, ?_, ?_⟩
  · intro pct
    unfold qqGradeLabel
    refine ⟨?_, ?_, ?_, ?_⟩
    · intro h
      rw [if_pos h]
    · intro h1 h2
      rw [if_neg (by omega), if_pos h1]
    · intro h1 h2
      rw [if_neg (by omega), if_neg (by omega), if_pos h1]
    · intro h
      rw [if_neg (by omega), if_neg (by omega), if_neg (by omega)]
  · intro rnd s qs hqs
    refine ⟨by simp [qqPct, hqs], ?_, ?_⟩
    · simp [qqGrade, qqPct, hqs, qqGradeLabel_eq_firstBand]
    · exact List.length_filter_le _ _

theorem roundPct_eq_floor (correct total : Nat) (ht : 0 < total) :
    (roundPct correct total : ℤ) = ⌊(correct : ℚ) / total * 100 + 1 / 2⌋ := by
  have htq : (0 : ℚ) < total := by exact_mod_cast ht
  have h1 : (correct : ℚ) / total * 100 + 1 / 2
      = ((200 * correct + total : ℕ) : ℚ) / ((2 * total : ℕ) : ℚ) := by
    push_cast
    field_simp
    ring
  rw [h1, Rat.floor_natCast_div_natCast]
  simp [roundPct]

/-- The exact rounding `roundPct`: for naturals `correct ≤ total` with
`total > 0` it is the floor of the exact quotient plus one half, it lies within
one half of the quotient (a tie going up), it is at most 100, and it is 100
exactly when `199 * total ≤ 200 * correct`. -/
theorem roundPct_half_up (correct total : Nat) (ht : 0 < total) (hle : correct ≤ total) :
    roundPct correct total = (200 * correct + total) / (2 * total)
    ∧ (roundPct correct total : ℤ) = ⌊(correct : ℚ) / total * 100 + 1 / 2⌋
    ∧ (correct : ℚ) / total * 100 - 1 / 2 < (roundPct correct total : ℚ)
    ∧ (roundPct correct total : ℚ) ≤ (correct : ℚ) / total * 100 + 1 / 2
    ∧ roundPct correct total ≤ 100
    ∧ (roundPct correct total = 100 ↔ 199 * total ≤ 200 * correct)
    ∧ (roundPct correct total = 100 ↔ (100 : ℚ) ≤ (correct : ℚ) / total * 100 + 1 / 2)
    ∧ (∀ (s : QuizState) (qs : List QuickQuestion), s.quickQuiz = some qs →
        qqPct roundPct s = some ((200 * qqScore s + qs.length) / (2 * qs.length)))
    ∧ (∀ (o : JsObject) (x : Nat × ExamSection),
        (scoreSection roundPct o x).pct
          = (200 * (scoreSection roundPct o x).correct + (scoreSection roundPct o x).total)
              / (2 * (scoreSection roundPct o x).total))
    ∧ (∀ s : ExamState, (examResults roundPct s).isSome →
        examTotalPct roundPct s
          = (200 * examTotalCorrect roundPct s + totalExamQs s) / (2 * totalExamQs s)) := by
  have hfloor := roundPct_eq_floor correct total ht
  have hle100 : roundPct correct total ≤ 100 := by
    unfold roundPct
    apply Nat.le_of_lt_succ
    rw [Nat.div_lt_iff_lt_mul (by omega)]
    nlinarith
  have h100 : roundPct correct total = 100 ↔ 199 * total ≤ 200 * correct := by
    constructor
    · intro h
      have h2 : 100 ≤ (200 * correct + total) / (2 * total) := by
        unfold roundPct at h; omega
      rw [Nat.le_div_iff_mul_le (by omega)] at h2
      omega
    · intro h
      have h2 : 100 ≤ roundPct correct total := by
        unfold roundPct
        rw [Nat.le_div_iff_mul_le (by omega)]
        omega
      omega
  have hlo : (correct : ℚ) / total * 100 - 1 / 2 < (roundPct correct total : ℚ) := by
    have := Int.lt_floor_add_one ((correct : ℚ) / total * 100 + 1 / 2)
    rw [← hfloor] at this
    push_cast at this
    linarith
  have hhi : (roundPct correct total : ℚ) ≤ (correct : ℚ) / total * 100 + 1 / 2 := by
    have := Int.floor_le ((correct : ℚ) / total * 100 + 1 / 2)
    rw [← hfloor] at this
    exact_mod_cast this
  refine ⟨rfl, hfloor, hlo, hhi, hle100, h100, ?_, ?_, ?_, ?_⟩
  · constructor
    · intro h
      rw [h] at hhi
      exact_mod_cast hhi
    · intro h
      have h2 : (100 : ℤ) ≤ ⌊(correct : ℚ) / total * 100 + 1 / 2⌋ := by
        rw [Int.le_floor]; exact_mod_cast h
      rw [← hfloor] at h2
      have h3 : 100 ≤ roundPct correct total := by exact_mod_cast h2
      omega
  · intro s qs hqs
    simp [qqPct, hqs, roundPct]
  · intro o x
    simp [scoreSection, roundPct]
  · intro s hs
    unfold examTotalPct
    cases h : examResults roundPct s with
    | none => rw [h] at hs; simp at hs
    | some rs => simp [roundPct]

/-! ## Instances on sample states -/

/-- Two answers to the question of `sampleOpenExam`: the second one stays. -/
theorem setExamAnswer_overwrite_witness :
    sampleOpenExam.examSubmitted = false
    ∧ getProp (setExamAnswer (setExamAnswer sampleOpenExam 0 0 "All profit-seeking activities")
        0 0 "Rewards for taking risks").examAnswers (examKey 0 0)
        = some "Rewards for taking risks"
    ∧ answeredCount (setExamAnswer (setExamAnswer sampleOpenExam 0 0
        "All profit-seeking activities") 0 0 "Rewards for taking risks") = 1 :=
  ⟨rfl,
    (setExamAnswer_overwrite sampleOpenExam 0 0 "All profit-seeking activities"
      "Rewards for taking risks" rfl).2.1,
    by decide⟩

/-- An answer after `submitExam` changes nothing. -/
theorem setExamAnswer_locked_witness :
    (submitExam sampleOpenExam).examSubmitted = true
    ∧ setExamAnswer (submitExam sampleOpenExam) 0 0 "Rewards for taking risks"
        = submitExam sampleOpenExam :=
  ⟨rfl,
    (setExamAnswer_locked roundPct (submitExam sampleOpenExam) 0 0 "Rewards for taking risks"
      rfl).1⟩

theorem buildExam_sampleChapter :
    (buildExam roundPct (Rng.ofList []) [sampleChapter]).1.map (fun s => s.questions.length)
      = [4] := by
  have h : allocate roundPct [sampleChapter] = [100] := by
    simp [allocate, rawCounts, flattenTerms, sampleChapter, roundPct, topUp, trim, TARGET]
  rw [buildExam_sizes, h]
  decide

theorem validCalls_sampleChapter :
    ValidCalls (buildExam roundPct (Rng.ofList []) [sampleChapter]).1
      [(0, 0, "Rewards for taking risks"), (0, 3, "All profit-seeking activities"),
       (0, 0, "All profit-seeking activities")] := by
  have hsz := buildExam_sampleChapter
  cases hsecs : (buildExam roundPct (Rng.ofList []) [sampleChapter]).1 with
  | nil => rw [hsecs] at hsz; simp at hsz
  | cons sec rest =>
    rw [hsecs] at hsz
    simp only [List.map_cons, List.cons.injEq] at hsz
    intro c hc
    refine ⟨sec, ?_, ?_⟩
    · simp only [List.mem_cons, List.mem_singleton, List.mem_nil_iff, or_false] at hc
      rcases hc with rfl | rfl | rfl <;> simp
    · simp only [List.mem_cons, List.mem_singleton, List.mem_nil_iff, or_false] at hc
      rw [hsz.1]
      rcases hc with rfl | rfl | rfl <;> decide

/-- Three calls on the four-question exam of `sampleChapter`. -/
theorem canSubmit_iff_all_answered_witness :
    ValidCalls (buildExam roundPct (Rng.ofList []) [sampleChapter]).1
      [(0, 0, "Rewards for taking risks"), (0, 3, "All profit-seeking activities"),
       (0, 0, "All profit-seeking activities")]
    ∧ (canSubmit (answerAll (launchExam roundPct (Rng.ofList []) [sampleChapter]).1
        [(0, 0, "Rewards for taking risks"), (0, 3, "All profit-seeking activities"),
         (0, 0, "All profit-seeking activities")]) = true ↔
      ∀ si sec qi, (buildExam roundPct (Rng.ofList []) [sampleChapter]).1[si]? = some sec →
        qi < sec.questions.length →
        getProp (answerAll (launchExam roundPct (Rng.ofList []) [sampleChapter]).1
          [(0, 0, "Rewards for taking risks"), (0, 3, "All profit-seeking activities"),
           (0, 0, "All profit-seeking activities")]).examAnswers (examKey si qi) ≠ none) :=
  ⟨validCalls_sampleChapter,
    canSubmit_iff_all_answered roundPct (Rng.ofList []) [sampleChapter] _
      validCalls_sampleChapter⟩

set_option maxRecDepth 1000000 in
set_option maxHeartbeats 4000000 in
theorem sixtyAnswered_eval :
    canSubmit sixtyAnswered = false
    ∧ answeredCount sixtyAnswered = 60
    ∧ examTotalCorrect roundPct (submitExam sixtyAnswered) = 60
    ∧ totalExamQs (submitExam sixtyAnswered) = 100 := by
  decide

/-- Sixty of a hundred questions answered, all correctly: `canSubmit` is false,
the exam is submitted all the same and scores 60 of 100, that is 60%. -/
theorem exam_scoring_witness :
    sixtyAnswered.examSections = some [hundredSection]
    ∧ canSubmit sixtyAnswered = false
    ∧ (submitExam sixtyAnswered).examSubmitted = true
    ∧ examTotalCorrect roundPct (submitExam sixtyAnswered) = 60
    ∧ totalExamQs (submitExam sixtyAnswered) = 100
    ∧ examTotalPct roundPct (submitExam sixtyAnswered) = 60 :=
  ⟨rfl, sixtyAnswered_eval.1, rfl, sixtyAnswered_eval.2.2.1, sixtyAnswered_eval.2.2.2,
    (exam_scoring roundPct sixtyAnswered [hundredSection] rfl).2.2.2.2.2.2.2.2.2.2
      roundPct_roundsNear sixtyAnswered_eval.2.2.1 sixtyAnswered_eval.2.2.2⟩

/-- Seven of eight is 87.5%, which the exact rounding takes up to 88. -/
theorem roundPct_half_up_seven_eighths :
    0 < 8 ∧ 7 ≤ 8 ∧ roundPct 7 8 = 88
    ∧ (roundPct 7 8 : ℚ) ≤ ((7 : ℕ) : ℚ) / ((8 : ℕ) : ℚ) * 100 + 1 / 2
    ∧ roundPct 7 8 ≤ 100 :=
  ⟨by decide, by decide, by decide,
    (roundPct_half_up 7 8 (by decide) (by decide)).2.2.2.1,
    (roundPct_half_up 7 8 (by decide) (by decide)).2.2.2.2.1⟩

/-- The grades of 72, 90 and 49 right answers of 100 under exact rounding. -/
theorem examGrade_bands_witness :
    RoundsNear roundPct
    ∧ examGradeLabel (roundPct 72 100) = "B−"
    ∧ examGradeLabel (roundPct 90 100) = "A+"
    ∧ examGradeLabel (roundPct 49 100) = "F"
    ∧ examGrade roundPct (submitExam sixtyAnswered) = "C−" := by
  refine ⟨roundPct_roundsNear, by decide, by decide, by decide, ?_⟩
  rw [examGrade_bands.2.2.2.1 roundPct (submitExam sixtyAnswered) 60 roundPct_roundsNear rfl
    sixtyAnswered_eval.2.2.2 sixtyAnswered_eval.2.2.1 (by decide)]
  decide

/-- A three-question quiz with two right answers: 67%, "Almost there". -/
theorem qqGrade_bands_witness :
    qqGradeLabel (roundPct 2 3) = "Almost there"
    ∧ qqGrade roundPct sampleTwo
        = some (firstBand qqBands "Keep studying" (roundPct (qqScore sampleTwo) 2)) :=
  ⟨by decide, (qqGrade_bands.2.2 roundPct sampleTwo _ rfl).2.1⟩

theorem forall₂_enum {α β : Type} (R : α → β → Prop) (l : List α) (u : List β)
    (h : List.Forall₂ (fun (x : Nat × α) y => R x.2 y) l.enum u) : List.Forall₂ R l u := by
  have h2 : List.Forall₂ R (l.enum.map Prod.snd) u := List.forall₂_map_left_iff.mpr h
  rwa [List.enum_map_snd] at h2

theorem buildQuestions_chapter (g : Rng) (ch : Chapter) (bank : List Tuple) (count : Nat)
    (q : Question)
    (hq : q ∈ (buildQuestions g (ch.terms.map (fun td => (td.1, td.2, ch.num, ch.title)))
      bank count).1) :
    q.chapterNum = ch.num ∧ q.chapterTitle = ch.title ∧ (q.term, q.correctDef) ∈ ch.terms := by
  obtain ⟨hmem, _⟩ := buildQuestions_mem g _ bank count q hq
  obtain ⟨td, htd, heq⟩ := List.mem_map.mp hmem
  have h1 : td.1 = q.term := congrArg (fun t : Tuple => t.1) heq
  have h2 : td.2 = q.correctDef := congrArg (fun t : Tuple => t.2.1) heq
  have h3 : ch.num = q.chapterNum := congrArg (fun t : Tuple => t.2.2.1) heq
  have h4 : ch.title = q.chapterTitle := congrArg (fun t : Tuple => t.2.2.2) heq
  refine ⟨h3.symm, h4.symm, ?_⟩
  rw [← h1, ← h2]
  exact htd

/-- C21: for every list of chapters `buildExam` returns one section per chapter
in the chapters' own order: section `i` carries the `num`, `title` and `emoji`
of chapter `i`, every question of section `i` has the `chapterNum` and
`chapterTitle` of chapter `i` and a `(term, correctDef)` pair of chapter `i`'s
own term list, and the questions of the section are, in order, entries of a
shuffle of that chapter's pool: only the order inside a section is random. -/
theorem buildExam_section_order (rnd : Nat → Nat → Nat) (g : Rng) (chs : List Chapter) :
    (buildExam rnd g chs).1.length = chs.length
    ∧ (buildExam rnd g chs).1.map (fun s => (s.chapterNum, s.chapterTitle, s.emoji))
        = chs.map (fun ch => (ch.num, ch.title, ch.emoji))
    ∧ List.Forall₂ (fun (ch : Chapter) (s : ExamSection) =>
        s.chapterNum = ch.num ∧ s.chapterTitle = ch.title ∧ s.emoji = ch.emoji
        ∧ (∀ q, q ∈ s.questions →
            q.chapterNum = ch.num ∧ q.chapterTitle = ch.title
            ∧ (q.term, q.correctDef) ∈ ch.terms)
        ∧ ∃ h : Rng, (s.questions.map Question.tuple).Sublist
            (shuffle h (ch.terms.map (fun td => (td.1, td.2, ch.num, ch.title)))).1)
      chs (buildExam rnd g chs).1 := by
  have hall : List.Forall₂ (fun (ch : Chapter) (s : ExamSection) =>
        s.chapterNum = ch.num ∧ s.chapterTitle = ch.title ∧ s.emoji = ch.emoji
        ∧ (∀ q, q ∈ s.questions →
            q.chapterNum = ch.num ∧ q.chapterTitle = ch.title
            ∧ (q.term, q.correctDef) ∈ ch.terms)
        ∧ ∃ h : Rng, (s.questions.map Question.tuple).Sublist
            (shuffle h (ch.terms.map (fun td => (td.1, td.2, ch.num, ch.title)))).1)
      chs (buildExam rnd g chs).1 := by
    apply forall₂_enum
    unfold buildExam
    refine (mapRng_forall₂ _ g chs.enum).imp ?_
    rintro x s ⟨h, rfl⟩
    refine ⟨rfl, rfl, rfl, ?_, h, ?_⟩
    · intro q hq
      exact buildQuestions_chapter h x.2 _ _ q hq
    · show ((buildQuestions h _ _ _).1.map Question.tuple).Sublist _
      rw [buildQuestions_tuples]
      exact List.take_sublist _ _
  refine ⟨hall.length_eq.symm, ?_, hall⟩
  have h2 : List.Forall₂ (fun (ch : Chapter) (s : ExamSection) =>
      (ch.num, ch.title, ch.emoji) = (s.chapterNum, s.chapterTitle, s.emoji))
      chs (buildExam rnd g chs).1 :=
    hall.imp (fun ch s h => by rw [h.1, h.2.1, h.2.2.1])
  have h3 := List.forall₂_map_right_iff.mpr (List.forall₂_map_left_iff.mpr h2)
  exact (List.forall₂_eq_eq_eq ▸ h3).symm

/-- C22: for every non-empty list of chapters with at least one term in total
the final counts of the allocator sum to `max(100, F)`, where `F` is the sum of
the floors `min(8, termCount_i)`; the sum is exactly 100 if and only if
`F ≤ 100`, and when `F > 100` the trim loop stops with every chapter at its
floor and the sum above 100.  This holds for every rounding function, so also
over exact arithmetic. -/
theorem allocate_sum_eq_max (rnd : Nat → Nat → Nat) (chs : List Chapter) (hne : chs ≠ [])
    (_hpos : 0 < (flattenTerms chs).length) :
    (allocate rnd chs).sum = max TARGET (floors chs).sum
    ∧ ((allocate rnd chs).sum = TARGET ↔ (floors chs).sum ≤ TARGET)
    ∧ (TARGET < (floors chs).sum →
        allocate rnd chs = floors chs ∧ TARGET < (allocate rnd chs).sum) := by
  obtain ⟨h1, h2, h3⟩ := allocate_spec rnd chs hne
  have hge : (floors chs).sum ≤ (allocate rnd chs).sum :=
    sum_le_sum_of_getD _ _ (by rw [h1]; simp [floors]) h2
  rcases h3 with h | ⟨hgt, heq⟩
  · refine ⟨?_, ?_, ?_⟩
    · rw [h]; omega
    · exact ⟨fun _ => by omega, fun _ => h⟩
    · intro hF; omega
  · have hF : TARGET < (floors chs).sum := by rw [← heq]; exact hgt
    refine ⟨?_, ?_, ?_⟩
    · rw [heq]; omega
    · constructor
      · intro h; omega
      · intro h; omega
    · intro _
      exact ⟨heq, hgt⟩

/-- The shipped chapters have floors summing to 64, thirteen chapters of eight
terms have floors summing to 104. -/
theorem allocate_sum_eq_max_witness :
    (chapters ≠ [] ∧ 0 < (flattenTerms chapters).length
      ∧ (floors chapters).sum = 64 ∧ (allocate roundPct chapters).sum = TARGET)
    ∧ (thirteenChapters ≠ [] ∧ 0 < (flattenTerms thirteenChapters).length
      ∧ (floors thirteenChapters).sum = 104
      ∧ allocate roundPct thirteenChapters = floors thirteenChapters) := by
  have hne13 : thirteenChapters ≠ [] := by
    intro h
    have := congrArg (fun l => l.map (fun c => c.terms.length)) h
    simp only [thirteen_lens] at this
    exact absurd this (by decide)
  have hpos : 0 < (flattenTerms chapters).length := by
    rw [flattenTerms_chapters_length]; decide
  have hpos13 : 0 < (flattenTerms thirteenChapters).length := by
    rw [flattenTerms_length, thirteen_lens]; decide
  have hF : (floors chapters).sum = 64 := by rw [floors_eq, chapters_lens]; decide
  have hF13 : (floors thirteenChapters).sum = 104 := by rw [floors_eq, thirteen_lens]; decide
  refine ⟨⟨chapters_ne_nil, hpos, hF, ?_⟩, ⟨hne13, hpos13, hF13, ?_⟩⟩
  · exact (allocate_sum_eq_max roundPct chapters chapters_ne_nil hpos).2.1.mpr
      (by rw [hF]; decide)
  · exact ((allocate_sum_eq_max roundPct thirteenChapters hne13 hpos13).2.2
      (by rw [hF13]; decide)).1

theorem mem_buildExam_size (rnd : Nat → Nat → Nat) (g : Rng) (chs : List Chapter)
    (s : ExamSection) (hs : s ∈ (buildExam rnd g chs).1) :
    ∃ (i : Nat) (ch : Chapter), chs[i]? = some ch
      ∧ s.questions.length = min ((allocate rnd chs).getD i 0) ch.terms.length := by
  unfold buildExam at hs
  obtain ⟨x, hx, h, rfl⟩ := mem_mapRng _ _ _ _ hs
  exact ⟨x.1, x.2, List.mem_enum_iff_getElem?.mp hx, buildSection_size _ _ h x⟩

/-- C29: for every non-empty list of chapters in which each chapter has at least
one term, every section that `buildExam` returns holds at least one question,
so the divisor `qs.length` of every per-section percentage is positive, and so
is the divisor `totalExamQs` of the overall percentage, at launch and after any
sequence of answers followed by the submission. -/
theorem buildExam_sections_nonempty (rnd : Nat → Nat → Nat) (g : Rng) (chs : List Chapter)
    (hne : chs ≠ []) (hterms : ∀ ch, ch ∈ chs → 0 < ch.terms.length) :
    (∀ s, s ∈ (buildExam rnd g chs).1 → 0 < s.questions.length)
    ∧ (∀ (o : JsObject) (x : Nat × ExamSection), x.2 ∈ (buildExam rnd g chs).1 →
        0 < (scoreSection rnd o x).total)
    ∧ 0 < totalExamQs (launchExam rnd g chs).1
    ∧ (∀ calls, 0 < totalExamQs (submitExam (answerAll (launchExam rnd g chs).1 calls))) := by
  obtain ⟨hlen, hfl, _⟩ := allocate_spec rnd chs hne
  have hsec : ∀ s, s ∈ (buildExam rnd g chs).1 → 0 < s.questions.length := by
    intro s hs
    obtain ⟨i, ch, hch, hsz⟩ := mem_buildExam_size rnd g chs s hs
    have h1 := hfl i
    rw [floors_getD chs i ch hch] at h1
    have h2 := hterms ch (List.getElem?_mem hch)
    rw [hsz]
    have h3 : 1 ≤ min 8 ch.terms.length := by omega
    omega
  have htotal : 0 < totalExamQs (launchExam rnd g chs).1 := by
    have hlen2 : (buildExam rnd g chs).1.length = chs.length := by
      unfold buildExam
      rw [mapRng_length, List.enum_length]
    cases hb : (buildExam rnd g chs).1 with
    | nil =>
      rw [hb] at hlen2
      exact absurd (List.length_eq_zero.mp hlen2.symm) hne
    | cons s rest =>
      have hs := hsec s (by rw [hb]; exact List.mem_cons_self _ _)
      simp only [totalExamQs, launchExam, hb, List.foldl_cons]
      rw [foldl_add_eq_sum]
      omega
  refine ⟨hsec, ?_, htotal, ?_⟩
  · intro o x hx
    have := hsec x.2 hx
    simpa [scoreSection] using this
  · intro calls
    have hkeep : ∀ (cs : List (Nat × Nat × String)) (t : ExamState),
        (answerAll t cs).examSections = t.examSections := by
      intro cs
      induction cs with
      | nil => intro t; rfl
      | cons c cs ih =>
        intro t
        have e : answerAll t (c :: cs) = answerAll (setExamAnswer t c.1 c.2.1 c.2.2) cs := rfl
        rw [e, ih]
        unfold setExamAnswer
        split <;> rfl
    have : totalExamQs (submitExam (answerAll (launchExam rnd g chs).1 calls))
        = totalExamQs (launchExam rnd g chs).1 := by
      simp only [totalExamQs, submitExam, hkeep]
    rw [this]
    exact htotal

/-- The shipped chapters are non-empty and each has at least one term, so every
section of their exam has a question. -/
theorem buildExam_sections_nonempty_witness :
    chapters ≠ [] ∧ (∀ ch, ch ∈ chapters → 0 < ch.terms.length)
    ∧ (∀ s, s ∈ (buildExam roundPct (Rng.ofList []) chapters).1 → 0 < s.questions.length) :=
  ⟨chapters_ne_nil, fun ch hch => by have := chapters_terms_ge ch hch; omega,
    (buildExam_sections_nonempty roundPct (Rng.ofList []) chapters chapters_ne_nil
      (fun ch hch => by have := chapters_terms_ge ch hch; omega)).1⟩

theorem topUp_cursor (counts : List Nat) (sum i : Nat) :
    (topUp counts sum i).2.2 = i + (TARGET - sum)
    ∧ (topUp counts sum i).2.1 = max sum TARGET
    ∧ (topUp counts sum i).1.length = counts.length := by
  induction counts, sum, i using topUp.induct with
  | case1 counts sum i hlt ih =>
    have e : topUp counts sum i
        = topUp (counts.modify (· + 1) (i % counts.length)) (sum + 1) (i + 1) := by
      rw [topUp, if_pos hlt]
    rw [e]
    obtain ⟨h1, h2, h3⟩ := ih
    refine ⟨by rw [h1]; omega, by rw [h2]; omega, by rw [h3, List.length_modify]⟩
  | case2 counts sum i hge =>
    have e : topUp counts sum i = (counts, sum, i) := by rw [topUp, if_neg hge]
    rw [e]
    dsimp only
    refine ⟨by omega, by omega, rfl⟩

/-- What the top-up loop adds to the count at index `j`: one for every cursor
value from `i` on that is congruent to `j`. -/
theorem topUp_getD (counts : List Nat) (sum i j : Nat) (hj : j < counts.length) :
    (topUp counts sum i).1.getD j 0 + Nat.count (· ≡ j [MOD counts.length]) i
      = counts.getD j 0 + Nat.count (· ≡ j [MOD counts.length]) (i + (TARGET - sum)) := by
  induction counts, sum, i using topUp.induct with
  | case1 counts sum i hlt ih =>
    have e : topUp counts sum i
        = topUp (counts.modify (· + 1) (i % counts.length)) (sum + 1) (i + 1) := by
      rw [topUp, if_pos hlt]
    rw [e]
    have ih2 := ih (by rw [List.length_modify]; exact hj)
    rw [List.length_modify] at ih2
    rw [Nat.count_succ, getD_modify] at ih2
    have harg : i + 1 + (TARGET - (sum + 1)) = i + (TARGET - sum) := by omega
    rw [harg] at ih2
    have hiff : (i % counts.length = j ∧ j < counts.length) ↔ i ≡ j [MOD counts.length] := by
      unfold Nat.ModEq
      rw [Nat.mod_eq_of_lt hj]
      exact ⟨fun h => h.1, fun h => ⟨h, hj⟩⟩
    by_cases hc : i ≡ j [MOD counts.length]
    · rw [if_pos hc, if_pos (hiff.mpr hc)] at ih2
      omega
    · rw [if_neg hc, if_neg (fun h => hc (hiff.mp h))] at ih2
      omega
  | case2 counts sum i hge =>
    have e : topUp counts sum i = (counts, sum, i) := by rw [topUp, if_neg hge]
    rw [e]
    dsimp only
    have : i + (TARGET - sum) = i := by omega
    rw [this]

theorem roundRobin_length (raw : List Nat) (d : Nat) : (roundRobin raw d).length = raw.length := by
  simp [roundRobin]

theorem roundRobin_getElem (raw : List Nat) (d j : Nat) (hj : j < raw.length) :
    (roundRobin raw d).getD j 0
      = raw.getD j 0 + d / raw.length + if j < d % raw.length then 1 else 0 := by
  have hj2 : j < (roundRobin raw d).length := by rw [roundRobin_length]; exact hj
  rw [List.getD_eq_getElem _ _ hj2, List.getD_eq_getElem _ _ hj]
  simp [roundRobin]

theorem topUp_eq_roundRobin (counts : List Nat) (sum : Nat) :
    (topUp counts sum 0).1 = roundRobin counts (TARGET - sum) := by
  apply List.ext_getElem?
  intro j
  by_cases hj : j < counts.length
  · have h1 := topUp_getD counts sum 0 j hj
    have hC : 0 < counts.length := by omega
    rw [Nat.count_zero, Nat.zero_add, Nat.add_zero, Nat.count_modEq_card _ hC j,
      Nat.mod_eq_of_lt hj] at h1
    have h2 := roundRobin_getElem counts (TARGET - sum) j hj
    have hl1 : j < (topUp counts sum 0).1.length := by rw [(topUp_cursor counts sum 0).2.2]; exact hj
    have hl2 : j < (roundRobin counts (TARGET - sum)).length := by
      rw [roundRobin_length]; exact hj
    rw [List.getD_eq_getElem _ _ hl1] at h1
    rw [List.getD_eq_getElem _ _ hl2] at h2
    rw [List.getElem?_eq_getElem hl1, List.getElem?_eq_getElem hl2, h1, h2]
    rw [Nat.add_assoc]
  · rw [List.getElem?_eq_none (by rw [(topUp_cursor counts sum 0).2.2]; omega),
      List.getElem?_eq_none (by rw [roundRobin_length]; omega)]

/-- C23: top-up is round-robin from the first chapter.  When the raw counts of
`C ≥ 1` chapters sum to `S < 100`, then with `d = 100 - S` the final count of
chapter `j` is `raw_j + d / C + (1 if j < d % C else 0)`, the trim loop
returns the topped-up counts unchanged, and the final counts sum to 100. -/
theorem allocate_top_up (rnd : Nat → Nat → Nat) (chs : List Chapter) (hne : chs ≠ [])
    (hS : (rawCounts rnd chs).sum < TARGET) :
    allocate rnd chs = roundRobin (rawCounts rnd chs) (TARGET - (rawCounts rnd chs).sum)
    ∧ (∀ j, j < chs.length →
        (allocate rnd chs).getD j 0
          = (rawCounts rnd chs).getD j 0
            + (TARGET - (rawCounts rnd chs).sum) / chs.length
            + if j < (TARGET - (rawCounts rnd chs).sum) % chs.length then 1 else 0)
    ∧ trim chs (topUp (rawCounts rnd chs) (rawCounts rnd chs).sum 0).1
        (topUp (rawCounts rnd chs) (rawCounts rnd chs).sum 0).2.1
        = ((topUp (rawCounts rnd chs) (rawCounts rnd chs).sum 0).1, TARGET)
    ∧ (allocate rnd chs).sum = TARGET := by
  have hup2 : (topUp (rawCounts rnd chs) (rawCounts rnd chs).sum 0).2.1 = TARGET := by
    rw [(topUp_cursor _ _ 0).2.1]; omega
  have htrim : trim chs (topUp (rawCounts rnd chs) (rawCounts rnd chs).sum 0).1
        (topUp (rawCounts rnd chs) (rawCounts rnd chs).sum 0).2.1
        = ((topUp (rawCounts rnd chs) (rawCounts rnd chs).sum 0).1, TARGET) := by
    rw [hup2, trim, if_neg (by omega)]
  have hall : allocate rnd chs
      = roundRobin (rawCounts rnd chs) (TARGET - (rawCounts rnd chs).sum) := by
    unfold allocate
    simp only
    rw [htrim, topUp_eq_roundRobin]
  refine ⟨hall, ?_, htrim, ?_⟩
  · intro j hj
    rw [hall, roundRobin_getElem _ _ j (by rw [rawCounts_length]; exact hj), rawCounts_length]
  · obtain ⟨_, _, h3⟩ := allocate_spec rnd chs hne
    rcases h3 with h | ⟨h1, h2⟩
    · exact h
    · exfalso
      have hne0 : rawCounts rnd chs ≠ [] := by
        intro h
        have h0 : (rawCounts rnd chs).length = 0 := by rw [h]; rfl
        rw [rawCounts_length] at h0
        exact hne (List.length_eq_zero.mp h0)
      obtain ⟨u1, u2, _⟩ := topUp_spec (rawCounts rnd chs) (rawCounts rnd chs).sum 0 hne0 rfl
      have : (allocate rnd chs).sum = TARGET := by
        unfold allocate
        simp only
        rw [htrim]
        simp only
        rw [u1, hup2]
      omega

theorem threeChapters_lens : threeChapters.map (fun c => c.terms.length) = [10, 10, 10] := by
  decide

theorem rawCounts_threeChapters : rawCounts roundPct threeChapters = [33, 33, 33] := by
  rw [rawCounts_eq, flattenTerms_length, threeChapters_lens]
  decide

theorem threeChapters_ne_nil : threeChapters ≠ [] := by
  intro h
  have := congrArg (fun l => l.map (fun c => c.terms.length)) h
  simp only [threeChapters_lens] at this
  exact absurd this (by decide)


/-- Three chapters of ten terms: raw counts 33, 33, 33, so one question is added
to the first chapter. -/
theorem allocate_top_up_witness :
    threeChapters ≠ [] ∧ 0 < (flattenTerms threeChapters).length
    ∧ (rawCounts roundPct threeChapters).sum < TARGET
    ∧ rawCounts roundPct threeChapters = [33, 33, 33]
    ∧ allocate roundPct threeChapters = [34, 33, 33] := by
  have hpos : 0 < (flattenTerms threeChapters).length := by
    rw [flattenTerms_length, threeChapters_lens]; decide
  have hS : (rawCounts roundPct threeChapters).sum < TARGET := by
    rw [rawCounts_threeChapters]; decide
  refine ⟨threeChapters_ne_nil, hpos, hS, rawCounts_threeChapters, ?_⟩
  rw [(allocate_top_up roundPct threeChapters threeChapters_ne_nil hS).1,
    rawCounts_threeChapters]
  decide

theorem trim_greedy (chs : List Chapter) (raw counts : List Nat) (sum : Nat)
    (hlen : counts.length = chs.length)
    (hfl : ∀ k, (floors chs).getD k 0 ≤ counts.getD k 0)
    (p : Nat) (hshape : TrimShape (floors chs) raw counts p) :
    ∃ q, p ≤ q ∧ TrimShape (floors chs) raw (trim chs counts sum).1 q := by
  induction counts, sum using trim.induct chs generalizing p with
  | case1 counts sum hgt hnone =>
    have e : trim chs counts sum = (counts, sum) := by rw [trim, if_pos hgt, hnone]
    rw [e]
    exact ⟨p, le_refl _, hshape⟩
  | case2 counts sum hgt idx hsome ih =>
    have e : trim chs counts sum = trim chs (counts.modify (· - 1) idx) (sum - 1) := by
      rw [trim, if_pos hgt, hsome]
    rw [e]
    obtain ⟨_, ⟨c, hc, hp⟩, hfirst⟩ := findIndexFrom_some _ _ _ _ hsome
    rw [Nat.sub_zero] at hc
    obtain ⟨hidx, hcl⟩ := List.getElem?_eq_some_iff.mp hc
    obtain ⟨_, habove⟩ := aboveFloor_true chs c idx hp
    have hcd : counts.getD idx 0 = c := by rw [List.getD_eq_getElem _ _ hidx, hcl]
    obtain ⟨hp1, hp2, hp3, hp4, hp5⟩ := hshape
    -- every index before `idx` is at its floor
    have hbefore : ∀ j, j < idx → counts.getD j 0 = (floors chs).getD j 0 := by
      intro j hj
      have hjl : j < counts.length := by omega
      have h1 := hfirst j counts[j] (by omega) (List.getElem?_eq_getElem hjl)
      rw [Nat.zero_add] at h1
      have h2 := aboveFloor_false chs _ j (by omega) h1
      have h3 := hfl j
      rw [List.getD_eq_getElem _ _ hjl] at h3 ⊢
      omega
    have hpidx : p ≤ idx := by
      by_contra hlt
      have := hp2 idx (by omega)
      omega
    have hfl2 : ∀ k, (floors chs).getD k 0 ≤ (counts.modify (· - 1) idx).getD k 0 := by
      intro k
      rw [getD_modify]
      split
      · rename_i h
        obtain ⟨rfl, _⟩ := h
        rw [hcd]; omega
      · exact hfl k
    have hshape2 : TrimShape (floors chs) raw (counts.modify (· - 1) idx) idx := by
      refine ⟨by rw [List.length_modify]; exact hidx, ?_, ?_, ?_, ?_⟩
      · intro j hj
        rw [getD_modify, if_neg (by omega)]
        exact hbefore j hj
      · intro j hj hjl
        rw [List.length_modify] at hjl
        rw [getD_modify, if_neg (by omega)]
        exact hp3 j (by omega) hjl
      · rw [getD_modify, if_pos ⟨rfl, hidx⟩, hcd]
        omega
      · rw [getD_modify, if_pos ⟨rfl, hidx⟩, hcd]
        have hcraw : c ≤ raw.getD idx 0 := by
          rcases Nat.lt_or_ge p idx with h | h
          · rw [← hcd]; exact le_of_eq (hp3 idx h hidx)
          · have : p = idx := by omega
            subst this
            rw [← hcd]; exact hp5
        omega
    obtain ⟨q, hq, hres⟩ := ih (by rw [List.length_modify]; exact hlen) hfl2 idx hshape2
    exact ⟨q, by omega, hres⟩
  | case3 counts sum hle =>
    have e : trim chs counts sum = (counts, sum) := by rw [trim, if_neg hle]
    rw [e]
    exact ⟨p, le_refl _, hshape⟩

/-- One iteration of the trim loop: the index found is the first one whose
count is above its floor, and that count is decremented. -/
theorem trim_step (chs : List Chapter) (counts : List Nat) (sum idx : Nat)
    (hlen : counts.length = chs.length) (hgt : TARGET < sum)
    (hsome : findIndex (aboveFloor chs) counts = some idx) :
    idx < chs.length ∧ (floors chs).getD idx 0 < counts.getD idx 0
    ∧ (∀ j, j < idx → counts.getD j 0 ≤ (floors chs).getD j 0)
    ∧ trim chs counts sum = trim chs (counts.modify (· - 1) idx) (sum - 1) := by
  obtain ⟨_, ⟨c, hc, hp⟩, hfirst⟩ := findIndexFrom_some _ _ _ _ hsome
  rw [Nat.sub_zero] at hc
  obtain ⟨hidx, hcl⟩ := List.getElem?_eq_some_iff.mp hc
  obtain ⟨hch, habove⟩ := aboveFloor_true chs c idx hp
  have hcd : counts.getD idx 0 = c := by rw [List.getD_eq_getElem _ _ hidx, hcl]
  refine ⟨hch, by rw [hcd]; exact habove, ?_, by rw [trim, if_pos hgt, hsome]⟩
  intro j hj
  have hjl : j < counts.length := by omega
  have h1 := hfirst j counts[j] (by omega) (List.getElem?_eq_getElem hjl)
  rw [Nat.zero_add] at h1
  have h2 := aboveFloor_false chs _ j (by omega) h1
  rw [List.getD_eq_getElem _ _ hjl]
  exact h2

/-- C24: trim is greedy from the front.  When the raw counts sum to `S > 100`
the top-up loop changes nothing; every iteration of the trim loop that finds an
index decrements the first chapter whose count is above its floor
`min(8, termCount_i)` (all earlier counts are not above theirs); and in the
final counts there is an index `p` such that every chapter before `p` sits at
its floor, every chapter after `p` keeps its raw count, and the count of
chapter `p` lies between its floor and its raw count.  The final sum is 100
unless every chapter ends at its floor. -/
theorem allocate_trim_greedy (rnd : Nat → Nat → Nat) (chs : List Chapter) (hne : chs ≠ [])
    (hS : TARGET < (rawCounts rnd chs).sum) :
    (topUp (rawCounts rnd chs) (rawCounts rnd chs).sum 0).1 = rawCounts rnd chs
    ∧ (∀ (counts : List Nat) (sum idx : Nat), counts.length = chs.length → TARGET < sum →
        findIndex (aboveFloor chs) counts = some idx →
        idx < chs.length ∧ (floors chs).getD idx 0 < counts.getD idx 0
        ∧ (∀ j, j < idx → counts.getD j 0 ≤ (floors chs).getD j 0)
        ∧ trim chs counts sum = trim chs (counts.modify (· - 1) idx) (sum - 1))
    ∧ (∃ p, p < chs.length
        ∧ (∀ j, j < p → (allocate rnd chs).getD j 0 = (floors chs).getD j 0)
        ∧ (∀ j, p < j → j < chs.length →
            (allocate rnd chs).getD j 0 = (rawCounts rnd chs).getD j 0)
        ∧ (floors chs).getD p 0 ≤ (allocate rnd chs).getD p 0
        ∧ (allocate rnd chs).getD p 0 ≤ (rawCounts rnd chs).getD p 0)
    ∧ ((allocate rnd chs).sum = TARGET
        ∨ (TARGET < (allocate rnd chs).sum ∧ allocate rnd chs = floors chs)) := by
  have hne0 : rawCounts rnd chs ≠ [] := by
    intro h
    have h0 : (rawCounts rnd chs).length = 0 := by rw [h]; rfl
    rw [rawCounts_length] at h0
    exact hne (List.length_eq_zero.mp h0)
  obtain ⟨_, _, _, _, u5⟩ := topUp_spec (rawCounts rnd chs) (rawCounts rnd chs).sum 0 hne0 rfl
  have hup := u5 (by omega)
  have hC : 0 < chs.length := List.length_pos.mpr hne
  have hshape0 : TrimShape (floors chs) (rawCounts rnd chs) (rawCounts rnd chs) 0 := by
    refine ⟨by rw [rawCounts_length]; exact hC, fun j hj => absurd hj (by omega),
      fun j _ _ => rfl, rawCounts_floor rnd chs 0, le_refl _⟩
  obtain ⟨q, _, hq1, hq2, hq3, hq4, hq5⟩ := trim_greedy chs (rawCounts rnd chs)
    (rawCounts rnd chs) (topUp (rawCounts rnd chs) (rawCounts rnd chs).sum 0).2.1
    (rawCounts_length rnd chs) (rawCounts_floor rnd chs) 0 hshape0
  have hall : allocate rnd chs
      = (trim chs (rawCounts rnd chs)
          (topUp (rawCounts rnd chs) (rawCounts rnd chs).sum 0).2.1).1 := by
    unfold allocate
    simp only
    rw [hup]
  have hlen : (allocate rnd chs).length = chs.length := (allocate_spec rnd chs hne).1
  refine ⟨hup, fun counts sum idx hl hgt hsome => trim_step chs counts sum idx hl hgt hsome,
    ⟨q, ?_, ?_, ?_, ?_, ?_⟩, (allocate_spec rnd chs hne).2.2⟩
  · rw [← hall, hlen] at hq1; exact hq1
  · intro j hj
    rw [hall]; exact hq2 j hj
  · intro j hj hjl
    rw [hall]
    exact hq3 j hj (by rw [← hall, hlen]; exact hjl)
  · rw [hall]; exact hq4
  · rw [hall]; exact hq5

/-- The shipped chapters: raw counts sum to 101, and the one excess question is
taken from the first chapter, whose count ends at its floor 8. -/
theorem allocate_trim_greedy_witness :
    chapters ≠ [] ∧ 0 < (flattenTerms chapters).length
    ∧ TARGET < (rawCounts roundPct chapters).sum
    ∧ rawCounts roundPct chapters = [9, 13, 14, 9, 13, 12, 16, 15]
    ∧ allocate roundPct chapters = [8, 13, 14, 9, 13, 12, 16, 15]
    ∧ (∃ p, p < chapters.length
        ∧ (∀ j, j < p → (allocate roundPct chapters).getD j 0 = (floors chapters).getD j 0)
        ∧ (∀ j, p < j → j < chapters.length →
            (allocate roundPct chapters).getD j 0 = (rawCounts roundPct chapters).getD j 0)
        ∧ (floors chapters).getD p 0 ≤ (allocate roundPct chapters).getD p 0
        ∧ (allocate roundPct chapters).getD p 0 ≤ (rawCounts roundPct chapters).getD p 0) := by
  have hpos : 0 < (flattenTerms chapters).length := by
    rw [flattenTerms_chapters_length]; decide
  have hS : TARGET < (rawCounts roundPct chapters).sum := by
    rw [rawCounts_chapters roundPct roundPct_roundsNear]; decide
  exact ⟨chapters_ne_nil, hpos, hS, rawCounts_chapters roundPct roundPct_roundsNear,
    allocate_chapters roundPct roundPct_roundsNear,
    (allocate_trim_greedy roundPct chapters chapters_ne_nil hS).2.2.1⟩

theorem trimIters_eq (chs : List Chapter) (counts : List Nat) (sum : Nat) :
    (trim chs counts sum).2 ≤ sum
    ∧ min sum TARGET ≤ (trim chs counts sum).2
    ∧ trimIters chs counts sum
        = (sum - (trim chs counts sum).2) + if TARGET < (trim chs counts sum).2 then 1 else 0 := by
  induction counts, sum using trim.induct chs with
  | case1 counts sum hgt hnone =>
    have e : trim chs counts sum = (counts, sum) := by rw [trim, if_pos hgt, hnone]
    have e2 : trimIters chs counts sum = 1 := by rw [trimIters, if_pos hgt, hnone]
    rw [e, e2]
    dsimp only
    rw [if_pos hgt]
    refine ⟨le_refl _, by omega, by omega⟩
  | case2 counts sum hgt idx hsome ih =>
    have e : trim chs counts sum = trim chs (counts.modify (· - 1) idx) (sum - 1) := by
      rw [trim, if_pos hgt, hsome]
    have e2 : trimIters chs counts sum
        = trimIters chs (counts.modify (· - 1) idx) (sum - 1) + 1 := by
      rw [trimIters, if_pos hgt, hsome]
    rw [e, e2]
    obtain ⟨h1, h2, h3⟩ := ih
    rw [h3]
    refine ⟨by omega, by omega, ?_⟩
    omega
  | case3 counts sum hle =>
    have e : trim chs counts sum = (counts, sum) := by rw [trim, if_neg hle]
    have e2 : trimIters chs counts sum = 0 := by rw [trimIters, if_neg hle]
    rw [e, e2]
    dsimp only
    rw [if_neg hle]
    refine ⟨le_refl _, by omega, by omega⟩

theorem trimIters_le (chs : List Chapter) (counts : List Nat) (sum : Nat) :
    trimIters chs counts sum ≤ sum - TARGET := by
  obtain ⟨h1, h2, h3⟩ := trimIters_eq chs counts sum
  by_cases h : TARGET < (trim chs counts sum).2
  · rw [if_pos h] at h3; omega
  · rw [if_neg h] at h3; omega

/-- C30: both nudge loops of the allocator terminate for every non-empty list
of chapters with at least one term in total (`topUp` and `trim` are total
functions): the top-up loop runs exactly `max(0, 100 - S)` iterations (the final
cursor `i`) and leaves the sum at `max(S, 100)`, and the trim loop runs at most
`max(0, S - 100)` iterations, where `S` is the sum of the raw counts; in general
the trim loop's iterations are the decrease of the sum, plus the one that breaks
when the loop stops above 100. -/
theorem allocate_loops_terminate (rnd : Nat → Nat → Nat) (chs : List Chapter)
    (_hne : chs ≠ []) (_hpos : 0 < (flattenTerms chs).length) :
    (topUp (rawCounts rnd chs) (rawCounts rnd chs).sum 0).2.2
        = TARGET - (rawCounts rnd chs).sum
    ∧ (topUp (rawCounts rnd chs) (rawCounts rnd chs).sum 0).2.1
        = max (rawCounts rnd chs).sum TARGET
    ∧ trimIters chs (topUp (rawCounts rnd chs) (rawCounts rnd chs).sum 0).1
        (topUp (rawCounts rnd chs) (rawCounts rnd chs).sum 0).2.1
        ≤ (rawCounts rnd chs).sum - TARGET
    ∧ (∀ (counts : List Nat) (sum : Nat),
        (trim chs counts sum).2 ≤ sum
        ∧ min sum TARGET ≤ (trim chs counts sum).2
        ∧ trimIters chs counts sum
            = (sum - (trim chs counts sum).2)
              + if TARGET < (trim chs counts sum).2 then 1 else 0)
    ∧ allocate rnd chs
        = (trim chs (topUp (rawCounts rnd chs) (rawCounts rnd chs).sum 0).1
            (topUp (rawCounts rnd chs) (rawCounts rnd chs).sum 0).2.1).1 := by
  obtain ⟨h1, h2, _⟩ := topUp_cursor (rawCounts rnd chs) (rawCounts rnd chs).sum 0
  refine ⟨by rw [h1]; omega, h2, ?_, fun counts sum => trimIters_eq chs counts sum, rfl⟩
  have := trimIters_le chs (topUp (rawCounts rnd chs) (rawCounts rnd chs).sum 0).1
    (topUp (rawCounts rnd chs) (rawCounts rnd chs).sum 0).2.1
  rw [h2] at this ⊢
  omega

/-- The shipped chapters: no top-up iteration, and at most one trim iteration. -/
theorem allocate_loops_terminate_witness :
    chapters ≠ [] ∧ 0 < (flattenTerms chapters).length
    ∧ (rawCounts roundPct chapters).sum = 101
    ∧ (topUp (rawCounts roundPct chapters) (rawCounts roundPct chapters).sum 0).2.2 = 0
    ∧ trimIters chapters (topUp (rawCounts roundPct chapters)
          (rawCounts roundPct chapters).sum 0).1
        (topUp (rawCounts roundPct chapters) (rawCounts roundPct chapters).sum 0).2.1 ≤ 1 := by
  have hpos : 0 < (flattenTerms chapters).length := by
    rw [flattenTerms_chapters_length]; decide
  have hS : (rawCounts roundPct chapters).sum = 101 := by
    rw [rawCounts_chapters roundPct roundPct_roundsNear]; decide
  obtain ⟨h1, _, h3, _⟩ := allocate_loops_terminate roundPct chapters chapters_ne_nil hpos
  rw [hS] at h1 h3
  rw [hS]
  exact ⟨chapters_ne_nil, hpos, rfl, h1, h3⟩

theorem flattenTerms_defs (chs : List Chapter) :
    (flattenTerms chs).map (fun e => e.2.1) = (allTermsFlat chs).map (fun e => e.2) := by
  induction chs with
  | nil => rfl
  | cons c cs ih =>
    unfold flattenTerms allTermsFlat at *
    rw [List.flatMap_cons, List.flatMap_cons, List.map_append, List.map_append, ih,
      List.map_map]
    rfl

theorem flattenTerms_terms (chs : List Chapter) :
    (flattenTerms chs).map (fun e => e.1) = (allTermsFlat chs).map (fun e => e.1) := by
  induction chs with
  | nil => rfl
  | cons c cs ih =>
    unfold flattenTerms allTermsFlat at *
    rw [List.flatMap_cons, List.flatMap_cons, List.map_append, List.map_append, ih,
      List.map_map]
    rfl

theorem length_filter_term {α : Type} (term : α → String) (l : List α) (X : String) :
    (l.filter (fun e => term e != X)).length
      = ((l.map term).filter (fun t => t != X)).length := by
  induction l with
  | nil => rfl
  | cons e es ih =>
    rw [List.map_cons, List.filter_cons, List.filter_cons]
    by_cases h : (term e != X) = true
    · rw [if_pos h, if_pos h, List.length_cons, List.length_cons, ih]
    · rw [if_neg h, if_neg h, ih]

theorem length_filter_ne_string (l : List String) (X : String) (hnd : l.Nodup) :
    l.length ≤ (l.filter (fun t => t != X)).length + 1 := by
  induction l with
  | nil => simp
  | cons e es ih =>
    rw [List.nodup_cons] at hnd
    by_cases he : e = X
    · have hall : es.filter (fun t => t != X) = es := by
        rw [List.filter_eq_self]
        intro a ha
        have : a ≠ X := by
          intro h
          exact hnd.1 (by rw [he, ← h]; exact ha)
        simpa using this
      rw [List.filter_cons, if_neg (by simp [he]), hall, List.length_cons]
    · rw [List.filter_cons, if_pos (by simpa using he), List.length_cons, List.length_cons]
      have := ih hnd.2
      omega

set_option maxRecDepth 1000000 in
set_option maxHeartbeats 4000000 in
theorem allTermsFlat_defs_nodup : ((allTermsFlat chapters).map (fun e => e.2)).Nodup := by
  decide

set_option maxRecDepth 1000000 in
theorem allTermsFlat_take_nodup :
    (((allTermsFlat chapters).map (fun e => e.1)).take 4).Nodup
    ∧ (((allTermsFlat chapters).map (fun e => e.1)).take 4).length = 4 := by
  decide

theorem allTermsFlat_length : (allTermsFlat chapters).length = 129 := by
  have h := congrArg List.length (flattenTerms_terms chapters)
  rw [List.length_map, List.length_map, flattenTerms_chapters_length] at h
  exact h.symm

theorem three_others_strings (l : List String) (X : String)
    (h : (l.take 4).Nodup ∧ (l.take 4).length = 4) :
    3 ≤ (l.filter (fun t => t != X)).length := by
  have h1 := length_filter_ne_string (l.take 4) X h.1
  have h2 : ((l.take 4).filter (fun t => t != X)).length ≤ (l.filter (fun t => t != X)).length :=
    ((List.take_sublist 4 l).filter _).length_le
  omega

theorem allTermsFlat_three_others (X : String) :
    3 ≤ ((allTermsFlat chapters).filter (fun e => e.1 != X)).length := by
  rw [length_filter_term (fun e : String × String => e.1)]
  exact three_others_strings _ X allTermsFlat_take_nodup

theorem flattenTerms_three_others (X : String) :
    3 ≤ ((flattenTerms chapters).filter (fun e => e.1 != X)).length := by
  rw [length_filter_term (fun e : Tuple => e.1), flattenTerms_terms]
  exact three_others_strings _ X allTermsFlat_take_nodup

/-- The options of a question whose bank has pairwise distinct definitions and
at least three entries of another term. -/
theorem options_of_distinct_defs {α : Type} (term df : α → String) (bank : List α) (p : α)
    (h : Rng) (opts : List String)
    (hnd : (bank.map df).Nodup) (hp : p ∈ bank)
    (h3 : 3 ≤ (bank.filter (fun e => term e != term p)).length)
    (hperm : opts.Perm
      (df p :: ((shuffle h (bank.filter (fun e => term e != term p))).1.take 3).map df)) :
    opts.length = 4 ∧ opts.Nodup ∧ opts.count (df p) = 1 := by
  have hbank : bank.Nodup := List.Nodup.of_map df hnd
  have hsh := shuffle_perm h (bank.filter (fun e => term e != term p))
  have hes_nd : ((shuffle h (bank.filter (fun e => term e != term p))).1.take 3).Nodup :=
    (hsh.nodup_iff.mpr (hbank.filter _)).sublist (List.take_sublist _ _)
  have hes_mem : ∀ e, e ∈ (shuffle h (bank.filter (fun e => term e != term p))).1.take 3 →
      e ∈ bank ∧ term e ≠ term p := by
    intro e he
    have h1 := hsh.subset (List.mem_of_mem_take he)
    rw [List.mem_filter] at h1
    exact ⟨h1.1, by simpa using h1.2⟩
  have hes_len : ((shuffle h (bank.filter (fun e => term e != term p))).1.take 3).length = 3 := by
    rw [List.length_take, hsh.length_eq]; omega
  have hp_not : p ∉ (shuffle h (bank.filter (fun e => term e != term p))).1.take 3 :=
    fun hin => (hes_mem p hin).2 rfl
  have hall : (p :: (shuffle h (bank.filter (fun e => term e != term p))).1.take 3).Nodup :=
    List.nodup_cons.mpr ⟨hp_not, hes_nd⟩
  have hmap : ((p :: (shuffle h (bank.filter (fun e => term e != term p))).1.take 3).map
      df).Nodup := by
    apply List.Nodup.map_on _ hall
    intro x hx y hy hxy
    have hxb : x ∈ bank := by
      rcases List.mem_cons.mp hx with rfl | hx
      · exact hp
      · exact (hes_mem x hx).1
    have hyb : y ∈ bank := by
      rcases List.mem_cons.mp hy with rfl | hy
      · exact hp
      · exact (hes_mem y hy).1
    exact List.inj_on_of_nodup_map hnd hxb hyb hxy
  rw [List.map_cons] at hmap
  have hnodup : opts.Nodup := hperm.nodup_iff.mpr hmap
  refine ⟨?_, hnodup, ?_⟩
  · rw [hperm.length_eq, List.length_cons, List.length_map, hes_len]
  · exact List.count_eq_one_of_mem hnodup (hperm.mem_iff.mpr (List.mem_cons_self _ _))

theorem mem_flattenTerms (chs : List Chapter) (ch : Chapter) (hch : ch ∈ chs) (t : Tuple)
    (ht : t ∈ ch.terms.map (fun td => (td.1, td.2, ch.num, ch.title))) :
    t ∈ flattenTerms chs := by
  unfold flattenTerms
  exact List.mem_flatMap.mpr ⟨ch, hch, ht⟩

theorem mem_allTermsFlat (chs : List Chapter) (ch : Chapter) (hch : ch ∈ chs)
    (t : String × String) (ht : t ∈ ch.terms) : t ∈ allTermsFlat chs := by
  unfold allTermsFlat
  exact List.mem_flatMap.mpr ⟨ch, hch, ht⟩

/-- C25: on the shipped `chapters`, for every state of the random source, every
question of every section of `buildExam(chapters)` and every question of
`startQuickQuiz` for any of the chapters has 4 pairwise distinct options among
which the correct definition occurs exactly once.  The bank has 129 entries
with pairwise distinct definitions, and for every term at least 3 entries with
a different term. -/
theorem shipped_options_distinct (rnd : Nat → Nat → Nat) (g : Rng) :
    (∀ s, s ∈ (buildExam rnd g chapters).1 → ∀ q, q ∈ s.questions →
      q.options.length = 4 ∧ q.options.Nodup ∧ q.options.count q.correctDef = 1)
    ∧ (∀ ch, ch ∈ chapters → ∀ q, q ∈ (startQuickQuiz g (allTermsFlat chapters) ch).1 →
      q.options.length = 4 ∧ q.options.Nodup ∧ q.options.count q.correctDef = 1)
    ∧ (allTermsFlat chapters).length = 129
    ∧ ((allTermsFlat chapters).map (fun e => e.2)).Nodup
    ∧ ((flattenTerms chapters).map (fun e => e.2.1)).Nodup
    ∧ (∀ X : String, 3 ≤ ((allTermsFlat chapters).filter (fun e => e.1 != X)).length)
    ∧ (∀ X : String, 3 ≤ ((flattenTerms chapters).filter (fun e => e.1 != X)).length) := by
  have hnd2 : ((flattenTerms chapters).map (fun e => e.2.1)).Nodup := by
    rw [flattenTerms_defs]; exact allTermsFlat_defs_nodup
  refine ⟨?_, ?_, allTermsFlat_length, allTermsFlat_defs_nodup, hnd2,
    allTermsFlat_three_others, flattenTerms_three_others⟩
  · intro s hs q hq
    unfold buildExam at hs
    obtain ⟨x, hx, h, rfl⟩ := mem_mapRng _ _ _ _ hs
    have hch : x.2 ∈ chapters := List.getElem?_mem (List.mem_enum_iff_getElem?.mp hx)
    obtain ⟨hmem, h2, hperm⟩ := buildQuestions_mem h _ _ _ q hq
    have hp : q.tuple ∈ flattenTerms chapters := mem_flattenTerms chapters x.2 hch _ hmem
    exact options_of_distinct_defs (fun e : Tuple => e.1) (fun e : Tuple => e.2.1)
      (flattenTerms chapters) q.tuple h2 q.options hnd2 hp
      (flattenTerms_three_others q.term) hperm
  · intro ch hch q hq
    obtain ⟨hmem, h2, hperm⟩ := startQuickQuiz_mem g _ ch q hq
    have hp : (q.term, q.correctDef) ∈ allTermsFlat chapters :=
      mem_allTermsFlat chapters ch hch _ hmem
    exact options_of_distinct_defs (fun e : String × String => e.1)
      (fun e : String × String => e.2)
      (allTermsFlat chapters) (q.term, q.correctDef) h2 q.options allTermsFlat_defs_nodup hp
      (allTermsFlat_three_others q.term) hperm

theorem take_shuffle_subperm {α : Type} (g : Rng) (l : List α) (n : Nat) :
    ((shuffle g l).1.take n).Subperm l :=
  (List.take_sublist n _).subperm.trans (shuffle_perm g l).subperm

/-- C26: for every question built by `buildQuestions` for a term `X` against a
bank `B`, the distractors are the definitions of a list `es` of exactly
`min(3, e)` bank entries, where `e` is the number of entries of `B` whose term
differs from `X`; `options` has length `1 + min(3, e)` and is a permutation of
the correct definition followed by the distractors; the entries `es` are taken
from different positions of the bank (a sub-multiset of it), each with a term
other than `X`, and are pairwise different when the bank's entries are. -/
theorem buildQuestions_distractors (g : Rng) (pool bank : List Tuple) (count : Nat)
    (q : Question) (hq : q ∈ (buildQuestions g pool bank count).1) :
    ∃ (h : Rng) (es : List Tuple),
      (distractors h bank q.term).1 = es.map (fun e => e.2.1)
      ∧ es.length = min 3 (bank.filter (fun e => e.1 != q.term)).length
      ∧ (distractors h bank q.term).1.length
          = min 3 (bank.filter (fun e => e.1 != q.term)).length
      ∧ q.options.length = 1 + min 3 (bank.filter (fun e => e.1 != q.term)).length
      ∧ q.options.Perm (q.correctDef :: (distractors h bank q.term).1)
      ∧ es.Subperm (bank.filter (fun e => e.1 != q.term))
      ∧ es.Subperm bank
      ∧ (∀ e, e ∈ es → e ∈ bank ∧ e.1 ≠ q.term)
      ∧ (bank.Nodup → es.Nodup) := by
  obtain ⟨_, h, hperm⟩ := buildQuestions_mem g pool bank count q hq
  refine ⟨h, (shuffle h (bank.filter (fun e => e.1 != q.term))).1.take 3, ?_⟩
  have hsub : ((shuffle h (bank.filter (fun e => e.1 != q.term))).1.take 3).Subperm
      (bank.filter (fun e => e.1 != q.term)) := take_shuffle_subperm h _ 3
  have hsub2 : ((shuffle h (bank.filter (fun e => e.1 != q.term))).1.take 3).Subperm bank :=
    hsub.trans (List.filter_sublist _).subperm
  have hlen : ((shuffle h (bank.filter (fun e => e.1 != q.term))).1.take 3).length
      = min 3 (bank.filter (fun e => e.1 != q.term)).length := by
    rw [List.length_take, (shuffle_perm h _).length_eq]
  have hopt : q.options.length = 1 + min 3 (bank.filter (fun e => e.1 != q.term)).length := by
    rw [hperm.length_eq, List.length_cons, distractors_length]; omega
  constructor
  · exact distractors_eq h bank q.term
  constructor
  · exact hlen
  constructor
  · exact distractors_length h bank q.term
  constructor
  · exact hopt
  constructor
  · exact hperm
  constructor
  · exact hsub
  constructor
  · exact hsub2
  constructor
  · exact fun e he => distractors_source h bank q.term e he
  · intro hnd
    obtain ⟨l, hl1, hl2⟩ := hsub2
    exact hl1.nodup_iff.mp (hnd.sublist hl2)

/-- The question `sampleQuestion` of `sampleBank`: three other entries, three
distractors, four options. -/
theorem buildQuestions_distractors_witness :
    sampleQuestion ∈ (buildQuestions (Rng.ofList []) sampleBank sampleBank 2).1
    ∧ (sampleBank.filter (fun e => e.1 != sampleQuestion.term)).length = 3
    ∧ ∃ (h : Rng) (es : List Tuple),
      (distractors h sampleBank sampleQuestion.term).1 = es.map (fun e => e.2.1)
      ∧ es.length = min 3 (sampleBank.filter (fun e => e.1 != sampleQuestion.term)).length
      ∧ (distractors h sampleBank sampleQuestion.term).1.length
          = min 3 (sampleBank.filter (fun e => e.1 != sampleQuestion.term)).length
      ∧ sampleQuestion.options.length
          = 1 + min 3 (sampleBank.filter (fun e => e.1 != sampleQuestion.term)).length
      ∧ sampleQuestion.options.Perm
          (sampleQuestion.correctDef :: (distractors h sampleBank sampleQuestion.term).1)
      ∧ es.Subperm (sampleBank.filter (fun e => e.1 != sampleQuestion.term))
      ∧ es.Subperm sampleBank
      ∧ (∀ e, e ∈ es → e ∈ sampleBank ∧ e.1 ≠ sampleQuestion.term)
      ∧ (sampleBank.Nodup → es.Nodup) :=
  ⟨by decide, by decide,
    buildQuestions_distractors (Rng.ofList []) sampleBank sampleBank 2 sampleQuestion
      (by decide)⟩

/-- C27: answering one exam question never touches another.  The key
`si-qi` is injective on pairs of natural numbers, so for every exam state and
every `(si, qi) ≠ (sj, qj)`, `setExamAnswer(si, qi, opt)` leaves the recorded
answer of question `(sj, qj)`, or its absence, unchanged, while in an
unsubmitted state it records `opt` for `(si, qi)`. -/
theorem setExamAnswer_frame (s : ExamState) (si qi sj qj : Nat) (opt : String)
    (hne : (si, qi) ≠ (sj, qj)) :
    examKey si qi ≠ examKey sj qj
    ∧ (∀ a b c d : Nat, examKey a b = examKey c d → (a, b) = (c, d))
    ∧ getProp (setExamAnswer s si qi opt).examAnswers (examKey sj qj)
        = getProp s.examAnswers (examKey sj qj)
    ∧ (s.examSubmitted = false →
        getProp (setExamAnswer s si qi opt).examAnswers (examKey si qi) = some opt) := by
  have hkey : examKey sj qj ≠ examKey si qi := by
    intro h
    obtain ⟨h1, h2⟩ := examKey_injective _ _ _ _ h
    exact hne (by rw [h1, h2])
  refine ⟨fun h => hkey h.symm, ?_, ?_, ?_⟩
  · intro a b c d h
    obtain ⟨h1, h2⟩ := examKey_injective _ _ _ _ h
    rw [h1, h2]
  · unfold setExamAnswer
    split
    · rfl
    · exact getProp_setProp_ne _ _ _ _ hkey
  · intro hs
    simp only [setExamAnswer, hs]
    exact getProp_setProp_same _ _ _

/-- The keys "1-11" and "11-1" differ: answering question (1, 11) keeps the
answer of question (11, 1). -/
theorem setExamAnswer_frame_witness :
    ((1, 11) : Nat × Nat) ≠ (11, 1)
    ∧ examKey 1 11 = "1-11" ∧ examKey 11 1 = "11-1"
    ∧ getProp (setExamAnswer (setExamAnswer sampleOpenExam 11 1 "first") 1 11
        "second").examAnswers (examKey 11 1) = some "first" := by
  refine ⟨by decide, by decide, by decide, ?_⟩
  rw [(setExamAnswer_frame (setExamAnswer sampleOpenExam 11 1 "first") 1 11 11 1 "second"
    (by decide)).2.2.1]
  decide

theorem quizInv_answer (qs : List QuickQuestion) (s t : QuizState) (opt : String)
    (hinv : QuizInv qs s) (hstep : handleQqAnswer s opt = some t) : QuizInv qs t := by
  obtain ⟨h1, h2, h3, h4, h5⟩ := hinv
  by_cases hsel : s.qqSelected ≠ none
  · have e : handleQqAnswer s opt = some s := by
      unfold handleQqAnswer
      rw [if_pos hsel]
    rw [e] at hstep
    cases hstep
    exact ⟨h1, h2, h3, h4, h5⟩
  · have hsel2 : s.qqSelected = none := by simpa using hsel
    have hq : qs[s.qqIdx]? = some qs[s.qqIdx] := List.getElem?_eq_getElem h2
    rw [handleQqAnswer_fresh s opt qs qs[s.qqIdx] hsel2 h1 hq] at hstep
    cases hstep
    rw [if_neg hsel] at h3
    refine ⟨h1, h2, ?_, ?_, ?_⟩
    · simp [h3]
    · intro k a q ha hqk
      simp only at ha
      by_cases hk : k < s.qqAnswers.length
      · rw [List.getElem?_append_left hk] at ha
        exact h4 k a q ha hqk
      · rw [List.getElem?_append_right (not_lt.mp hk)] at ha
        cases hd : k - s.qqAnswers.length with
        | zero =>
          rw [hd] at ha
          simp only [List.getElem?_cons_zero, Option.some.injEq] at ha
          have hk2 : k = s.qqIdx := by omega
          subst hk2
          rw [hq] at hqk
          cases hqk
          subst ha
          exact ⟨rfl, rfl, rfl⟩
        | succ n =>
          rw [hd] at ha
          simp at ha
    · intro hdone
      have := h5 hdone
      exact absurd hsel2 this.1

theorem quizInv_next (qs : List QuickQuestion) (s t : QuizState)
    (hinv : QuizInv qs s) (hsel : s.qqSelected ≠ none) (hstep : nextQq s = some t) :
    QuizInv qs t := by
  obtain ⟨h1, h2, h3, h4, h5⟩ := hinv
  rw [if_pos hsel] at h3
  unfold nextQq at hstep
  simp only [h1] at hstep
  by_cases hlast : s.qqIdx + 1 ≥ qs.length
  · rw [if_pos hlast] at hstep
    cases hstep
    refine ⟨rfl, h2, ?_, h4, ?_⟩
    · show s.qqAnswers.length = s.qqIdx + (if s.qqSelected ≠ none then 1 else 0)
      rw [if_pos hsel]; exact h3
    · intro _
      refine ⟨hsel, ?_⟩
      show s.qqIdx + 1 = qs.length
      omega
  · rw [if_neg hlast] at hstep
    cases hstep
    refine ⟨rfl, ?_, ?_, h4, ?_⟩
    · show s.qqIdx + 1 < qs.length
      omega
    · show s.qqAnswers.length = s.qqIdx + 1 + (if (none : Option String) ≠ none then 1 else 0)
      rw [if_neg (by simp)]
      omega
    · intro hdone
      have h6 : s.qqDone = true := hdone
      have := (h5 h6).2
      omega

theorem quizInv_start (g : Rng) (bank : List (String × String)) (ch : Chapter)
    (hterms : 0 < ch.terms.length) :
    QuizInv (startQuickQuiz g bank ch).1 (startQuickQuizState g bank ch).1 := by
  refine ⟨rfl, ?_, rfl, ?_, ?_⟩
  · show 0 < (startQuickQuiz g bank ch).1.length
    rw [startQuickQuiz_length]
    omega
  · intro k a q ha _
    simp [startQuickQuizState] at ha
  · intro h
    simp [startQuickQuizState] at h

theorem quizInv_reach (qs : List QuickQuestion) (s0 s : QuizState) (h0 : QuizInv qs s0)
    (hr : QuizReach s0 s) : QuizInv qs s := by
  induction hr with
  | start => exact h0
  | answer s t opt _ hstep ih => exact quizInv_answer qs s t opt ih hstep
  | next s t _ hsel hstep ih => exact quizInv_next qs s t ih hsel hstep

/-- C28: the log invariant of the quick quiz.  In every state reachable from
`startQuickQuiz` on a chapter with at least one term by `handleQqAnswer` and by
`nextQq` taken when the current question is answered, `quickQuiz` is the list
built at the start, `qqIdx < quickQuiz.length`,
`qqAnswers.length = qqIdx + (1 if qqSelected is not null else 0)`, and record
`k` of the log carries the term and correct definition of question `k` with
`correct` telling whether the chosen option is that definition; hence when
`qqDone` is set there is one record per question, and the score is at most
`quickQuiz.length`. -/
theorem quiz_log_invariant (g : Rng) (bank : List (String × String)) (ch : Chapter)
    (s : QuizState) (hterms : 0 < ch.terms.length)
    (hr : QuizReach (startQuickQuizState g bank ch).1 s) :
    s.quickQuiz = some (startQuickQuiz g bank ch).1
    ∧ s.qqIdx < (startQuickQuiz g bank ch).1.length
    ∧ s.qqAnswers.length = s.qqIdx + (if s.qqSelected ≠ none then 1 else 0)
    ∧ (∀ (k : Nat) (a : AnswerRecord) (q : QuickQuestion), s.qqAnswers[k]? = some a →
        (startQuickQuiz g bank ch).1[k]? = some q →
        a.term = q.term ∧ a.correctDef = q.correctDef
        ∧ a.correct = (a.chosen == q.correctDef))
    ∧ (s.qqDone = true → s.qqAnswers.length = (startQuickQuiz g bank ch).1.length)
    ∧ qqScore s ≤ (startQuickQuiz g bank ch).1.length := by
  obtain ⟨h1, h2, h3, h4, h5⟩ :=
    quizInv_reach _ _ s (quizInv_start g bank ch hterms) hr
  have hlen : s.qqAnswers.length ≤ (startQuickQuiz g bank ch).1.length := by
    rw [h3]
    split <;> omega
  refine ⟨h1, h2, h3, h4, ?_, ?_⟩
  · intro hdone
    obtain ⟨hsel, hidx⟩ := h5 hdone
    rw [h3, if_pos hsel]
    exact hidx
  · exact le_trans (List.length_filter_le _ _) hlen

set_option maxRecDepth 1000000 in
theorem sampleReached_step :
    handleQqAnswer
      (startQuickQuizState (Rng.ofList []) (allTermsFlat [sampleChapter]) sampleChapter).1
      "Rewards for taking risks" = some sampleReached
    ∧ sampleReached.qqSelected ≠ none
    ∧ nextQq sampleReached = some sampleAdvanced := by
  decide

/-- On `sampleChapter`: after the first answer and `nextQq()` the quiz is at
question 1 with one record in the log. -/
theorem quiz_log_invariant_witness :
    0 < sampleChapter.terms.length
    ∧ QuizReach
        (startQuickQuizState (Rng.ofList []) (allTermsFlat [sampleChapter]) sampleChapter).1
        sampleAdvanced
    ∧ sampleAdvanced.qqIdx = 1 ∧ sampleAdvanced.qqAnswers.length = 1
    ∧ sampleAdvanced.qqIdx
        < (startQuickQuiz (Rng.ofList []) (allTermsFlat [sampleChapter]) sampleChapter).1.length
    ∧ sampleAdvanced.qqAnswers.length
        = sampleAdvanced.qqIdx + (if sampleAdvanced.qqSelected ≠ none then 1 else 0)
    ∧ qqScore sampleAdvanced
        ≤ (startQuickQuiz (Rng.ofList []) (allTermsFlat [sampleChapter]) sampleChapter).1.length :=
  have hreach : QuizReach
      (startQuickQuizState (Rng.ofList []) (allTermsFlat [sampleChapter]) sampleChapter).1
      sampleAdvanced :=
    QuizReach.next _ _
      (QuizReach.answer _ _ "Rewards for taking risks" QuizReach.start sampleReached_step.1)
      sampleReached_step.2.1 sampleReached_step.2.2
  have h := quiz_log_invariant (Rng.ofList []) (allTermsFlat [sampleChapter]) sampleChapter
    sampleAdvanced (by decide) hreach
  ⟨by decide, hreach, rfl, rfl, h.2.1, h.2.2.1, h.2.2.2.2.2⟩

/-! ## Percentages in doubles -/

/-- The rounded quotient is within one half of the exact one. -/
theorem roundHalfEven_near (n d : Nat) (hd : 0 < d) :
    2 * (roundHalfEven n d * d) ≤ 2 * n + d ∧ 2 * n ≤ 2 * (roundHalfEven n d * d) + d := by
  have h1 := Nat.div_add_mod n d
  have h2 := Nat.mod_lt n hd
  unfold roundHalfEven
  generalize n / d = q at *
  generalize n % d = r at *
  have e1 : q * d = d * q := Nat.mul_comm _ _
  have e2 : (q + 1) * d = d * q + d := by ring
  split_ifs <;> simp only [e1, e2] <;> constructor <;> omega

/-- After scaling, the quotient has reached `2^52` unless the fuel ran out. -/
theorem scaleUp_spec (fuel n d : Nat) :
    scaleUp fuel n d = fuel ∨ 2 ^ 52 * d ≤ n * 2 ^ scaleUp fuel n d := by
  induction fuel generalizing n with
  | zero => exact Or.inl rfl
  | succ f ih =>
    by_cases h : n < 2 ^ 52 * d
    · have e : scaleUp (f + 1) n d = scaleUp f (2 * n) d + 1 := by
        rw [scaleUp, if_pos h]
      rw [e]
      rcases ih (2 * n) with h1 | h1
      · exact Or.inl (by rw [h1])
      · refine Or.inr ?_
        rw [pow_succ]
        calc 2 ^ 52 * d ≤ 2 * n * 2 ^ scaleUp f (2 * n) d := h1
          _ = n * (2 ^ scaleUp f (2 * n) d * 2) := by ring
    · have e : scaleUp (f + 1) n d = 0 := by
        rw [scaleUp, if_neg h]
      rw [e]
      exact Or.inr (by rw [pow_zero, Nat.mul_one]; exact Nat.le_of_not_lt h)

theorem toDouble_snd_pos (n d : Nat) : 0 < (toDouble n d).2 := by
  unfold toDouble
  exact Nat.pow_pos (by decide)

/-- A double is within half a unit in the last place of the quotient it rounds:
the relative error is at most `2^-53`, up to the spacing `2^-1074` of the
subnormal numbers. -/
theorem toDouble_near (n d : Nat) (hd : 0 < d) :
    |dval (toDouble n d) - (n : ℚ) / d| ≤ (n : ℚ) / d / 2 ^ 53 + 1 / 2 ^ 1075 := by
  obtain ⟨h1, h2⟩ := roundHalfEven_near (n * 2 ^ scaleUp 1074 n d) d hd
  have hspec := scaleUp_spec 1074 n d
  unfold dval toDouble
  simp only
  generalize scaleUp 1074 n d = k at *
  generalize roundHalfEven (n * 2 ^ k) d = m at *
  have hD : (0 : ℚ) < d := by exact_mod_cast hd
  have hP : (0 : ℚ) < 2 ^ k := by positivity
  have hN : (0 : ℚ) ≤ n := by positivity
  have c1 : 2 * ((m : ℚ) * d) ≤ 2 * ((n : ℚ) * 2 ^ k) + d := by exact_mod_cast h1
  have c2 : 2 * ((n : ℚ) * 2 ^ k) ≤ 2 * ((m : ℚ) * d) + d := by exact_mod_cast h2
  have key : (m : ℚ) / 2 ^ k - (n : ℚ) / d = ((m : ℚ) * d - n * 2 ^ k) / (2 ^ k * d) := by
    field_simp
    ring
  have hhalf : |(m : ℚ) / 2 ^ k - (n : ℚ) / d| ≤ 1 / (2 * 2 ^ k) := by
    rw [key, abs_le]
    constructor
    · rw [le_div_iff₀ (by positivity), neg_mul, one_div, neg_le_sub_iff_le_add]
      have : (2 * (2 : ℚ) ^ k)⁻¹ * (2 ^ k * d) = d / 2 := by field_simp; ring
      rw [this]; linarith
    · rw [div_le_iff₀ (by positivity)]
      have : 1 / (2 * (2 : ℚ) ^ k) * (2 ^ k * d) = d / 2 := by field_simp; ring
      rw [this]; linarith
  push_cast
  refine le_trans hhalf ?_
  have e1 : (1 : ℚ) / (2 * 2 ^ k) = 1 / 2 ^ (k + 1) := by rw [pow_succ]; ring
  rcases hspec with hk | hk
  · have e2 : k + 1 = 1075 := by omega
    rw [e1, e2]
    exact le_add_of_nonneg_left (by positivity)
  · have c3 : (2 : ℚ) ^ 52 * d ≤ n * 2 ^ k := by exact_mod_cast hk
    have h3 : (1 : ℚ) / (2 * 2 ^ k) ≤ (n : ℚ) / d / 2 ^ 53 := by
      rw [div_div, div_le_div_iff₀ (by positivity) (by positivity)]
      have e : ((2 : ℚ) ^ 53) = 2 * 2 ^ 52 := by norm_num
      rw [e]
      nlinarith
    exact le_add_of_le_of_nonneg h3 (by positivity)


/-- The double `(a / b) * 100` is within `202 / 2^53` of the exact quotient. -/
theorem jsPct_near (a b : Nat) (hb : 0 < b) (hab : a ≤ b) :
    |dval (toDouble ((toDouble a b).1 * 100) (toDouble a b).2) - 100 * (a : ℚ) / b|
      ≤ 202 / 2 ^ 53 := by
  have h1 := toDouble_near a b hb
  have h2 := toDouble_near ((toDouble a b).1 * 100) (toDouble a b).2 (toDouble_snd_pos a b)
  have e : (((toDouble a b).1 * 100 : ℕ) : ℚ) / ((toDouble a b).2 : ℚ)
      = 100 * dval (toDouble a b) := by
    unfold dval
    push_cast
    ring
  rw [e] at h2
  have hq0 : (0 : ℚ) ≤ (a : ℚ) / b := by positivity
  have hq1 : (a : ℚ) / b ≤ 1 := by
    rw [div_le_one (by exact_mod_cast hb)]
    exact_mod_cast hab
  have hv0 : (0 : ℚ) ≤ 1 / 2 ^ 1075 := by positivity
  have hv : (1 : ℚ) / 2 ^ 1075 ≤ 1 / 2 ^ 60 :=
    one_div_le_one_div_of_le (by positivity) (pow_le_pow_right₀ (by norm_num) (by norm_num))
  have e2 : 100 * (a : ℚ) / b = 100 * ((a : ℚ) / b) := by ring
  rw [e2]
  generalize (1 : ℚ) / 2 ^ 1075 = v at *
  generalize (a : ℚ) / b = q at *
  generalize dval (toDouble a b) = x at *
  generalize dval (toDouble ((toDouble a b).1 * 100) (toDouble a b).2) = r at *
  rw [abs_le] at h1 h2 ⊢
  norm_num at hv h1 h2 ⊢
  constructor <;> linarith

theorem mathRound_ge (p : Nat × Nat) (hp : 0 < p.2) (k : Nat)
    (h : (k : ℚ) ≤ dval p + 1 / 2) : k ≤ mathRound p := by
  unfold mathRound
  rw [Nat.le_div_iff_mul_le (by omega)]
  have hp2 : (0 : ℚ) < p.2 := by exact_mod_cast hp
  unfold dval at h
  have h2 : (k : ℚ) * (2 * p.2) ≤ 2 * p.1 + p.2 := by
    have e : (2 * (p.1 : ℚ) + p.2) = ((p.1 : ℚ) / p.2 + 1 / 2) * (2 * p.2) := by
      field_simp
      ring
    rw [e]
    exact mul_le_mul_of_nonneg_right h (by positivity)
  exact_mod_cast h2

theorem mathRound_le (p : Nat × Nat) (hp : 0 < p.2) (k : Nat)
    (h : dval p + 1 / 2 < (k : ℚ) + 1) : mathRound p ≤ k := by
  unfold mathRound
  apply Nat.le_of_lt_succ
  rw [Nat.div_lt_iff_lt_mul (by omega)]
  have hp2 : (0 : ℚ) < p.2 := by exact_mod_cast hp
  unfold dval at h
  have h2 : 2 * (p.1 : ℚ) + p.2 < ((k : ℚ) + 1) * (2 * p.2) := by
    have e : (2 * (p.1 : ℚ) + p.2) = ((p.1 : ℚ) / p.2 + 1 / 2) * (2 * p.2) := by
      field_simp
      ring
    rw [e]
    exact mul_lt_mul_of_pos_right h (by positivity)
  exact_mod_cast h2

/-- The exact quotient plus one half, split at the exact rounding. -/
theorem roundPct_split (a b : Nat) (hb : 0 < b) :
    100 * (a : ℚ) / b + 1 / 2
      = (roundPct a b : ℚ) + (((200 * a + b) % (2 * b) : ℕ) : ℚ) / (2 * b) := by
  have h := Nat.div_add_mod (200 * a + b) (2 * b)
  have hb2 : (0 : ℚ) < b := by exact_mod_cast hb
  have hq : (2 * (b : ℚ)) * (roundPct a b : ℚ) + (((200 * a + b) % (2 * b) : ℕ) : ℚ)
      = 200 * a + b := by
    unfold roundPct
    exact_mod_cast h
  field_simp
  linear_combination (-(2 * (b : ℚ))) * hq

theorem jsPct_eq_of_not_tie (a b : Nat) (hb : 0 < b) (hab : a ≤ b) (hbig : b ≤ 2 ^ 44)
    (htie : (200 * a + b) % (2 * b) ≠ 0) : jsPct a b = roundPct a b := by
  have hnear := jsPct_near a b hb hab
  have hsplit := roundPct_split a b hb
  have hb2 : (0 : ℚ) < b := by exact_mod_cast hb
  have hrem1 : (1 : ℚ) ≤ (((200 * a + b) % (2 * b) : ℕ) : ℚ) := by
    exact_mod_cast Nat.one_le_iff_ne_zero.mpr htie
  have hrem2 : (((200 * a + b) % (2 * b) : ℕ) : ℚ) ≤ 2 * b - 1 := by
    have := Nat.mod_lt (200 * a + b) (show 0 < 2 * b by omega)
    have h2 : (200 * a + b) % (2 * b) + 1 ≤ 2 * b := this
    have h3 : ((((200 * a + b) % (2 * b) : ℕ) : ℚ)) + 1 ≤ 2 * b := by exact_mod_cast h2
    linarith
  have hbq : (b : ℚ) ≤ 2 ^ 44 := by exact_mod_cast hbig
  have hinv : (1 : ℚ) / 2 ^ 45 ≤ 1 / (2 * b) := by
    apply one_div_le_one_div_of_le (by positivity)
    have : (2 : ℚ) ^ 45 = 2 * 2 ^ 44 := by norm_num
    rw [this]; linarith
  have hlo : (1 : ℚ) / (2 * b) ≤ (((200 * a + b) % (2 * b) : ℕ) : ℚ) / (2 * b) :=
    div_le_div_of_nonneg_right hrem1 (by positivity)
  have hhi : (((200 * a + b) % (2 * b) : ℕ) : ℚ) / (2 * b) ≤ 1 - 1 / (2 * b) := by
    rw [div_le_iff₀ (by positivity)]
    have : (1 - 1 / (2 * (b : ℚ))) * (2 * b) = 2 * b - 1 := by field_simp
    rw [this]; exact hrem2
  have hsmall : (202 : ℚ) / 2 ^ 53 < 1 / 2 ^ 45 := by norm_num
  rw [abs_le] at hnear
  unfold jsPct
  apply Nat.le_antisymm
  · apply mathRound_le _ (toDouble_snd_pos _ _)
    linarith
  · apply mathRound_ge _ (toDouble_snd_pos _ _)
    linarith

theorem jsPct_tie (a b : Nat) (hb : 0 < b) (hab : a ≤ b) :
    roundPct a b - 1 ≤ jsPct a b ∧ (b ≤ 2 ^ 44 → jsPct a b ≤ roundPct a b) := by
  have hnear := jsPct_near a b hb hab
  have hsplit := roundPct_split a b hb
  have hb2 : (0 : ℚ) < b := by exact_mod_cast hb
  have hrem0 : (0 : ℚ) ≤ (((200 * a + b) % (2 * b) : ℕ) : ℚ) / (2 * b) := by positivity
  have hsmall : (202 : ℚ) / 2 ^ 53 < 1 / 2 ^ 45 := by norm_num
  have hsmall2 : (1 : ℚ) / 2 ^ 45 < 1 := by norm_num
  rw [abs_le] at hnear
  constructor
  · unfold jsPct
    apply mathRound_ge _ (toDouble_snd_pos _ _)
    have hc : ((roundPct a b - 1 : ℕ) : ℚ) ≤ (roundPct a b : ℚ) - 1 + 1 := by
      have : roundPct a b - 1 ≤ roundPct a b := Nat.sub_le _ _
      have h2 : ((roundPct a b - 1 : ℕ) : ℚ) ≤ (roundPct a b : ℚ) := by exact_mod_cast this
      linarith
    by_cases h0 : roundPct a b = 0
    · rw [h0]
      have : (0 : ℚ) ≤ dval (toDouble ((toDouble a b).1 * 100) (toDouble a b).2) := by
        unfold dval; positivity
      simp only [Nat.zero_sub, Nat.cast_zero]
      linarith
    · have h1 : ((roundPct a b - 1 : ℕ) : ℚ) = (roundPct a b : ℚ) - 1 := by
        rw [Nat.cast_sub (Nat.one_le_iff_ne_zero.mpr h0)]; simp
      rw [h1]
      linarith
  · intro hbig
    by_cases htie : (200 * a + b) % (2 * b) = 0
    · unfold jsPct
      apply mathRound_le _ (toDouble_snd_pos _ _)
      rw [htie] at hsplit
      simp only [Nat.cast_zero, zero_div, add_zero] at hsplit
      linarith
    · exact le_of_eq (jsPct_eq_of_not_tie a b hb hab hbig htie)

/-- The rounding depends on the quotient only. -/
theorem scaleUp_mul (j : Nat) (hj : 0 < j) (fuel n d : Nat) :
    scaleUp fuel (j * n) (j * d) = scaleUp fuel n d := by
  induction fuel generalizing n with
  | zero => rfl
  | succ f ih =>
    have hiff : j * n < 2 ^ 52 * (j * d) ↔ n < 2 ^ 52 * d := by
      rw [Nat.mul_left_comm]
      exact Nat.mul_lt_mul_left hj
    by_cases h : n < 2 ^ 52 * d
    · rw [scaleUp, if_pos (hiff.mpr h), scaleUp, if_pos h, Nat.mul_left_comm, ih]
    · rw [scaleUp, if_neg (fun h2 => h (hiff.mp h2)), scaleUp, if_neg h]

theorem roundHalfEven_mul (j : Nat) (hj : 0 < j) (n d : Nat) :
    roundHalfEven (j * n) (j * d) = roundHalfEven n d := by
  unfold roundHalfEven
  rw [Nat.mul_mod_mul_left, Nat.mul_div_mul_left _ _ hj]
  have h1 : 2 * (j * (n % d)) < j * d ↔ 2 * (n % d) < d := by
    rw [Nat.mul_left_comm]
    exact Nat.mul_lt_mul_left hj
  have h2 : j * d < 2 * (j * (n % d)) ↔ d < 2 * (n % d) := by
    rw [Nat.mul_left_comm]
    exact Nat.mul_lt_mul_left hj
  simp only [h1, h2]

theorem toDouble_mul (j : Nat) (hj : 0 < j) (n d : Nat) :
    toDouble (j * n) (j * d) = toDouble n d := by
  unfold toDouble
  rw [scaleUp_mul j hj, Nat.mul_assoc, roundHalfEven_mul j hj]

theorem jsPct_mul (j : Nat) (hj : 0 < j) (a b : Nat) : jsPct (j * a) (j * b) = jsPct a b := by
  unfold jsPct
  rw [toDouble_mul j hj]

set_option maxRecDepth 100000 in
theorem jsPct_199_200 : jsPct 199 200 = 100 := by decide

theorem roundPct_le_hundred (a b : Nat) (hb : 0 < b) (hab : a ≤ b) : roundPct a b ≤ 100 := by
  unfold roundPct
  apply Nat.le_of_lt_succ
  rw [Nat.div_lt_iff_lt_mul (by omega)]
  omega

theorem roundPct_eq_hundred_iff (a b : Nat) (hb : 0 < b) (hab : a ≤ b) :
    roundPct a b = 100 ↔ 199 * b ≤ 200 * a := by
  have hle := roundPct_le_hundred a b hb hab
  constructor
  · intro h
    have h2 : 100 ≤ (200 * a + b) / (2 * b) := by
      unfold roundPct at h; omega
    rw [Nat.le_div_iff_mul_le (by omega)] at h2
    omega
  · intro h
    have h2 : 100 ≤ roundPct a b := by
      unfold roundPct
      rw [Nat.le_div_iff_mul_le (by omega)]
      omega
    omega

theorem jsPct_eq_hundred_iff (a b : Nat) (hb : 0 < b) (hab : a ≤ b) (hbig : b ≤ 2 ^ 44) :
    jsPct a b = 100 ↔ 199 * b ≤ 200 * a := by
  have hle := roundPct_le_hundred a b hb hab
  have hup := (jsPct_tie a b hb hab).2 hbig
  constructor
  · intro h
    exact (roundPct_eq_hundred_iff a b hb hab).mp (by omega)
  · intro h
    have hK := (roundPct_eq_hundred_iff a b hb hab).mpr h
    by_cases htie : (200 * a + b) % (2 * b) = 0
    · have hdm := Nat.div_add_mod (200 * a + b) (2 * b)
      rw [htie] at hdm
      have hK2 : (200 * a + b) / (2 * b) = 100 := hK
      rw [hK2] at hdm
      have heq : 200 * a = 199 * b := by omega
      have hdvd : 200 ∣ b := by
        have h1 : 200 ∣ 199 * b := ⟨a, heq.symm⟩
        exact (Nat.Coprime.dvd_mul_left (by decide)).mp h1
      obtain ⟨j, rfl⟩ := hdvd
      have ha : a = j * 199 := by omega
      subst ha
      have hj : 0 < j := by omega
      rw [Nat.mul_comm 200 j, jsPct_mul j hj]
      exact jsPct_199_200
    · rw [jsPct_eq_of_not_tie a b hb hab hbig htie]
      exact hK

theorem mathRound_eq_floor (p : Nat × Nat) :
    (mathRound p : ℤ) = ⌊dval p + 1 / 2⌋ := by
  by_cases hp : p.2 = 0
  · simp only [mathRound, dval, hp, Nat.mul_zero, Nat.div_zero, Nat.cast_zero, div_zero,
      zero_add]
    symm
    rw [Int.floor_eq_iff]
    norm_num
  · have hp2 : (0 : ℚ) < p.2 := by exact_mod_cast Nat.pos_of_ne_zero hp
    have h1 : dval p + 1 / 2 = ((2 * p.1 + p.2 : ℕ) : ℚ) / ((2 * p.2 : ℕ) : ℚ) := by
      unfold dval
      push_cast
      field_simp
      ring
    rw [h1, Rat.floor_natCast_div_natCast]
    simp [mathRound]

/-- The rounding of the source, in doubles, is within the tolerance `RoundsNear`. -/
theorem jsPct_roundsNear : RoundsNear jsPct := by
  intro len total ht hle
  refine ⟨dval (toDouble ((toDouble len total).1 * 100) (toDouble len total).2), ?_, ?_⟩
  · refine le_trans (jsPct_near len total ht hle) ?_
    norm_num
  · exact mathRound_eq_floor _

set_option maxRecDepth 1000000 in
set_option maxHeartbeats 4000000 in
/-- C20 as stated fails on the code: 23 right answers of 40 are 57.5%, and the
source shows 57, not the 58 of rounding half up, for the section and for the
whole exam.  In doubles `23 / 40` is just below 0.575 and its product with 100
is 57.49999999999999; the same happens at 46 of 80, 69 of 120 and 29 of 200. -/
theorem pct_round_half_up_counterexample :
    twentyThreeRight.examSections = some [fortySection]
    ∧ examTotalCorrect jsPct twentyThreeRight = 23
    ∧ totalExamQs twentyThreeRight = 40
    ∧ examTotalPct jsPct twentyThreeRight = 57
    ∧ (examResults jsPct twentyThreeRight).map (fun rs => rs.map (fun r => r.pct)) = some [57]
    ∧ (200 * 23 + 40) / (2 * 40) = 58
    ∧ jsPct 23 40 = 57 ∧ jsPct 46 80 = 57 ∧ jsPct 69 120 = 57 ∧ jsPct 29 200 = 14
    ∧ (200 * 29 + 200) / (2 * 200) = 15
    ∧ examTotalPct jsPct twentyThreeRight
        ≠ (200 * examTotalCorrect jsPct twentyThreeRight + totalExamQs twentyThreeRight)
            / (2 * totalExamQs twentyThreeRight) := by
  decide

/-- C20 (amended): every score percentage (quick quiz, exam section, whole
exam) is `Math.round((correct / total) * 100)` evaluated in doubles, `jsPct`.
For naturals `correct ≤ total` with `0 < total ≤ 2^44` (every array length is
below `2^32`) it equals `⌊(200 * correct + total) / (2 * total)⌋`, the exact
quotient rounded half up, whenever the exact quotient is not halfway between two
integers; at such a tie it is that value or one less.  It is at most 100, and
it is 100 exactly when the exact rounding reaches 100, that is when
`199 * total ≤ 200 * correct`. -/
theorem pct_round_doubles (correct total : Nat) (ht : 0 < total) (hle : correct ≤ total)
    (hbig : total ≤ 2 ^ 44) :
    ((200 * correct + total) % (2 * total) ≠ 0 →
        jsPct correct total = (200 * correct + total) / (2 * total))
    ∧ (200 * correct + total) / (2 * total) - 1 ≤ jsPct correct total
    ∧ jsPct correct total ≤ (200 * correct + total) / (2 * total)
    ∧ ((200 * correct + total) % (2 * total) ≠ 0 →
        (jsPct correct total : ℤ) = ⌊(correct : ℚ) / total * 100 + 1 / 2⌋)
    ∧ jsPct correct total ≤ 100
    ∧ (jsPct correct total = 100 ↔ 199 * total ≤ 200 * correct)
    ∧ (jsPct correct total = 100 ↔ (100 : ℚ) ≤ (correct : ℚ) / total * 100 + 1 / 2)
    ∧ (∀ (s : QuizState) (qs : List QuickQuestion), s.quickQuiz = some qs →
        qqPct jsPct s = some (jsPct (qqScore s) qs.length))
    ∧ (∀ (o : JsObject) (x : Nat × ExamSection),
        (scoreSection jsPct o x).pct
          = jsPct (scoreSection jsPct o x).correct (scoreSection jsPct o x).total)
    ∧ (∀ s : ExamState, (examResults jsPct s).isSome →
        examTotalPct jsPct s = jsPct (examTotalCorrect jsPct s) (totalExamQs s)) := by
  have htie := jsPct_tie correct total ht hle
  have hK := roundPct_le_hundred correct total ht hle
  have h100 := jsPct_eq_hundred_iff correct total ht hle hbig
  have hup : jsPct correct total ≤ roundPct correct total := htie.2 hbig
  refine ⟨fun h => jsPct_eq_of_not_tie correct total ht hle hbig h, htie.1, hup, ?_,
    le_trans hup hK, h100, ?_, ?_, ?_, ?_⟩
  · intro h
    rw [jsPct_eq_of_not_tie correct total ht hle hbig h]
    exact roundPct_eq_floor correct total ht
  · rw [h100]
    have htq : (0 : ℚ) < total := by exact_mod_cast ht
    constructor
    · intro h
      have h2 : (199 : ℚ) * total ≤ 200 * correct := by exact_mod_cast h
      have e : (correct : ℚ) / total * 100 + 1 / 2 = (200 * correct + total) / (2 * total) := by
        field_simp
        ring
      rw [e, le_div_iff₀ (by positivity)]
      linarith
    · intro h
      have e : (correct : ℚ) / total * 100 + 1 / 2 = (200 * correct + total) / (2 * total) := by
        field_simp
        ring
      rw [e, le_div_iff₀ (by positivity)] at h
      have h2 : (199 : ℚ) * total ≤ 200 * correct := by linarith
      exact_mod_cast h2
  · intro s qs hqs
    simp [qqPct, hqs]
  · intro o x
    simp [scoreSection]
  · intro s hs
    unfold examTotalPct
    cases h : examResults jsPct s with
    | none => rw [h] at hs; simp at hs
    | some rs => rfl

set_option maxRecDepth 100000 in
/-- Two of three is 67 (no tie); seven of eight is the tie 87.5, exact in
doubles, and gives 88; 23 of 40 is the tie 57.5 and gives 57. -/
theorem pct_round_doubles_witness :
    (0 < 3 ∧ 2 ≤ 3 ∧ 3 ≤ 2 ^ 44 ∧ (200 * 2 + 3) % (2 * 3) ≠ 0
      ∧ jsPct 2 3 = (200 * 2 + 3) / (2 * 3) ∧ jsPct 2 3 = 67)
    ∧ (0 < 8 ∧ 7 ≤ 8 ∧ 8 ≤ 2 ^ 44 ∧ (200 * 7 + 8) % (2 * 8) = 0
      ∧ jsPct 7 8 ≤ (200 * 7 + 8) / (2 * 8) ∧ jsPct 7 8 = 88)
    ∧ (0 < 40 ∧ 23 ≤ 40 ∧ 40 ≤ 2 ^ 44 ∧ (200 * 23 + 40) % (2 * 40) = 0
      ∧ (200 * 23 + 40) / (2 * 40) - 1 ≤ jsPct 23 40 ∧ jsPct 23 40 = 57) :=
  ⟨⟨by decide, by decide, by decide, by decide,
      (pct_round_doubles 2 3 (by decide) (by decide) (by decide)).1 (by decide), by decide⟩,
    ⟨by decide, by decide, by decide, by decide,
      (pct_round_doubles 7 8 (by decide) (by decide) (by decide)).2.2.1, by decide⟩,
    ⟨by decide, by decide, by decide, by decide,
      (pct_round_doubles 23 40 (by decide) (by decide) (by decide)).2.1, by decide⟩⟩

end StudyApp
